import Mathlib

/-!
# EEPROM programmer (`prog.c`): shallow embedding and verified properties

The parallel port is modelled as three registers (data, control, direction)
plus a counter of data-register reads.  What the device drives onto the data
lines is an input of the model: `dev n` is the value returned by the `n`-th
call of `ieee1284_read_data`.  `ieee1284_read_control` returns the control
register as last written.  The values the status register delivers to
`isProgReady` are inputs too.

Every port primitive appends a `PortOp` to `World.ops`; the byte-level
functions, `usleep` and `writeBlock` append a `Call` record (arguments and
return value) to `World.calls` when they return.  Both logs are observation
only: no function reads them.

C integers are `Nat`/`Int`; casts to `t_byte` and `t_word` are written as
`% 256` and `% 65536` at the place where the source converts.
-/

namespace Prog

set_option maxRecDepth 1000000

/-! ## Constants (`#define`s of `prog.c`) -/

abbrev EEPROM_SIZE : Nat := 0x8000
abbrev DATA_BUFFER : Nat := 1024
abbrev DATA_INIT : Nat := 0xff
abbrev CNTRL_INIT : Nat := 0x0f
abbrev SET_STROBE : Nat := 0x01
abbrev CLR_STROBE : Nat := 0xfe
abbrev CLR_FUNC : Nat := 0xf1
abbrev FUNC_LOADD : Nat := 0x00
abbrev FUNC_HIADD : Nat := 0x02
abbrev FUNC_CS : Nat := 0x02
abbrev FUNC_WE : Nat := 0x04
abbrev FUNC_OE : Nat := 0x06
abbrev FUNC_LOOP : Nat := 0x0e
abbrev TEST : Nat := 0x80
abbrev CS_SET : Int := 0x80
abbrev CS_CLR : Int := 0x7f
abbrev DIR_READ : Int := -1
abbrev DIR_WRITE : Int := 0
abbrev S_RECORD : Int := 1
abbrev BINARY : Int := 2
abbrev WRITEOK : Nat := 0
abbrev WRITETOV : Nat := 1
abbrev WRITEVER : Nat := 2

/-! ## State -/

/-- One access to the parallel port through the `ieee1284_*` primitives. -/
inductive PortOp where
  | writeData (b : Nat)
  | writeControl (b : Nat)
  | readControl (v : Nat)
  | readData (v : Nat)
  | dataDir (d : Int)
  | readStatus (v : Int)
  deriving DecidableEq, Repr

/-- Record of a completed call of a programmer function, with its arguments
and (where it has one) its return value; `usleep` is recorded too. -/
inductive Call where
  | setAddress (address : Nat) (nCS : Int) (ret : Nat)
  | writeByte (address byte ret : Nat)
  | readByte (address ret : Nat)
  | fastByteWrite (address byte : Nat)
  | usleep (usec : Nat)
  | writeBlock (address : Nat) (nCount : Int) (ret : Nat)
  deriving DecidableEq, Repr

/-- Registers of the parallel port, and the number of data reads done so far. -/
structure Port where
  data : Nat
  control : Nat
  dir : Int
  reads : Nat
  deriving DecidableEq, Repr

/-- Whole program state: the port, the globals `buffer`, `startAddress`,
`endAddress`, and the two observation logs. -/
structure World where
  port : Port
  buffer : List Nat
  startAddress : Nat
  endAddress : Nat
  ops : List PortOp
  calls : List Call
  deriving DecidableEq, Repr

/-! ## Port primitives (library `ieee1284`) -/

def ieee1284_write_data (b : Nat) (w : World) : World :=
  { w with port := { w.port with data := b }, ops := w.ops ++ [PortOp.writeData b] }

def ieee1284_write_control (b : Nat) (w : World) : World :=
  { w with port := { w.port with control := b }, ops := w.ops ++ [PortOp.writeControl b] }

def ieee1284_read_control (w : World) : Nat × World :=
  (w.port.control, { w with ops := w.ops ++ [PortOp.readControl w.port.control] })

def ieee1284_read_data (dev : Nat → Nat) (w : World) : Nat × World :=
  (dev w.port.reads,
   { w with port := { w.port with reads := w.port.reads + 1 },
            ops := w.ops ++ [PortOp.readData (dev w.port.reads)] })

def ieee1284_data_dir (d : Int) (w : World) : World :=
  { w with port := { w.port with dir := d }, ops := w.ops ++ [PortOp.dataDir d] }

/-- Read of the status register; `v` is the value the port delivers. -/
def ieee1284_read_status (v : Int) (w : World) : Int × World :=
  (v, { w with ops := w.ops ++ [PortOp.readStatus v] })

def usleep (usec : Nat) (w : World) : World :=
  { w with calls := w.calls ++ [Call.usleep usec] }

/-! ## Strobe and function select -/

def setStrobe (w : World) : World :=
  let r := ieee1284_read_control w
  let byte := r.1 % 256
  let byte := (byte ||| SET_STROBE) % 256
  ieee1284_write_control byte r.2

def clrStrobe (w : World) : World :=
  let r := ieee1284_read_control w
  let byte := r.1 % 256
  let byte := byte &&& CLR_STROBE
  ieee1284_write_control byte r.2

def pulseStrobe (w : World) : World :=
  setStrobe (clrStrobe (setStrobe w))

def selectFunc (nFunc : Nat) (w : World) : World :=
  let r := ieee1284_read_control w
  let byte := r.1 % 256
  let byte := byte &&& CLR_FUNC
  let byte := (byte ||| (nFunc % 256)) % 256
  ieee1284_write_control byte r.2

/-! ## Address latch controller -/

/-- The value `setAddress` puts on the data lines for the high address latch:
its statements `byte = (t_byte) ((address & 0xff00) >> 8); if ( nCS == CS_CLR )
byte &= CS_CLR; else byte |= CS_SET;`. -/
def hiByte (address : Nat) (nCS : Int) : Nat :=
  let byte := ((address &&& 0xff00) >>> 8) % 256
  if nCS = CS_CLR then byte &&& 0x7f else (byte ||| 0x80) % 256

/-- Embedding of `setAddress(t_word address, int nCS)`. -/
def setAddress (address : Nat) (nCS : Int) (w : World) : Nat × World :=
  if address ≥ EEPROM_SIZE then
    (1, { w with calls := w.calls ++ [Call.setAddress address nCS 1] })
  else
    let byte := (address &&& 0x00ff) % 256
    let w := ieee1284_write_data byte w
    let w := selectFunc FUNC_LOADD w
    let w := pulseStrobe w
    let byte := hiByte address nCS
    let w := ieee1284_write_data byte w
    let w := selectFunc FUNC_HIADD w
    let w := pulseStrobe w
    (0, { w with calls := w.calls ++ [Call.setAddress address nCS 0] })

/-! ## Byte engine -/

/-- Embedding of `readByte(t_word address)`. -/
def readByte (dev : Nat → Nat) (address : Nat) (w : World) : Nat × World :=
  let w := (setAddress address CS_CLR w).2
  let w := ieee1284_data_dir DIR_READ w
  let w := selectFunc FUNC_OE w
  let w := clrStrobe w
  let w := usleep 10 w
  let r := ieee1284_read_data dev w
  let byte := r.1 % 256
  let w := setStrobe r.2
  let w := ieee1284_data_dir DIR_WRITE w
  let w := (setAddress address CS_SET w).2
  (byte, { w with calls := w.calls ++ [Call.readByte address byte] })

/-- Embedding of `fastByteWrite(t_word address, t_byte byte)`. -/
def fastByteWrite (address byte : Nat) (w : World) : World :=
  let w := (setAddress address CS_CLR w).2
  let w := selectFunc FUNC_WE w
  let w := ieee1284_write_data byte w
  let w := pulseStrobe w
  { w with calls := w.calls ++ [Call.fastByteWrite address byte] }

/-- The `while ( readTest )` loop of `writeByte`, with the loop variables `i`,
`readTest`, `readBack` as arguments; it returns `(nResult, readBack, state)`.
The first argument only makes the recursion structural: the loop leaves by
itself once `i > 100`, and `writeByteLoop_fuel` shows that every value
`≥ 101 - i` of it gives the same result. -/
def writeByteLoop (dev : Nat → Nat) (address byte : Nat) :
    Nat → Nat → Nat → Nat → World → Nat × Nat × World
  | 0, _, _, readBack, w => (WRITEOK, readBack, w)
  | fuel + 1, i, readTest, readBack, w =>
    if readTest ≠ 0 then
      let r := readByte dev address w
      let readBack := r.1
      let readTest := (readBack ^^^ byte) &&& 0x80
      let i := i + 1
      if i > 100 then (WRITETOV, readBack, r.2)
      else writeByteLoop dev address byte fuel i readTest readBack r.2
    else (WRITEOK, readBack, w)

/-- Embedding of `writeByte(t_word address, t_byte byte)`.  `readBack` is
uninitialised before the loop in the source; the loop body assigns it before
any use because `readTest` starts at 1. -/
def writeByte (dev : Nat → Nat) (address byte : Nat) (w : World) : Nat × World :=
  let w := (setAddress address CS_CLR w).2
  let w := selectFunc FUNC_WE w
  let w := ieee1284_write_data byte w
  let w := pulseStrobe w
  let w := usleep 1000 w
  let w := (setAddress address CS_SET w).2
  let r := writeByteLoop dev address byte 101 0 1 0 w
  let nResult := r.1
  let readBack := r.2.1
  let w := r.2.2
  let nResult := if nResult = WRITEOK ∧ readBack ≠ byte then WRITEVER else nResult
  (nResult, { w with calls := w.calls ++ [Call.writeByte address byte nResult] })

/-! ## Block transfer engine -/

/-- The `for` loop of `readBlock`; the first argument is the number of
iterations left (`nCount - i`), which makes the recursion structural.  A store
to `buffer[i]` past the end of the buffer (never asked for by a caller: they
pass `nCount ≤ DATA_BUFFER`) is dropped. -/
def readBlockLoop (dev : Nat → Nat) (address : Nat) (nCount : Int) :
    Nat → Nat → World → Nat × World
  | 0, i, w => (i, w)
  | fuel + 1, i, w =>
    if (i : Int) < nCount then
      if i + address > EEPROM_SIZE - 1 then (i, w)
      else
        let r := readByte dev ((i % 65536 + address) % 65536) w
        let byte := r.1
        let w := { r.2 with buffer := r.2.buffer.set i byte }
        readBlockLoop dev address nCount fuel (i + 1) w
    else (i, w)

/-- Embedding of `readBlock(t_word address, int nCount)`. -/
def readBlock (dev : Nat → Nat) (address : Nat) (nCount : Int) (w : World) : Nat × World :=
  readBlockLoop dev address nCount nCount.toNat 0 w

/-- The `for` loop of `writeBlock`; the first argument is the number of
iterations left (`nCount - i`), which makes the recursion structural. -/
def writeBlockLoop (dev : Nat → Nat) (address : Nat) (nCount : Int) :
    Nat → Nat → World → Nat × World
  | 0, i, w => (i, w)
  | fuel + 1, i, w =>
    if (i : Int) < nCount then
      if i + address > EEPROM_SIZE - 1 then (i, w)
      else
        let byte := w.buffer.getD i 0
        let r := writeByte dev ((i + address) % 65536) byte w
        let nWriteResult := r.1
        if nWriteResult ≠ 0 then (i, r.2)
        else writeBlockLoop dev address nCount fuel (i + 1) r.2
    else (i, w)

/-- Embedding of `writeBlock(t_word address, int nCount)`. -/
def writeBlock (dev : Nat → Nat) (address : Nat) (nCount : Int) (w : World) : Nat × World :=
  let r := writeBlockLoop dev address nCount nCount.toNat 0 w
  (r.1, { r.2 with calls := r.2.calls ++ [Call.writeBlock address nCount r.1] })

/-! ## S-record consumer -/

/-- Value of a hexadecimal digit as `sscanf` reads it, `none` for any other
character (the NUL terminator included). -/
def hexDigit (c : Char) : Option Nat :=
  if '0' ≤ c ∧ c ≤ '9' then some (c.toNat - '0'.toNat)
  else if 'a' ≤ c ∧ c ≤ 'f' then some (c.toNat - 'a'.toNat + 10)
  else if 'A' ≤ c ∧ c ≤ 'F' then some (c.toNat - 'A'.toNat + 10)
  else none

/-- The line buffer `textLine` after `getline` has read the line `line` into
it: the characters of the line, the terminating NUL, and behind it what the
buffer held before (`getline` reuses the buffer, so the tail of a longer earlier
line is still there). -/
def getline (textLine line : List Char) : List Char :=
  line ++ '\x00' :: textLine.drop (line.length + 1)

/-- Character `textLine[k]` of the line buffer.  Memory that `getline` has never
written is taken to hold NUL. -/
def charAt (textLine : List Char) (k : Nat) : Char :=
  textLine.getD k '\x00'

/-- The text `strncpy(&textTemp[2], &textLine[off], n)` leaves after the `0x`
of `textTemp`: the characters from `off`, at most `n`, up to a NUL. -/
def strncpy (textLine : List Char) (off n : Nat) : List Char :=
  ((List.range n).map (fun k => charAt textLine (off + k))).takeWhile (fun c => c ≠ '\x00')

/-- The hexadecimal digits a text starts with. -/
def hexPrefix : List Char → List Nat
  | [] => []
  | c :: cs =>
    match hexDigit c with
    | some d => d :: hexPrefix cs
    | none => []

/-- Embedding of `sscanf(textTemp, "%x", &var)` on `0x` followed by `field`:
the value of the leading hexadecimal digits of `field`.  When `field` starts
with no hexadecimal digit the C library converts the `0` of the `0x` prefix, so
the value is 0.  The result is `none` when `sscanf` makes no conversion and
`var` keeps its value; with the `0x` prefix that does not happen. -/
def sscanfHex (field : List Char) : Option Nat :=
  some ((hexPrefix field).foldl (fun acc d => acc * 16 + d) 0)

/-- Locals of `writeEEPROMsrec` whose value is carried from one line to the
next.  `nByteCount`, `nDataByte` and `nWriteResult` are not initialised by the
source: their initial values are inputs of the model.  `textLine` is the line
buffer that `getline` allocates and reuses. -/
structure SrecVars where
  nByteCount : Int
  nDataByte : Int
  nWriteResult : Int
  nTotalWritten : Int
  textLine : List Char
  deriving DecidableEq, Repr

/-- The `for ( i = 0; i < nByteCount; i++ )` loop over the data bytes of one
record; returns `(i, nDataByte, nWriteResult, state)`.  The first argument is
the number of iterations left, which makes the recursion structural. -/
def srecByteLoop (dev : Nat → Nat) (textLine : List Char) (nByteCount : Int) :
    Nat → Nat → Int → Int → World → Nat × Int × Int × World
  | 0, i, nDataByte, nWriteResult, w => (i, nDataByte, nWriteResult, w)
  | fuel + 1, i, nDataByte, nWriteResult, w =>
    if (i : Int) < nByteCount then
      let nDataByte :=
        match sscanfHex (strncpy textLine (8 + i * 2) 2) with
        | some x => (x : Int)
        | none => nDataByte
      let r := writeByte dev ((i + w.startAddress) % 65536) (nDataByte % 256).toNat w
      let nWriteResult : Int := r.1
      if nWriteResult ≠ 0 then (i, nDataByte, nWriteResult, r.2)
      else srecByteLoop dev textLine nByteCount fuel (i + 1) nDataByte nWriteResult r.2
    else (i, nDataByte, nWriteResult, w)

/-- Body of `if ( textLine[1] == '1' )`: one data record. -/
def srecRecord (dev : Nat → Nat) (textLine : List Char) (v : SrecVars) (w : World) :
    SrecVars × World :=
  let nByteCount :=
    match sscanfHex (strncpy textLine 2 2) with
    | some x => (x : Int)
    | none => v.nByteCount
  let nByteCount := nByteCount - 3
  let startAddress :=
    match sscanfHex (strncpy textLine 4 4) with
    | some x => x % 65536
    | none => w.startAddress
  let w := { w with startAddress := startAddress }
  let r := srecByteLoop dev textLine nByteCount nByteCount.toNat 0 v.nDataByte v.nWriteResult w
  let i := r.1
  let nDataByte := r.2.1
  let nWriteResult := r.2.2.1
  let nTotalWritten := if nWriteResult = 0 then v.nTotalWritten + i else v.nTotalWritten
  ({ nByteCount := nByteCount, nDataByte := nDataByte, nWriteResult := nWriteResult,
     nTotalWritten := nTotalWritten, textLine := v.textLine }, r.2.2.2)

/-- The `while (getline ...)` loop over the lines of the file; the argument is
the list of the lines still to be read. -/
def srecFileLoop (dev : Nat → Nat) : List (List Char) → SrecVars → World → SrecVars × World
  | [], v, w => (v, w)
  | line :: rest, v, w =>
    let v := { v with textLine := getline v.textLine line }
    let r := if charAt v.textLine 1 = '1' then srecRecord dev v.textLine v w else (v, w)
    if r.1.nWriteResult ≠ 0 then r
    else srecFileLoop dev rest r.1 r.2

/-- Embedding of `writeEEPROMsrec()`.  `file` is `none` when `fopen` fails,
else the lines `getline` returns; `nByteCount0`, `nDataByte0`, `nWriteResult0`
are the indeterminate initial values of the uninitialised locals. -/
def writeEEPROMsrec (dev : Nat → Nat) (nByteCount0 nDataByte0 nWriteResult0 : Int)
    (file : Option (List (List Char))) (w : World) : Int × World :=
  match file with
  | some lines =>
    let v : SrecVars := { nByteCount := nByteCount0, nDataByte := nDataByte0,
                          nWriteResult := nWriteResult0, nTotalWritten := 0, textLine := [] }
    let r := srecFileLoop dev lines v w
    (0, r.2)
  | none => (1, w)

/-- Follows the spec's words ("2-hex-digit byte"): the value of the two
hexadecimal digits at offsets `off`, `off + 1` of the line, when both are
hexadecimal digits. -/
def specHexByte (textLine : List Char) (off : Nat) : Option Nat :=
  match hexDigit (charAt textLine off), hexDigit (charAt textLine (off + 1)) with
  | some d1, some d0 => some (16 * d1 + d0)
  | _, _ => none

/-- Follows the spec's words ("4 hex digits, parsed as a 16-bit big-endian
value"): the value of the four hexadecimal digits at offsets `off .. off + 3`. -/
def specHexWord (textLine : List Char) (off : Nat) : Option Nat :=
  match specHexByte textLine off, specHexByte textLine (off + 2) with
  | some hi, some lo => some (256 * hi + lo)
  | _, _ => none

/-! ## Binary file write -/

/-- Embedding of `read(fd, buffer, nCount)` on a file with contents `file` and
position `pos` (no I/O error, no short read before the end of the file):
returns `(nRead, buffer, pos)`. -/
def fileRead (file : List Nat) (pos : Nat) (nCount : Int) (buffer : List Nat) :
    Nat × List Nat × Nat :=
  let chunk := (file.drop pos).take nCount.toNat
  (chunk.length, chunk ++ buffer.drop chunk.length, pos + chunk.length)

/-- The block loop of `writeEEPROMbin`, `for ( i = startAddress; i <= endAddress;
i += (t_word) nWritten )`, with `i` and the file position as arguments.  The loop
has no bound of its own: the result is `none` when the first argument (the
number of iterations allowed) runs out. -/
def writeEEPROMbinLoop (dev : Nat → Nat) (file : List Nat) :
    Nat → Nat → Nat → World → Option Int × World
  | 0, _, _, w => (none, w)
  | fuel + 1, i, pos, w =>
    if i ≤ w.endAddress then
      let nCount : Int :=
        if ((w.endAddress : Int) - i + 1) ≥ DATA_BUFFER then DATA_BUFFER
        else (w.endAddress : Int) - i + 1
      let rd := fileRead file pos nCount w.buffer
      let nRead := rd.1
      let w := { w with buffer := rd.2.1 }
      let r := writeBlock dev i nRead w
      let nWritten := r.1
      if nRead ≠ nWritten then (some 1, r.2)
      else writeEEPROMbinLoop dev file fuel ((i + nWritten % 65536) % 65536) rd.2.2 r.2
    else (some 0, w)

/-- The conversion of the file size `filestat.st_size` (an `off_t`, 64 bits)
to the `int nFileSize` it is assigned to: the value modulo `2^32`, taken in the
range `-2^31 .. 2^31 - 1`. -/
def toInt (st_size : Nat) : Int :=
  ((st_size : Int) + 2147483648) % 4294967296 - 2147483648

/-- Embedding of `writeEEPROMbin()`.  `file` is `none` when `open` fails, else
the bytes of the file (`fstat` is taken to succeed).  The result is `none` when
the block loop has not finished within `fuel` iterations. -/
def writeEEPROMbin (dev : Nat → Nat) (fuel : Nat) (file : Option (List Nat)) (w : World) :
    Option Int × World :=
  let r := setAddress w.startAddress CS_SET w
  if r.1 ≠ 0 then (some 1, r.2)
  else
    let w := r.2
    match file with
    | some bytes =>
      let nFileSize : Int := toInt bytes.length
      if nFileSize > EEPROM_SIZE then (some 1, w)
      else
        let w := { w with endAddress :=
          (w.startAddress + (nFileSize % 65536).toNat + 65535) % 65536 }
        writeEEPROMbinLoop dev bytes fuel w.startAddress 0 w
    | none => (some 1, w)

/-- Embedding of `writeEEPROM()`: dispatch on `nFileFlag`. -/
def writeEEPROM (dev : Nat → Nat) (nFileFlag : Int) (fuel : Nat)
    (nByteCount0 nDataByte0 nWriteResult0 : Int)
    (binFile : Option (List Nat)) (srecFile : Option (List (List Char))) (w : World) :
    Option Int × World :=
  if nFileFlag = BINARY then writeEEPROMbin dev fuel binFile w
  else
    let r := writeEEPROMsrec dev nByteCount0 nDataByte0 nWriteResult0 srecFile w
    (some r.1, r.2)

/-! ## Erase -/

/-- The `for (address = 0; address < EEPROM_SIZE; address++)` loop of
`eraseEEPROM`, with `address` and `nByteCount` as arguments (the progress
`printf` is left out); the first argument is the number of iterations left,
which makes the recursion structural. -/
def eraseLoop : Nat → Nat → Int → World → World
  | 0, _, _, w => w
  | fuel + 1, address, nByteCount, w =>
    if address < EEPROM_SIZE then
      let w := fastByteWrite address 0xff w
      let nByteCount := nByteCount + 1
      let r := if nByteCount = 64 then ((0 : Int), usleep 20000 w) else (nByteCount, w)
      eraseLoop fuel ((address + 1) % 65536) r.1 r.2
    else w

/-- Embedding of `eraseEEPROM()`. -/
def eraseEEPROM (w : World) : Int × World :=
  let w := eraseLoop EEPROM_SIZE 0 0 w
  let w := (setAddress 0 CS_SET w).2
  (0, w)

/-! ## Read to file -/

/-- Embedding of `fileWrite(fd, nCount)` with the output file as the list of
bytes written so far: in binary mode the first `nCount` bytes of `buffer` are
appended and `nCount` is returned (no I/O error); in any other mode nothing is
written and 0 is returned. -/
def fileWrite (nFileFlag : Int) (nCount : Nat) (out : List Nat) (w : World) : Nat × List Nat :=
  if nFileFlag = BINARY then (nCount, out ++ w.buffer.take nCount)
  else (0, out)

/-- The block loop of `readEEPROM`, `for ( i = startAddress; i <= endAddress;
i += (t_word) nRead )`, with `i` and the output file as arguments.  The loop has
no bound of its own: the result is `none` when the first argument (the number of
iterations allowed) runs out. -/
def readEEPROMLoop (dev : Nat → Nat) (nFileFlag : Int) :
    Nat → Nat → List Nat → World → Option Int × List Nat × World
  | 0, _, out, w => (none, out, w)
  | fuel + 1, i, out, w =>
    if i ≤ w.endAddress then
      let nCount : Int :=
        if ((w.endAddress : Int) - i + 1) > DATA_BUFFER then DATA_BUFFER
        else (w.endAddress : Int) - i + 1
      let r := readBlock dev i nCount w
      let nRead := r.1
      if (nRead : Int) ≠ nCount then (some 1, out, r.2)
      else
        let fw := fileWrite nFileFlag nRead out r.2
        let nWritten := fw.1
        if nRead ≠ nWritten then (some 1, fw.2, r.2)
        else readEEPROMLoop dev nFileFlag fuel ((i + nRead % 65536) % 65536) fw.2 r.2
    else (some 0, out, w)

/-- Embedding of `readEEPROM()`.  `fileOk` says whether `open` succeeds; the
result carries the bytes written to the output file.  The first component is
`none` when the block loop has not finished within `fuel` iterations. -/
def readEEPROM (dev : Nat → Nat) (fuel : Nat) (nFileFlag : Int) (fileOk : Bool) (w : World) :
    Option Int × List Nat × World :=
  let r := setAddress w.startAddress CS_SET w
  if r.1 ≠ 0 then (some 1, [], r.2)
  else
    let w := r.2
    if fileOk then readEEPROMLoop dev nFileFlag fuel w.startAddress [] w
    else (some 1, [], w)

/-- Embedding of `isProgReady()`, the loop-back test; `st1` and `st2` are the
values the first and the second `ieee1284_read_status` deliver (`nData & TEST`
looks at bit 7 of the value, so at `nData` modulo 256). -/
def isProgReady (st1 st2 : Int) (w : World) : Int × World :=
  let r := ieee1284_read_control w
  let byte := r.1 % 256
  let byte := byte &&& CLR_FUNC
  let byte := (byte ||| FUNC_LOOP) % 256
  let byte := (byte ||| SET_STROBE) % 256
  let w := ieee1284_write_control byte r.2
  let s := ieee1284_read_status st1 w
  let nData := s.1
  let t : Int × World :=
    if (nData % 256).toNat &&& TEST ≠ 0 then
      let byte := byte &&& CLR_STROBE
      let w := ieee1284_write_control byte s.2
      let s := ieee1284_read_status st2 w
      let nData := s.1
      (if (nData % 256).toNat &&& TEST = 0 then 1 else 0, s.2)
    else (0, s.2)
  let w := ieee1284_write_control CNTRL_INIT t.2
  (t.1, w)

/-- The statements of `main` that initialise the programmer once the port is
claimed: `ieee1284_write_data(port, DATA_INIT)`, `ieee1284_write_control(port,
CNTRL_INIT)`, `setAddress(0, CS_SET)`, and the call of `isProgReady()`, whose
result is returned. -/
def progInit (st1 st2 : Int) (w : World) : Int × World :=
  let w := ieee1284_write_data DATA_INIT w
  let w := ieee1284_write_control CNTRL_INIT w
  let w := (setAddress 0 CS_SET w).2
  isProgReady st1 st2 w

/-- Embedding of `main` for the READ action, from its check of the address
range to its `return` (the command line is parsed; finding, opening and
claiming the port are taken to succeed).  The result is `(nExitCode, what
readEEPROM returned and wrote to the file when it was called, final state)`:
`startAddress > endAddress` ends `main` at once with exit code 1; else the
programmer is initialised, `readEEPROM` is called when `isProgReady` answers
non-zero, and `selectFunc(FUNC_LOOP)` closes the run.  `main` does not change
`nExitCode` when `readEEPROM` fails. -/
def readAction (dev : Nat → Nat) (st1 st2 : Int) (fuel : Nat) (nFileFlag : Int) (fileOk : Bool)
    (w : World) : Int × Option (Option Int × List Nat) × World :=
  if w.startAddress > w.endAddress then (1, none, w)
  else
    let nFileFlag := if nFileFlag = 0 then BINARY else nFileFlag
    let p := progInit st1 st2 w
    if p.1 ≠ 0 then
      let r := readEEPROM dev fuel nFileFlag fileOk p.2
      (0, some (r.1, r.2.1), selectFunc FUNC_LOOP r.2.2)
    else (0, none, selectFunc FUNC_LOOP p.2)

/-- Follows the spec's words ("blocks of at most 1024 bytes, each advancing by
the count actually written"): the blocks `(address, count asked, count
written)` of a transfer of `rem` bytes starting at address `i`, as many full
blocks of `DATA_BUFFER` bytes as fit and then the rest. -/
def specBlocks (i rem : Nat) : List (Nat × Int × Nat) :=
  (List.range ((rem + 1023) / 1024)).map
    (fun j => (i + 1024 * j, ((min 1024 (rem - 1024 * j) : Nat) : Int),
      min 1024 (rem - 1024 * j)))

/-! ## Reading the call log -/

/-- The `writeByte` calls of a call log, in order: `(address, byte, result)`. -/
def writeCalls (cs : List Call) : List (Nat × Nat × Nat) :=
  cs.filterMap fun c =>
    match c with
    | Call.writeByte a b r => some (a, b, r)
    | _ => none

/-- The `readByte` calls of a call log, in order: `(address, value read)`. -/
def readCalls (cs : List Call) : List (Nat × Nat) :=
  cs.filterMap fun c =>
    match c with
    | Call.readByte a v => some (a, v)
    | _ => none

/-- The `setAddress` calls of a call log, in order: `(address, nCS, result)`. -/
def latchCalls (cs : List Call) : List (Nat × Int × Nat) :=
  cs.filterMap fun c =>
    match c with
    | Call.setAddress a n r => some (a, n, r)
    | _ => none

/-- The `fastByteWrite` calls of a call log, in order: `(address, byte)`. -/
def fastCalls (cs : List Call) : List (Nat × Nat) :=
  cs.filterMap fun c =>
    match c with
    | Call.fastByteWrite a b => some (a, b)
    | _ => none

/-- The `usleep` calls of a call log, in order. -/
def sleepCalls (cs : List Call) : List Nat :=
  cs.filterMap fun c =>
    match c with
    | Call.usleep n => some n
    | _ => none

/-- The `fastByteWrite` and `usleep` calls of a call log, in the order in which
they were made. -/
def eraseEvents (cs : List Call) : List Call :=
  cs.filter fun c =>
    match c with
    | Call.fastByteWrite _ _ => true
    | Call.usleep _ => true
    | _ => false

/-- The `writeBlock` calls of a call log, in order: `(address, nCount, result)`. -/
def blockCalls (cs : List Call) : List (Nat × Int × Nat) :=
  cs.filterMap fun c =>
    match c with
    | Call.writeBlock a n r => some (a, n, r)
    | _ => none

/-- The calls logged on the way from state `w` to state `w'`. -/
def newCalls (w w' : World) : List Call :=
  w'.calls.drop w.calls.length

/-- The port accesses logged on the way from state `w` to state `w'`. -/
def newOps (w w' : World) : List PortOp :=
  w'.ops.drop w.ops.length

/-! ## Initial state -/

/-- A state in which `main` calls `readEEPROM`, `writeEEPROM` or `eraseEEPROM`:
the data register holds the high byte of `setAddress(0, CS_SET)`, the control
register holds `CNTRL_INIT` (written last by `isProgReady`), the globals have
their static initial values, and the logs are empty. -/
def initWorld : World :=
  { port := { data := 0x80, control := CNTRL_INIT, dir := DIR_WRITE, reads := 0 },
    buffer := List.replicate DATA_BUFFER 0,
    startAddress := 0,
    endAddress := EEPROM_SIZE - 1,
    ops := [],
    calls := [] }

/-! # Properties -/

/-! ## Arithmetic of the address split -/

theorem lo_byte_eq (a : Nat) : (a &&& 0x00ff) % 256 = a % 256 := by
  have h := Nat.and_pow_two_sub_one_eq_mod a 8
  norm_num at h
  rw [h]; exact Nat.mod_mod _ _

theorem hi_byte_eq (a : Nat) : ((a &&& 0xff00) >>> 8) % 256 = (a / 256) % 256 := by
  have h0 : (0xff00 : Nat) = (2^8 - 1) <<< 8 := by decide
  have h2 : (a &&& 0xff00) >>> 8 = (a >>> 8) &&& (2^8 - 1) := by
    apply Nat.eq_of_testBit_eq
    intro i
    rw [h0]
    simp only [Nat.testBit_shiftRight, Nat.testBit_and, Nat.testBit_shiftLeft]
    simp
  rw [h2, Nat.and_pow_two_sub_one_eq_mod, Nat.shiftRight_eq_div_pow]
  norm_num

theorem chip_select_bits : ∀ h < 128,
    h &&& 0x7f = h ∧ (h ||| 0x80) % 256 = h + 128 ∧ (h + 128) &&& 0x7f = h := by
  decide

theorem hiByte_eq (a : Nat) (nCS : Int) (h : a < EEPROM_SIZE) :
    hiByte a nCS = if nCS = CS_CLR then a / 256 else a / 256 + 128 := by
  have h1 : a / 256 < 128 := by unfold EEPROM_SIZE at h; omega
  have h2 : a / 256 % 256 = a / 256 := Nat.mod_eq_of_lt (by omega)
  obtain ⟨b1, b2, _⟩ := chip_select_bits (a / 256) h1
  unfold hiByte
  simp only [hi_byte_eq, h2, b1, b2]

/-- Control-register values written by `selectFunc`, `setStrobe`, `clrStrobe`
keep to one byte and set the bits they are meant to set. -/
theorem control_bits : ∀ c < 256,
    (((c &&& 0xf1) ||| 0) % 256) &&& 0x0e = 0 ∧
    (((c &&& 0xf1) ||| 2) % 256) &&& 0x0e = 2 ∧
    (((c &&& 0xf1) ||| 4) % 256) &&& 0x0e = 4 ∧
    ((c ||| 1) % 256) &&& 1 = 1 ∧ ((c ||| 1) % 256) &&& 0x0e = c &&& 0x0e ∧
    (c &&& 0xfe) &&& 1 = 0 ∧ (c &&& 0xfe) &&& 0x0e = c &&& 0x0e ∧
    ((c &&& 0xf1) ||| 0) % 256 < 256 ∧ ((c &&& 0xf1) ||| 2) % 256 < 256 ∧
    ((c &&& 0xf1) ||| 4) % 256 < 256 ∧ (c ||| 1) % 256 < 256 ∧ c &&& 0xfe < 256 := by
  decide

/-! ## Address latch controller -/

/-- C1: `setAddress a cs` returns 0 when `a < EEPROM_SIZE`; when
`a ≥ EEPROM_SIZE` it returns 1, the port registers are as before the call and
no port access at all is made (the log of port accesses is unchanged), nor are
the globals touched.  It holds for every natural `a`, so for every 16-bit one. -/
theorem setAddress_range_check (a : Nat) (cs : Int) (w : World) :
    (a < EEPROM_SIZE → (setAddress a cs w).1 = 0) ∧
    (a ≥ EEPROM_SIZE →
      (setAddress a cs w).1 = 1 ∧
      (setAddress a cs w).2.port = w.port ∧
      (setAddress a cs w).2.ops = w.ops ∧
      (setAddress a cs w).2 = { w with calls := w.calls ++ [Call.setAddress a cs 1] }) := by
  constructor
  · intro h
    have : ¬ a ≥ EEPROM_SIZE := by omega
    simp [setAddress, this]
  · intro h
    simp [setAddress, h]

theorem setAddress_range_check_witness :
    (setAddress 0x8000 CS_SET initWorld).1 = 1 ∧
    (setAddress 0x8000 CS_SET initWorld).2.port = initWorld.port ∧
    (setAddress 0x8000 CS_SET initWorld).2.ops = initWorld.ops ∧
    (setAddress 0x8000 CS_SET initWorld).2 =
      { initWorld with calls := initWorld.calls ++ [Call.setAddress 0x8000 CS_SET 1] } :=
  (setAddress_range_check 0x8000 CS_SET initWorld).2 (by decide)

/-- C2: for `a < EEPROM_SIZE`, `setAddress a cs` makes exactly these port
accesses, in this order: the data write of `a % 256`; a control write selecting
function 0 (bits 1..3 clear); the strobe set, cleared, set with the function
bits kept; the data write of the high byte (`a / 256`, bit 7 clear for `CS_CLR`
and set otherwise); a control write selecting `FUNC_HIADD`; the strobe set,
cleared, set.  On return the data register holds the high byte, the control
register has `FUNC_HIADD` selected and the strobe bit set, and the two latched
bytes give back `a`. -/
theorem setAddress_latch_sequence (a : Nat) (cs : Int) (w : World) (h : a < EEPROM_SIZE) :
    ∃ l1 l2 l3 l4 h1 h2 h3 h4 : Nat,
      (setAddress a cs w).1 = 0 ∧
      (setAddress a cs w).2.ops = w.ops ++
        [PortOp.writeData (a % 256),
         PortOp.readControl w.port.control, PortOp.writeControl l1,
         PortOp.readControl l1, PortOp.writeControl l2,
         PortOp.readControl l2, PortOp.writeControl l3,
         PortOp.readControl l3, PortOp.writeControl l4,
         PortOp.writeData (if cs = CS_CLR then a / 256 else a / 256 + 128),
         PortOp.readControl l4, PortOp.writeControl h1,
         PortOp.readControl h1, PortOp.writeControl h2,
         PortOp.readControl h2, PortOp.writeControl h3,
         PortOp.readControl h3, PortOp.writeControl h4] ∧
      (l1 &&& 0x0e = FUNC_LOADD ∧ l2 &&& 0x0e = FUNC_LOADD ∧ l3 &&& 0x0e = FUNC_LOADD ∧
        l4 &&& 0x0e = FUNC_LOADD) ∧
      (l2 &&& 1 = 1 ∧ l3 &&& 1 = 0 ∧ l4 &&& 1 = 1) ∧
      (h1 &&& 0x0e = FUNC_HIADD ∧ h2 &&& 0x0e = FUNC_HIADD ∧ h3 &&& 0x0e = FUNC_HIADD ∧
        h4 &&& 0x0e = FUNC_HIADD) ∧
      (h2 &&& 1 = 1 ∧ h3 &&& 1 = 0 ∧ h4 &&& 1 = 1) ∧
      (setAddress a cs w).2.port.data = (if cs = CS_CLR then a / 256 else a / 256 + 128) ∧
      (setAddress a cs w).2.port.control = h4 ∧
      ((if cs = CS_CLR then a / 256 else a / 256 + 128) &&& 0x80 =
        if cs = CS_CLR then 0 else 0x80) ∧
      a % 256 + 256 * ((if cs = CS_CLR then a / 256 else a / 256 + 128) &&& 0x7f) = a := by
  have hge : ¬ a ≥ EEPROM_SIZE := by omega
  have hhi := hiByte_eq a cs h
  have hlo := lo_byte_eq a
  have c0 : w.port.control % 256 < 256 := Nat.mod_lt _ (by decide)
  simp only [setAddress, hge, if_false, selectFunc, pulseStrobe, setStrobe, clrStrobe,
    ieee1284_write_data, ieee1284_write_control, ieee1284_read_control, hhi, hlo,
    List.append_assoc, List.cons_append, List.nil_append]
  refine ⟨_, _, _, _, _, _, _, _, trivial, rfl, ?_⟩
  have h1 : a / 256 < 128 := by unfold EEPROM_SIZE at h; omega
  obtain ⟨b1, -, b3⟩ := chip_select_bits (a / 256) h1
  have b4 : ∀ x < 128, x &&& 0x80 = 0 ∧ (x + 128) &&& 0x80 = 0x80 := by decide
  obtain ⟨b5, b6⟩ := b4 (a / 256) h1
  generalize w.port.control % 256 = c at c0 ⊢
  refine ⟨?_, ?_, ?_, ?_, trivial, rfl, ?_, ?_⟩
  · revert c; decide
  · revert c; decide
  · revert c; decide
  · revert c; decide
  · split <;> simp_all
  · split
    · rw [b1]; omega
    · rw [b3]; omega

theorem setAddress_latch_sequence_witness :
    (0x1234 : Nat) < EEPROM_SIZE ∧
    ∃ l1 l2 l3 l4 h1 h2 h3 h4 : Nat,
      (setAddress 0x1234 CS_CLR initWorld).2.ops =
        [PortOp.writeData 0x34,
         PortOp.readControl 0x0f, PortOp.writeControl l1,
         PortOp.readControl l1, PortOp.writeControl l2,
         PortOp.readControl l2, PortOp.writeControl l3,
         PortOp.readControl l3, PortOp.writeControl l4,
         PortOp.writeData 0x12,
         PortOp.readControl l4, PortOp.writeControl h1,
         PortOp.readControl h1, PortOp.writeControl h2,
         PortOp.readControl h2, PortOp.writeControl h3,
         PortOp.readControl h3, PortOp.writeControl h4] ∧
      (setAddress 0x1234 CS_CLR initWorld).2.port.data = 0x12 ∧
      (setAddress 0x1234 CS_CLR initWorld).2.port.control = h4 ∧
      h4 &&& 0x0e = FUNC_HIADD ∧ h4 &&& 1 = 1 := by
  refine ⟨by decide, ?_⟩
  obtain ⟨l1, l2, l3, l4, h1, h2, h3, h4, -, e, -, -, hf, hs, d, c, -, -⟩ :=
    setAddress_latch_sequence 0x1234 CS_CLR initWorld (by decide)
  exact ⟨l1, l2, l3, l4, h1, h2, h3, h4, e, d, c, hf.2.2.2, hs.2.2⟩

/-! ## Frame lemmas: what the port functions leave alone, what they log -/

theorem setAddress_frame (a : Nat) (cs : Int) (w : World) :
    (setAddress a cs w).2.port.reads = w.port.reads ∧
    (setAddress a cs w).2.buffer = w.buffer ∧
    (setAddress a cs w).2.startAddress = w.startAddress ∧
    (setAddress a cs w).2.endAddress = w.endAddress ∧
    (setAddress a cs w).2.calls = w.calls ++ [Call.setAddress a cs (setAddress a cs w).1] ∧
    (setAddress a cs w).1 = (if a ≥ EEPROM_SIZE then 1 else 0) := by
  unfold setAddress
  split <;>
    simp [selectFunc, pulseStrobe, setStrobe, clrStrobe, ieee1284_write_data,
      ieee1284_write_control, ieee1284_read_control]

theorem readByte_frame (dev : Nat → Nat) (a : Nat) (w : World) :
    (readByte dev a w).1 = dev w.port.reads % 256 ∧
    (readByte dev a w).2.port.reads = w.port.reads + 1 ∧
    (readByte dev a w).2.buffer = w.buffer ∧
    (readByte dev a w).2.startAddress = w.startAddress ∧
    (readByte dev a w).2.endAddress = w.endAddress ∧
    (readByte dev a w).2.calls = w.calls ++
      [Call.setAddress a CS_CLR (if a ≥ EEPROM_SIZE then 1 else 0), Call.usleep 10,
       Call.setAddress a CS_SET (if a ≥ EEPROM_SIZE then 1 else 0),
       Call.readByte a (dev w.port.reads % 256)] := by
  simp [readByte, setAddress_frame, selectFunc, setStrobe, clrStrobe, usleep,
    ieee1284_write_control, ieee1284_read_control, ieee1284_read_data, ieee1284_data_dir]

@[simp] theorem readCalls_append (xs ys : List Call) :
    readCalls (xs ++ ys) = readCalls xs ++ readCalls ys := by
  simp [readCalls]

@[simp] theorem writeCalls_append (xs ys : List Call) :
    writeCalls (xs ++ ys) = writeCalls xs ++ writeCalls ys := by
  simp [writeCalls]

@[simp] theorem latchCalls_append (xs ys : List Call) :
    latchCalls (xs ++ ys) = latchCalls xs ++ latchCalls ys := by
  simp [latchCalls]

/-! ## The polling loop of `writeByte` -/

theorem writeByteLoop_done (dev : Nat → Nat) (a v fuel i rb : Nat) (w : World) :
    writeByteLoop dev a v fuel i 0 rb w = (WRITEOK, rb, w) := by
  cases fuel <;> simp [writeByteLoop]

/-- The result of the polling loop does not depend on the recursion measure
once it is at least `101 - i` (with `i ≤ 100`, as at every entry of the loop). -/
theorem writeByteLoop_fuel (dev : Nat → Nat) (a v : Nat) :
    ∀ (f1 f2 i rt rb : Nat) (w : World), i ≤ 100 → 101 - i ≤ f1 → 101 - i ≤ f2 →
      writeByteLoop dev a v f1 i rt rb w = writeByteLoop dev a v f2 i rt rb w := by
  intro f1
  induction f1 with
  | zero => intro f2 i rt rb w h0 h1 h2; omega
  | succ f1 ih =>
    intro f2 i rt rb w h0 h1 h2
    obtain ⟨g, rfl⟩ : ∃ g, f2 = g + 1 := ⟨f2 - 1, by omega⟩
    by_cases hrt : rt = 0
    · subst hrt; simp [writeByteLoop]
    · by_cases hi : i + 1 > 100
      · simp [writeByteLoop, hrt, hi]
      · simp only [writeByteLoop, ne_eq, hrt, not_false_eq_true, if_true, hi, if_false]
        exact ih g (i + 1) _ _ _ (by omega) (by omega) (by omega)

/-- Polling that converges: `n` reads with bit 7 still inverted, then a read
with bit 7 equal, all within the bound. -/
theorem writeByteLoop_converge (dev : Nat → Nat) (a v : Nat) :
    ∀ (n fuel i rt rb : Nat) (w : World), rt ≠ 0 → n + 1 ≤ fuel → i + n + 1 ≤ 100 →
      (∀ j < n, (dev (w.port.reads + j) % 256 ^^^ v) &&& 0x80 ≠ 0) →
      (dev (w.port.reads + n) % 256 ^^^ v) &&& 0x80 = 0 →
      (writeByteLoop dev a v fuel i rt rb w).1 = WRITEOK ∧
      (writeByteLoop dev a v fuel i rt rb w).2.1 = dev (w.port.reads + n) % 256 ∧
      (writeByteLoop dev a v fuel i rt rb w).2.2.port.reads = w.port.reads + n + 1 ∧
      readCalls (writeByteLoop dev a v fuel i rt rb w).2.2.calls =
        readCalls w.calls ++
          (List.range (n + 1)).map (fun j => (a, dev (w.port.reads + j) % 256)) := by
  intro n
  induction n with
  | zero =>
    intro fuel i rt rb w hrt hf hi _ hz
    obtain ⟨f, rfl⟩ : ∃ f, fuel = f + 1 := ⟨fuel - 1, by omega⟩
    have hi2 : ¬ i + 1 > 100 := by omega
    obtain ⟨r1, r2, -, -, -, r6⟩ := readByte_frame dev a w
    simp only [Nat.add_zero] at hz
    simp only [writeByteLoop, ne_eq, hrt, not_false_eq_true, if_true, hi2, if_false, r1, hz,
      writeByteLoop_done, r2, r6]
    simp [readCalls, List.range_succ]
  | succ n ih =>
    intro fuel i rt rb w hrt hf hi hn hz
    obtain ⟨f, rfl⟩ : ∃ f, fuel = f + 1 := ⟨fuel - 1, by omega⟩
    have hi2 : ¬ i + 1 > 100 := by omega
    obtain ⟨r1, r2, -, -, -, r6⟩ := readByte_frame dev a w
    have h0 := hn 0 (by omega)
    simp only [Nat.add_zero] at h0
    have key := ih f (i + 1) ((dev w.port.reads % 256 ^^^ v) &&& 0x80) (dev w.port.reads % 256)
      (readByte dev a w).2 h0 (by omega) (by omega)
      (by intro j hj; rw [r2]; have := hn (j + 1) (by omega); rwa [show w.port.reads + 1 + j = w.port.reads + (j + 1) by omega])
      (by rw [r2]; rwa [show w.port.reads + 1 + n = w.port.reads + (n + 1) by omega])
    simp only [writeByteLoop, ne_eq, hrt, not_false_eq_true, if_true, hi2, if_false, r1]
    obtain ⟨k1, k2, k3, k4⟩ := key
    refine ⟨k1, ?_, ?_, ?_⟩
    · rw [k2, r2]; congr 2; omega
    · rw [k3, r2]; omega
    · rw [k4, r6, r2, List.range_succ_eq_map (n + 1)]
      simp [readCalls, Function.comp_def, Nat.add_assoc, Nat.add_comm 1]

/-- Polling that never converges: `m` reads with bit 7 still inverted bring `i`
to 100; one more read is made and the loop leaves with `WRITETOV`. -/
theorem writeByteLoop_timeout (dev : Nat → Nat) (a v : Nat) :
    ∀ (m fuel i rt rb : Nat) (w : World), rt ≠ 0 → m + 1 ≤ fuel → i + m = 100 →
      (∀ j < m, (dev (w.port.reads + j) % 256 ^^^ v) &&& 0x80 ≠ 0) →
      (writeByteLoop dev a v fuel i rt rb w).1 = WRITETOV ∧
      (writeByteLoop dev a v fuel i rt rb w).2.1 = dev (w.port.reads + m) % 256 ∧
      (writeByteLoop dev a v fuel i rt rb w).2.2.port.reads = w.port.reads + m + 1 ∧
      readCalls (writeByteLoop dev a v fuel i rt rb w).2.2.calls =
        readCalls w.calls ++
          (List.range (m + 1)).map (fun j => (a, dev (w.port.reads + j) % 256)) := by
  intro m
  induction m with
  | zero =>
    intro fuel i rt rb w hrt hf hi _
    obtain ⟨f, rfl⟩ : ∃ f, fuel = f + 1 := ⟨fuel - 1, by omega⟩
    have hi2 : i + 1 > 100 := by omega
    obtain ⟨r1, r2, -, -, -, r6⟩ := readByte_frame dev a w
    simp only [writeByteLoop, ne_eq, hrt, not_false_eq_true, if_true, hi2, r1, r2, r6]
    simp [readCalls, List.range_succ]
  | succ m ih =>
    intro fuel i rt rb w hrt hf hi hn
    obtain ⟨f, rfl⟩ : ∃ f, fuel = f + 1 := ⟨fuel - 1, by omega⟩
    have hi2 : ¬ i + 1 > 100 := by omega
    obtain ⟨r1, r2, -, -, -, r6⟩ := readByte_frame dev a w
    have h0 := hn 0 (by omega)
    simp only [Nat.add_zero] at h0
    have key := ih f (i + 1) ((dev w.port.reads % 256 ^^^ v) &&& 0x80) (dev w.port.reads % 256)
      (readByte dev a w).2 h0 (by omega) (by omega)
      (by intro j hj; rw [r2]; have := hn (j + 1) (by omega); rwa [show w.port.reads + 1 + j = w.port.reads + (j + 1) by omega])
    simp only [writeByteLoop, ne_eq, hrt, not_false_eq_true, if_true, hi2, if_false, r1]
    obtain ⟨k1, k2, k3, k4⟩ := key
    refine ⟨k1, ?_, ?_, ?_⟩
    · rw [k2, r2]; congr 2; omega
    · rw [k3, r2]; omega
    · rw [k4, r6, r2, List.range_succ_eq_map (m + 1)]
      simp [readCalls, Function.comp_def, Nat.add_assoc, Nat.add_comm 1]

/-- The calls logged by `readByte`: no `writeByte`, one `readByte`, and
`setAddress` calls for `a` only. -/
theorem readByte_log (dev : Nat → Nat) (a : Nat) (w : World) :
    ∃ l, (readByte dev a w).2.calls = w.calls ++ l ∧ writeCalls l = [] ∧
      readCalls l = [(a, dev w.port.reads % 256)] ∧ ∀ x ∈ latchCalls l, x.1 = a := by
  obtain ⟨-, -, -, -, -, r6⟩ := readByte_frame dev a w
  refine ⟨_, r6, by simp [writeCalls], by simp [readCalls], ?_⟩
  intro x hx
  simp only [latchCalls, List.filterMap_cons, List.filterMap_nil, List.mem_cons] at hx
  rcases hx with rfl | rfl | hx
  · rfl
  · rfl
  · simp at hx

/-- What the polling loop leaves alone, whatever the device answers: the
globals; and it logs no `writeByte` call and `setAddress` calls for `a` only. -/
theorem writeByteLoop_frame (dev : Nat → Nat) (a v : Nat) :
    ∀ (fuel i rt rb : Nat) (w : World),
      (writeByteLoop dev a v fuel i rt rb w).2.2.buffer = w.buffer ∧
      (writeByteLoop dev a v fuel i rt rb w).2.2.startAddress = w.startAddress ∧
      (writeByteLoop dev a v fuel i rt rb w).2.2.endAddress = w.endAddress ∧
      (∃ l, (writeByteLoop dev a v fuel i rt rb w).2.2.calls = w.calls ++ l ∧
        writeCalls l = [] ∧ ∀ x ∈ latchCalls l, x.1 = a) := by
  intro fuel
  induction fuel with
  | zero => intro i rt rb w; exact ⟨rfl, rfl, rfl, [], by simp [writeByteLoop], rfl, by simp [latchCalls]⟩
  | succ f ih =>
    intro i rt rb w
    obtain ⟨-, -, r3, r4, r5, -⟩ := readByte_frame dev a w
    obtain ⟨rl, r6, hw, -, hl⟩ := readByte_log dev a w
    by_cases hrt : rt = 0
    · subst hrt
      exact ⟨by simp [writeByteLoop], by simp [writeByteLoop], by simp [writeByteLoop], [],
        by simp [writeByteLoop], rfl, by simp [latchCalls]⟩
    · by_cases hi : i + 1 > 100
      · simp only [writeByteLoop, ne_eq, hrt, not_false_eq_true, if_true, hi, r3, r4, r5]
        exact ⟨trivial, trivial, trivial, rl, r6, hw, hl⟩
      · simp only [writeByteLoop, ne_eq, hrt, not_false_eq_true, if_true, hi, if_false]
        obtain ⟨k1, k2, k3, l, k5, k6, k7⟩ := ih (i + 1)
          (((readByte dev a w).1 ^^^ v) &&& 0x80) (readByte dev a w).1 (readByte dev a w).2
        refine ⟨by rw [k1, r3], by rw [k2, r4], by rw [k3, r5], rl ++ l, ?_, ?_, ?_⟩
        · rw [k5, r6, List.append_assoc]
        · rw [writeCalls_append, k6, hw]; rfl
        · intro x hx
          rw [latchCalls_append, List.mem_append] at hx
          rcases hx with hx | hx
          · exact hl x hx
          · exact k7 x hx

/-! ## `writeByte` -/

/-- State in which `writeByte` enters its polling loop. -/
theorem writeByte_unfold (dev : Nat → Nat) (a v : Nat) (w : World) :
    ∃ w6 : World,
      w6.port.reads = w.port.reads ∧ w6.buffer = w.buffer ∧
      w6.startAddress = w.startAddress ∧ w6.endAddress = w.endAddress ∧
      w6.calls = w.calls ++
        [Call.setAddress a CS_CLR (if a ≥ EEPROM_SIZE then 1 else 0), Call.usleep 1000,
         Call.setAddress a CS_SET (if a ≥ EEPROM_SIZE then 1 else 0)] ∧
      writeByte dev a v w =
        ((if (writeByteLoop dev a v 101 0 1 0 w6).1 = WRITEOK ∧
              (writeByteLoop dev a v 101 0 1 0 w6).2.1 ≠ v then WRITEVER
          else (writeByteLoop dev a v 101 0 1 0 w6).1),
         { (writeByteLoop dev a v 101 0 1 0 w6).2.2 with
           calls := (writeByteLoop dev a v 101 0 1 0 w6).2.2.calls ++
             [Call.writeByte a v
               (if (writeByteLoop dev a v 101 0 1 0 w6).1 = WRITEOK ∧
                   (writeByteLoop dev a v 101 0 1 0 w6).2.1 ≠ v then WRITEVER
                else (writeByteLoop dev a v 101 0 1 0 w6).1)] }) := by
  refine ⟨(setAddress a CS_SET (usleep 1000 (pulseStrobe (ieee1284_write_data v
    (selectFunc FUNC_WE (setAddress a CS_CLR w).2))))).2, ?_, ?_, ?_, ?_, ?_, rfl⟩ <;>
    simp [setAddress_frame, selectFunc, pulseStrobe, setStrobe, clrStrobe, usleep,
      ieee1284_write_data, ieee1284_write_control, ieee1284_read_control]

/-- What `writeByte` leaves alone and what it logs, whatever the device answers:
one `writeByte` record, and `setAddress` calls for its own address only. -/
theorem writeByte_frame (dev : Nat → Nat) (a v : Nat) (w : World) :
    (writeByte dev a v w).2.buffer = w.buffer ∧
    (writeByte dev a v w).2.startAddress = w.startAddress ∧
    (writeByte dev a v w).2.endAddress = w.endAddress ∧
    (∃ l, (writeByte dev a v w).2.calls = w.calls ++ l ∧
      writeCalls l = [(a, v, (writeByte dev a v w).1)] ∧ ∀ x ∈ latchCalls l, x.1 = a) := by
  obtain ⟨w6, -, e2, e3, e4, e5, e6⟩ := writeByte_unfold dev a v w
  obtain ⟨k1, k2, k3, l, k5, k6, k7⟩ := writeByteLoop_frame dev a v 101 0 1 0 w6
  generalize writeByteLoop dev a v 101 0 1 0 w6 = r at e6 k1 k2 k3 k5
  rw [e6]
  refine ⟨by simp [k1, e2], by simp [k2, e3], by simp [k3, e4],
    [Call.setAddress a CS_CLR (if a ≥ EEPROM_SIZE then 1 else 0), Call.usleep 1000,
      Call.setAddress a CS_SET (if a ≥ EEPROM_SIZE then 1 else 0)] ++ l ++
      [Call.writeByte a v (if r.1 = WRITEOK ∧ r.2.1 ≠ v then WRITEVER else r.1)], ?_, ?_, ?_⟩
  · simp only [k5, e5, List.append_assoc]
  · simp only [writeCalls_append, k6]; simp [writeCalls]
  · intro x hx
    simp only [latchCalls_append, List.mem_append] at hx
    rcases hx with (hx | hx) | hx
    · simp only [latchCalls, List.filterMap_cons, List.filterMap_nil, List.mem_cons] at hx
      rcases hx with rfl | rfl | hx
      · rfl
      · rfl
      · simp at hx
    · exact k7 x hx
    · simp [latchCalls] at hx

/-- Calls logged after a known prefix. -/
theorem newCalls_of_append (w w' : World) (l : List Call) (h : w'.calls = w.calls ++ l) :
    newCalls w w' = l := by
  simp [newCalls, h]

/-- `writeByte` when the device answers with bit 7 inverted `n` times and then
with bit 7 equal, `n < 100`. -/
theorem writeByte_converge (dev : Nat → Nat) (a v n : Nat) (w : World) (hn : n < 100)
    (hbusy : ∀ j < n, (dev (w.port.reads + j) % 256 ^^^ v) &&& 0x80 ≠ 0)
    (hdone : (dev (w.port.reads + n) % 256 ^^^ v) &&& 0x80 = 0) :
    (writeByte dev a v w).1 = (if dev (w.port.reads + n) % 256 = v then WRITEOK else WRITEVER) ∧
    (writeByte dev a v w).2.port.reads = w.port.reads + (n + 1) ∧
    readCalls (writeByte dev a v w).2.calls = readCalls w.calls ++
      (List.range (n + 1)).map (fun j => (a, dev (w.port.reads + j) % 256)) := by
  obtain ⟨w6, e1, -, -, -, e5, e6⟩ := writeByte_unfold dev a v w
  obtain ⟨k1, k2, k3, k4⟩ := writeByteLoop_converge dev a v n 101 0 1 0 w6 (by decide)
    (by omega) (by omega) (by rw [e1]; exact hbusy) (by rw [e1]; exact hdone)
  rw [e1] at k2 k3 k4
  rw [e6]
  refine ⟨?_, ?_, ?_⟩
  · simp only [k1, k2]
    by_cases hv : dev (w.port.reads + n) % 256 = v <;> simp [hv]
  · simp only [k3]; omega
  · simp only [readCalls_append, k4, e5]; simp [readCalls]

/-- `writeByte` when the device answers with bit 7 inverted for the first 100
read-backs: one more read-back is made and the result is `WRITETOV`. -/
theorem writeByte_timeout (dev : Nat → Nat) (a v : Nat) (w : World)
    (hbusy : ∀ j < 100, (dev (w.port.reads + j) % 256 ^^^ v) &&& 0x80 ≠ 0) :
    (writeByte dev a v w).1 = WRITETOV ∧
    (writeByte dev a v w).2.port.reads = w.port.reads + 101 ∧
    readCalls (writeByte dev a v w).2.calls = readCalls w.calls ++
      (List.range 101).map (fun j => (a, dev (w.port.reads + j) % 256)) := by
  obtain ⟨w6, e1, -, -, -, e5, e6⟩ := writeByte_unfold dev a v w
  obtain ⟨k1, k2, k3, k4⟩ := writeByteLoop_timeout dev a v 100 101 0 1 0 w6 (by decide)
    (by omega) (by omega) (by rw [e1]; exact hbusy)
  rw [e1] at k3 k4
  rw [e6]
  refine ⟨?_, ?_, ?_⟩
  · simp only [k1]; simp
  · simp only [k3]
  · simp only [readCalls_append, k4, e5]; simp [readCalls]

theorem readCalls_newCalls (w w' : World) (l : List Call) (X : List (Nat × Nat))
    (h : w'.calls = w.calls ++ l) (hX : readCalls w'.calls = readCalls w.calls ++ X) :
    readCalls (newCalls w w') = X := by
  rw [newCalls_of_append w w' l h]
  rw [h, readCalls_append] at hX
  exact List.append_cancel_left hX

/-- C3: let the read-backs after the write be `dev (reads + 0)`, `dev (reads + 1)`, ...
(as bytes).  If read-back number `n` (counting from 0, so the `n + 1`-st) is the
first whose bit 7 equals bit 7 of `v`, and `n + 1 ≤ 100`, then `writeByte` makes
exactly `n + 1` read-backs (all at the address written), returns `WRITEOK` when
that read-back equals `v` and `WRITEVER` when it differs from `v` in one of
bits 0..6; hence `WRITEOK` implies that the last byte read back equals `v`. -/
theorem writeByte_poll_verify (dev : Nat → Nat) (a v n : Nat) (w : World) (hn : n + 1 ≤ 100)
    (hbusy : ∀ j < n, (dev (w.port.reads + j) % 256 ^^^ v) &&& 0x80 ≠ 0)
    (hdone : (dev (w.port.reads + n) % 256 ^^^ v) &&& 0x80 = 0) :
    (writeByte dev a v w).2.port.reads = w.port.reads + (n + 1) ∧
    readCalls (newCalls w (writeByte dev a v w).2) =
      (List.range (n + 1)).map (fun j => (a, dev (w.port.reads + j) % 256)) ∧
    (dev (w.port.reads + n) % 256 = v → (writeByte dev a v w).1 = WRITEOK) ∧
    ((dev (w.port.reads + n) % 256 ^^^ v) &&& 0x7f ≠ 0 → (writeByte dev a v w).1 = WRITEVER) ∧
    ((writeByte dev a v w).1 = WRITEOK → dev (w.port.reads + n) % 256 = v) := by
  obtain ⟨c1, c2, c3⟩ := writeByte_converge dev a v n w (by omega) hbusy hdone
  obtain ⟨-, -, -, l, hl, -, -⟩ := writeByte_frame dev a v w
  refine ⟨c2, readCalls_newCalls _ _ l _ hl c3, ?_, ?_, ?_⟩
  · intro h; rw [c1, if_pos h]
  · intro h
    have hne : dev (w.port.reads + n) % 256 ≠ v := by
      intro he; apply h; rw [he, Nat.xor_self]; rfl
    rw [c1, if_neg hne]
  · intro h
    by_contra hne
    rw [c1, if_neg hne] at h
    exact absurd h (by decide)

theorem writeByte_poll_verify_witness :
    (writeByte (fun j => if j < 2 then 0xd5 else 0x55) 0x10 0x55 initWorld).2.port.reads = 3 ∧
    readCalls (newCalls initWorld
        (writeByte (fun j => if j < 2 then 0xd5 else 0x55) 0x10 0x55 initWorld).2) =
      [(0x10, 0xd5), (0x10, 0xd5), (0x10, 0x55)] ∧
    (writeByte (fun j => if j < 2 then 0xd5 else 0x55) 0x10 0x55 initWorld).1 = WRITEOK := by
  obtain ⟨h1, h2, h3, -, -⟩ :=
    writeByte_poll_verify (fun j => if j < 2 then 0xd5 else 0x55) 0x10 0x55 2 initWorld
      (by decide) (by decide) (by decide)
  exact ⟨h1, h2, h3 (by decide)⟩

/-- C4 (as the code has it): if each of the first 100 read-backs has bit 7
different from bit 7 of the written value (so also if every read-back has),
`writeByte` returns `WRITETOV` after exactly 101 read-backs: the loop counter is
tested with `i > 100` after the read, so the 101st read is made and no 102nd. -/
theorem writeByte_timeout_after_101_reads (dev : Nat → Nat) (a v : Nat) (w : World)
    (hbusy : ∀ j < 100, (dev (w.port.reads + j) % 256 ^^^ v) &&& 0x80 ≠ 0) :
    (writeByte dev a v w).1 = WRITETOV ∧
    (writeByte dev a v w).2.port.reads = w.port.reads + 101 ∧
    readCalls (newCalls w (writeByte dev a v w).2) =
      (List.range 101).map (fun j => (a, dev (w.port.reads + j) % 256)) := by
  obtain ⟨c1, c2, c3⟩ := writeByte_timeout dev a v w hbusy
  obtain ⟨-, -, -, l, hl, -, -⟩ := writeByte_frame dev a v w
  exact ⟨c1, c2, readCalls_newCalls _ _ l _ hl c3⟩

theorem writeByte_timeout_after_101_reads_witness :
    (writeByte (fun _ => 0x80) 0x10 0x55 initWorld).1 = WRITETOV ∧
    (writeByte (fun _ => 0x80) 0x10 0x55 initWorld).2.port.reads = 101 := by
  obtain ⟨h1, h2, -⟩ :=
    writeByte_timeout_after_101_reads (fun _ => 0x80) 0x10 0x55 initWorld (by decide)
  exact ⟨h1, h2⟩

/-- C4 as stated fails: with a device that always answers `0x80` to a write of
`0x00` (bit 7 never negated), `writeByte` returns `WRITETOV` after 101
read-backs, not 100. -/
theorem writeByte_timeout_not_100_reads :
    (∀ j : Nat, ((fun _ => 0x80) j % 256 ^^^ 0x00) &&& 0x80 ≠ 0) ∧
    (writeByte (fun _ => 0x80) 0 0x00 initWorld).1 = WRITETOV ∧
    (readCalls (newCalls initWorld (writeByte (fun _ => 0x80) 0 0x00 initWorld).2)).length = 101 ∧
    (writeByte (fun _ => 0x80) 0 0x00 initWorld).2.port.reads ≠ initWorld.port.reads + 100 := by
  obtain ⟨c1, c2, c3⟩ := writeByte_timeout (fun _ => 0x80) 0 0x00 initWorld (by decide)
  obtain ⟨-, -, -, l, hl, -, -⟩ := writeByte_frame (fun _ => 0x80) 0 0x00 initWorld
  refine ⟨fun _ => (by decide : (0x80 % 256 ^^^ 0x00) &&& 0x80 ≠ 0), c1, ?_, ?_⟩
  · rw [readCalls_newCalls _ _ l _ hl c3]; simp
  · rw [c2]; decide

/-! ## Block transfer engine -/

/-- Shape of a run of the `writeBlock` loop entered at index `i`: it logs the
byte writes of the indices `i, i+1, ...` in order, all with result `WRITEOK`
up to the returned index; either it ran to the clipped count, or the write at
the returned index was issued too and failed. -/
theorem writeBlockLoop_spec (dev : Nat → Nat) (address : Nat) (nCount : Int) :
    ∀ (fuel i : Nat) (w : World), fuel + i = nCount.toNat →
      ∃ l, (writeBlockLoop dev address nCount fuel i w).2.calls = w.calls ++ l ∧
        (writeBlockLoop dev address nCount fuel i w).2.buffer = w.buffer ∧
        (writeBlockLoop dev address nCount fuel i w).2.startAddress = w.startAddress ∧
        (writeBlockLoop dev address nCount fuel i w).2.endAddress = w.endAddress ∧
        i ≤ (writeBlockLoop dev address nCount fuel i w).1 ∧
        (∀ x ∈ latchCalls l, x.1 < EEPROM_SIZE) ∧
        (((writeBlockLoop dev address nCount fuel i w).1 =
              max i (min nCount.toNat (EEPROM_SIZE - address)) ∧
            writeCalls l =
              (List.range' i ((writeBlockLoop dev address nCount fuel i w).1 - i)).map
                (fun k => (address + k, w.buffer.getD k 0, WRITEOK))) ∨
          ((writeBlockLoop dev address nCount fuel i w).1 < nCount.toNat ∧
            (writeBlockLoop dev address nCount fuel i w).1 + address < EEPROM_SIZE ∧
            ∃ res, res ≠ WRITEOK ∧
              writeCalls l =
                (List.range' i ((writeBlockLoop dev address nCount fuel i w).1 - i)).map
                  (fun k => (address + k, w.buffer.getD k 0, WRITEOK)) ++
                [(address + (writeBlockLoop dev address nCount fuel i w).1,
                  w.buffer.getD (writeBlockLoop dev address nCount fuel i w).1 0, res)])) := by
  have hE : EEPROM_SIZE = 32768 := rfl
  intro fuel
  induction fuel with
  | zero =>
    intro i w h
    refine ⟨[], by simp [writeBlockLoop], rfl, rfl, rfl, Nat.le_refl _, by simp [latchCalls], ?_⟩
    left
    simp only [writeBlockLoop, Nat.sub_self, List.range'_zero, List.map_nil]
    exact ⟨by omega, rfl⟩
  | succ f ih =>
    intro i w h
    have hlt : (i : Int) < nCount := by omega
    by_cases hov : i + address > EEPROM_SIZE - 1
    · have hstep : writeBlockLoop dev address nCount (f + 1) i w = (i, w) := by
        rw [writeBlockLoop, if_pos hlt, if_pos hov]
      rw [hstep]
      refine ⟨[], by simp, rfl, rfl, rfl, Nat.le_refl _, by simp [latchCalls], ?_⟩
      left
      simp only [Nat.sub_self, List.range'_zero, List.map_nil]
      exact ⟨by omega, rfl⟩
    · have hmod : (i + address) % 65536 = i + address := Nat.mod_eq_of_lt (by omega)
      obtain ⟨b1, b2, b3, lw, b4, b5, b6⟩ := writeByte_frame dev (i + address) (w.buffer.getD i 0) w
      have hlat : ∀ x ∈ latchCalls lw, x.1 < EEPROM_SIZE := by
        intro x hx; rw [b6 x hx]; omega
      by_cases hres : (writeByte dev (i + address) (w.buffer.getD i 0) w).1 = 0
      · obtain ⟨l2, c1, c2, c3, c4, c5, c6, c7⟩ :=
          ih (i + 1) (writeByte dev (i + address) (w.buffer.getD i 0) w).2 (by omega)
        have hstep : writeBlockLoop dev address nCount (f + 1) i w =
            writeBlockLoop dev address nCount f (i + 1)
              (writeByte dev (i + address) (w.buffer.getD i 0) w).2 := by
          rw [writeBlockLoop, if_pos hlt, if_neg hov]
          simp only [hmod, ne_eq, hres, not_true_eq_false, if_false]
        rw [hstep]
        rw [b1] at c2 c7
        have hhead : ∀ n, i + 1 ≤ n →
            (address + i, w.buffer.getD i 0, WRITEOK) ::
              (List.range' (i + 1) (n - (i + 1))).map
                (fun k => (address + k, w.buffer.getD k 0, WRITEOK)) =
            (List.range' i (n - i)).map (fun k => (address + k, w.buffer.getD k 0, WRITEOK)) := by
          intro n hn
          obtain ⟨m, rfl⟩ : ∃ m, n = i + 1 + m := ⟨n - (i + 1), by omega⟩
          rw [show i + 1 + m - (i + 1) = m by omega, show i + 1 + m - i = m + 1 by omega,
            List.range'_succ]
          rfl
        have hw : writeCalls lw = [(address + i, w.buffer.getD i 0, WRITEOK)] := by
          rw [b5, hres, Nat.add_comm]
        refine ⟨lw ++ l2, by rw [c1, b4, List.append_assoc], c2, by rw [c3, b2], by rw [c4, b3],
          Nat.le_of_succ_le c5, ?_, ?_⟩
        · intro x hx
          rw [latchCalls_append, List.mem_append] at hx
          rcases hx with hx | hx
          · exact hlat x hx
          · exact c6 x hx
        · rcases c7 with ⟨d1, d2⟩ | ⟨d1, d2, res, d3, d4⟩
          · left
            refine ⟨by omega, ?_⟩
            rw [writeCalls_append, hw, d2, List.singleton_append, hhead _ c5]
          · right
            refine ⟨d1, d2, res, d3, ?_⟩
            rw [writeCalls_append, hw, d4, List.singleton_append, ← List.cons_append, hhead _ c5]
      · have hstep : writeBlockLoop dev address nCount (f + 1) i w =
            (i, (writeByte dev (i + address) (w.buffer.getD i 0) w).2) := by
          rw [writeBlockLoop, if_pos hlt, if_neg hov]
          simp only [hmod, ne_eq, hres, not_false_eq_true, if_true]
        rw [hstep]
        refine ⟨lw, b4, b1, b2, b3, Nat.le_refl _, hlat, ?_⟩
        right
        refine ⟨by omega, by omega, _, hres, ?_⟩
        simp only [Nat.sub_self, List.range'_zero, List.map_nil, List.nil_append]
        rw [b5, Nat.add_comm]

/-- Shape of a run of the `readBlock` loop entered at index `i`: it runs to the
clipped count, reads the addresses `address + i, address + i + 1, ...` in order
and stores read number `k - i` at buffer index `k`. -/
theorem readBlockLoop_spec (dev : Nat → Nat) (address : Nat) (nCount : Int) :
    ∀ (fuel i : Nat) (w : World), fuel + i = nCount.toNat →
      ∃ l, (readBlockLoop dev address nCount fuel i w).2.calls = w.calls ++ l ∧
        (readBlockLoop dev address nCount fuel i w).1 =
          max i (min nCount.toNat (EEPROM_SIZE - address)) ∧
        (readBlockLoop dev address nCount fuel i w).2.port.reads =
          w.port.reads + ((readBlockLoop dev address nCount fuel i w).1 - i) ∧
        readCalls l =
          (List.range' i ((readBlockLoop dev address nCount fuel i w).1 - i)).map
            (fun k => (address + k, dev (w.port.reads + (k - i)) % 256)) ∧
        writeCalls l = [] ∧
        (∀ x ∈ latchCalls l, x.1 < EEPROM_SIZE) ∧
        (readBlockLoop dev address nCount fuel i w).2.buffer.length = w.buffer.length ∧
        (∀ k, k < i ∨ (readBlockLoop dev address nCount fuel i w).1 ≤ k →
          (readBlockLoop dev address nCount fuel i w).2.buffer.getD k 0 = w.buffer.getD k 0) ∧
        (∀ k, i ≤ k → k < (readBlockLoop dev address nCount fuel i w).1 → k < w.buffer.length →
          (readBlockLoop dev address nCount fuel i w).2.buffer.getD k 0 =
            dev (w.port.reads + (k - i)) % 256) := by
  have hE : EEPROM_SIZE = 32768 := rfl
  intro fuel
  induction fuel with
  | zero =>
    intro i w h
    refine ⟨[], by simp [readBlockLoop], ?_, ?_, ?_, rfl, by simp [latchCalls], rfl, ?_, ?_⟩
    · simp only [readBlockLoop]; omega
    · simp [readBlockLoop]
    · simp [readBlockLoop, readCalls]
    · intro k _; rfl
    · intro k h1 h2; simp only [readBlockLoop] at h2; omega
  | succ f ih =>
    intro i w h
    have hlt : (i : Int) < nCount := by omega
    by_cases hov : i + address > EEPROM_SIZE - 1
    · have hstep : readBlockLoop dev address nCount (f + 1) i w = (i, w) := by
        rw [readBlockLoop, if_pos hlt, if_pos hov]
      rw [hstep]
      refine ⟨[], by simp, ?_, by simp, by simp [readCalls], rfl, by simp [latchCalls], rfl, ?_, ?_⟩
      · show i = _; omega
      · intro k _; rfl
      · intro k h1 h2; simp only at h2; omega
    · have hmod : (i % 65536 + address) % 65536 = i + address := by omega
      obtain ⟨r1, r2, r3, r4, r5, -⟩ := readByte_frame dev (i + address) w
      obtain ⟨rl, r6, r7, r8, r9⟩ := readByte_log dev (i + address) w
      obtain ⟨w1, hw1, e1, e2, e3⟩ : ∃ w1 : World,
          w1 = { (readByte dev (i + address) w).2 with
                 buffer := (readByte dev (i + address) w).2.buffer.set i
                   (readByte dev (i + address) w).1 } ∧
          w1.port.reads = w.port.reads + 1 ∧
          w1.buffer = w.buffer.set i (dev w.port.reads % 256) ∧
          w1.calls = w.calls ++ rl := ⟨_, rfl, r2, by simp only [r3, r1], r6⟩
      have hstep : readBlockLoop dev address nCount (f + 1) i w =
          readBlockLoop dev address nCount f (i + 1) w1 := by
        rw [readBlockLoop, if_pos hlt, if_neg hov, hw1]
        simp only [hmod]
      rw [hstep]
      obtain ⟨l2, c1, c2, c3, c4, c5, c6, c7, c8, c9⟩ := ih (i + 1) w1 (by omega)
      rw [e1] at c3 c4 c9
      rw [e2] at c7 c8 c9
      rw [e3] at c1
      rw [List.length_set] at c7 c9
      generalize readBlockLoop dev address nCount f (i + 1) w1 = r at c1 c2 c3 c4 c7 c8 c9 ⊢
      have hr : i + 1 ≤ r.1 := by rw [c2]; omega
      refine ⟨rl ++ l2, by rw [c1, List.append_assoc], by omega, by omega, ?_, ?_, ?_, c7, ?_, ?_⟩
      · rw [readCalls_append, r8, c4]
        obtain ⟨m, hm⟩ : ∃ m, r.1 = i + 1 + m := ⟨r.1 - (i + 1), by omega⟩
        rw [hm, show i + 1 + m - (i + 1) = m by omega, show i + 1 + m - i = m + 1 by omega,
          List.range'_succ, List.map_cons, List.singleton_append, Nat.sub_self, Nat.add_zero,
          Nat.add_comm address i]
        congr 1
        apply List.map_congr_left
        intro k hk
        rw [List.mem_range'_1] at hk
        congr 3
        omega
      · rw [writeCalls_append, r7, c5]; rfl
      · intro x hx
        rw [latchCalls_append, List.mem_append] at hx
        rcases hx with hx | hx
        · rw [r9 x hx]; omega
        · exact c6 x hx
      · intro k hk
        rw [c8 k (by omega)]
        simp only [List.getD_eq_getElem?_getD]
        rw [List.getElem?_set_ne (by omega)]
      · intro k h1 h2 h3
        by_cases hki : k = i
        · subst hki
          rw [c8 k (by omega)]
          simp only [List.getD_eq_getElem?_getD]
          rw [List.getElem?_set_self h3]
          simp
        · rw [c9 k (by omega) h2 h3]
          congr 2
          omega

/-- `readBlock` from its loop: count, reads, buffer, log. -/
theorem readBlock_spec (dev : Nat → Nat) (address count : Nat) (w : World) :
    ∃ l, (readBlock dev address count w).2.calls = w.calls ++ l ∧
      (readBlock dev address count w).1 = min count (EEPROM_SIZE - address) ∧
      readCalls l = (List.range (min count (EEPROM_SIZE - address))).map
        (fun i => (address + i, dev (w.port.reads + i) % 256)) ∧
      writeCalls l = [] ∧
      (∀ x ∈ latchCalls l, x.1 < EEPROM_SIZE) ∧
      (∀ k, k < min count (EEPROM_SIZE - address) → k < w.buffer.length →
        (readBlock dev address count w).2.buffer.getD k 0 = dev (w.port.reads + k) % 256) := by
  obtain ⟨l, c1, c2, -, c4, c5, c6, -, -, c9⟩ :=
    readBlockLoop_spec dev address count (count : Int).toNat 0 w (by simp)
  simp only [Int.toNat_ofNat, Nat.sub_zero, Nat.zero_max] at c2 c4 c9
  unfold readBlock
  simp only [Int.toNat_ofNat]
  refine ⟨l, c1, c2, ?_, c5, c6, ?_⟩
  · rw [c4, c2, List.range_eq_range']
  · intro k hk hb
    exact c9 k (Nat.zero_le _) (by rw [c2]; exact hk) hb

/-- `writeBlock` from its loop: either all byte writes returned `WRITEOK` and
the clipped count is returned, or the last one issued failed and its index is
returned. -/
theorem writeBlock_spec (dev : Nat → Nat) (address : Nat) (nCount : Int) (w : World) :
    ∃ l, (writeBlock dev address nCount w).2.calls = w.calls ++ l ∧
      (∀ x ∈ latchCalls l, x.1 < EEPROM_SIZE) ∧
      (((writeBlock dev address nCount w).1 = min nCount.toNat (EEPROM_SIZE - address) ∧
          writeCalls l = (List.range (writeBlock dev address nCount w).1).map
            (fun k => (address + k, w.buffer.getD k 0, WRITEOK))) ∨
        ((writeBlock dev address nCount w).1 < nCount.toNat ∧
          (writeBlock dev address nCount w).1 + address < EEPROM_SIZE ∧
          ∃ res, res ≠ WRITEOK ∧
            writeCalls l = (List.range (writeBlock dev address nCount w).1).map
                (fun k => (address + k, w.buffer.getD k 0, WRITEOK)) ++
              [(address + (writeBlock dev address nCount w).1,
                w.buffer.getD (writeBlock dev address nCount w).1 0, res)])) := by
  obtain ⟨l, c1, -, -, -, -, c6, c7⟩ :=
    writeBlockLoop_spec dev address nCount nCount.toNat 0 w (by simp)
  simp only [Nat.sub_zero, Nat.zero_max, ← List.range_eq_range'] at c7
  have hw : writeCalls (l ++ [Call.writeBlock address nCount
      (writeBlockLoop dev address nCount nCount.toNat 0 w).1]) = writeCalls l := by
    simp [writeCalls]
  have hl : latchCalls (l ++ [Call.writeBlock address nCount
      (writeBlockLoop dev address nCount nCount.toNat 0 w).1]) = latchCalls l := by
    simp [latchCalls]
  refine ⟨l ++ [Call.writeBlock address nCount
    (writeBlockLoop dev address nCount nCount.toNat 0 w).1], ?_, ?_, ?_⟩
  · simp only [writeBlock, c1, List.append_assoc]
  · rw [hl]; exact c6
  · rw [hw]; exact c7

/-- C5: block clipping.  For every address and every `count ≤ 1024` (buffer of
1024 bytes), `readBlock` returns `min count (EEPROM_SIZE - address)` (truncated
subtraction), reads exactly the addresses `address, address+1, ...` up to that
count in ascending order, and stores the `i`-th value read at `buffer[i]`;
`writeBlock` returns the same number, having written exactly `buffer[i]` to
`address + i` for those `i` in order, when every byte write it issued returned
`WRITEOK`; `writeBlock (EEPROM_SIZE - 5) 10` then returns 5 after 5 byte writes;
and no `readByte`, `writeByte` or `setAddress` call of either function has an
address `≥ EEPROM_SIZE`. -/
theorem block_clipping (dev : Nat → Nat) (address count : Nat) (w : World)
    (hc : count ≤ DATA_BUFFER) (hbuf : w.buffer.length = DATA_BUFFER) :
    (readBlock dev address count w).1 = min count (EEPROM_SIZE - address) ∧
    readCalls (newCalls w (readBlock dev address count w).2) =
      (List.range (min count (EEPROM_SIZE - address))).map
        (fun i => (address + i, dev (w.port.reads + i) % 256)) ∧
    (∀ i < min count (EEPROM_SIZE - address),
      (readBlock dev address count w).2.buffer.getD i 0 = dev (w.port.reads + i) % 256) ∧
    ((∀ x ∈ writeCalls (newCalls w (writeBlock dev address count w).2), x.2.2 = WRITEOK) →
      (writeBlock dev address count w).1 = min count (EEPROM_SIZE - address) ∧
      writeCalls (newCalls w (writeBlock dev address count w).2) =
        (List.range (min count (EEPROM_SIZE - address))).map
          (fun i => (address + i, w.buffer.getD i 0, WRITEOK))) ∧
    ((∀ x ∈ writeCalls (newCalls w (writeBlock dev (EEPROM_SIZE - 5) 10 w).2), x.2.2 = WRITEOK) →
      (writeBlock dev (EEPROM_SIZE - 5) 10 w).1 = 5 ∧
      (writeCalls (newCalls w (writeBlock dev (EEPROM_SIZE - 5) 10 w).2)).length = 5) ∧
    (∀ x ∈ readCalls (newCalls w (readBlock dev address count w).2), x.1 < EEPROM_SIZE) ∧
    (∀ x ∈ latchCalls (newCalls w (readBlock dev address count w).2), x.1 < EEPROM_SIZE) ∧
    (∀ x ∈ writeCalls (newCalls w (writeBlock dev address count w).2), x.1 < EEPROM_SIZE) ∧
    (∀ x ∈ latchCalls (newCalls w (writeBlock dev address count w).2), x.1 < EEPROM_SIZE) := by
  have hlt : ∀ i, i < EEPROM_SIZE - address → address + i < EEPROM_SIZE := by
    intro i h; unfold EEPROM_SIZE at *; omega
  have hlt2 : ∀ i n, i < n → n + address < EEPROM_SIZE → address + i < EEPROM_SIZE := by
    intro i n h h2; unfold EEPROM_SIZE at *; omega
  obtain ⟨lr, r1, r2, r3, -, r5, r6⟩ := readBlock_spec dev address count w
  obtain ⟨lw, w1, w2, w3⟩ := writeBlock_spec dev address count w
  obtain ⟨lv, v1, -, v3⟩ := writeBlock_spec dev (EEPROM_SIZE - 5) 10 w
  rw [newCalls_of_append _ _ lr r1, newCalls_of_append _ _ lw w1, newCalls_of_append _ _ lv v1]
  simp only [Int.toNat_ofNat] at w3
  refine ⟨r2, r3, ?_, ?_, ?_, ?_, r5, ?_, w2⟩
  · intro i hi
    have h1 : i < count := Nat.lt_of_lt_of_le hi (Nat.min_le_left _ _)
    exact r6 i hi (by rw [hbuf]; exact Nat.lt_of_lt_of_le h1 hc)
  · intro hok
    rcases w3 with ⟨d1, d2⟩ | ⟨-, -, res, d3, d4⟩
    · exact ⟨d1, by rw [d2, d1]⟩
    · exact absurd (hok _ (by rw [d4]; exact List.mem_append_right _ (List.mem_singleton.mpr rfl))) d3
  · intro hok
    rcases v3 with ⟨d1, d2⟩ | ⟨-, -, res, d3, d4⟩
    · have h5 : (writeBlock dev (EEPROM_SIZE - 5) 10 w).1 = 5 := by rw [d1]; decide
      exact ⟨h5, by rw [d2, h5]; rfl⟩
    · exact absurd (hok _ (by rw [d4]; exact List.mem_append_right _ (List.mem_singleton.mpr rfl))) d3
  · intro x hx
    rw [r3, List.mem_map] at hx
    obtain ⟨i, hi, rfl⟩ := hx
    rw [List.mem_range] at hi
    exact hlt i (Nat.lt_of_lt_of_le hi (Nat.min_le_right _ _))
  · intro x hx
    rcases w3 with ⟨d1, d2⟩ | ⟨d1, d2, res, d3, d4⟩
    · rw [d2, List.mem_map] at hx
      obtain ⟨i, hi, rfl⟩ := hx
      rw [List.mem_range, d1] at hi
      exact hlt i (Nat.lt_of_lt_of_le hi (Nat.min_le_right _ _))
    · rw [d4, List.mem_append, List.mem_map] at hx
      rcases hx with ⟨i, hi, rfl⟩ | hx
      · rw [List.mem_range] at hi
        exact hlt2 i _ hi d2
      · rw [List.mem_singleton] at hx
        subst hx
        rw [Nat.add_comm] at d2
        exact d2

theorem block_clipping_witness :
    (10 : Nat) ≤ DATA_BUFFER ∧ initWorld.buffer.length = DATA_BUFFER ∧
    (readBlock (fun _ => 0) (EEPROM_SIZE - 5) (10 : Nat) initWorld).1 = 5 ∧
    (writeBlock (fun _ => 0) (EEPROM_SIZE - 5) (10 : Nat) initWorld).1 = 5 ∧
    writeCalls (newCalls initWorld
        (writeBlock (fun _ => 0) (EEPROM_SIZE - 5) (10 : Nat) initWorld).2) =
      [(0x7ffb, 0, WRITEOK), (0x7ffc, 0, WRITEOK), (0x7ffd, 0, WRITEOK), (0x7ffe, 0, WRITEOK),
       (0x7fff, 0, WRITEOK)] := by
  have hb : initWorld.buffer.length = DATA_BUFFER := by simp [initWorld]
  obtain ⟨h1, -, -, h4, -, -, -, -, -⟩ :=
    block_clipping (fun _ => 0) (EEPROM_SIZE - 5) 10 initWorld (by decide) hb
  have hok : ∀ x ∈ writeCalls (newCalls initWorld
      (writeBlock (fun _ => 0) (EEPROM_SIZE - 5) (10 : Nat) initWorld).2), x.2.2 = WRITEOK := by
    decide
  obtain ⟨h5, h6⟩ := h4 hok
  exact ⟨by decide, hb, h1, h5, h6⟩

/-- C6: if the `j`-th byte write issued by `writeBlock` (counting from 0)
returned a non-Ok result `rj`, then it is the write of `buffer[j]` to
`address + j` with `j < nCount` and `address + j < EEPROM_SIZE`, every earlier
write returned `WRITEOK` (so it is the first failure), it is the last byte write
issued, and `writeBlock` returns `j`, which is less than the requested count. -/
theorem writeBlock_stops_at_first_failure (dev : Nat → Nat) (address : Nat) (nCount : Int)
    (w : World) (j aj bj rj : Nat)
    (hj : (writeCalls (newCalls w (writeBlock dev address nCount w).2))[j]? = some (aj, bj, rj))
    (hrj : rj ≠ WRITEOK) :
    (writeBlock dev address nCount w).1 = j ∧
    aj = address + j ∧ bj = w.buffer.getD j 0 ∧
    (j : Int) < nCount ∧ address + j < EEPROM_SIZE ∧
    writeCalls (newCalls w (writeBlock dev address nCount w).2) =
      (List.range j).map (fun i => (address + i, w.buffer.getD i 0, WRITEOK)) ++
        [(address + j, w.buffer.getD j 0, rj)] ∧
    ((writeBlock dev address nCount w).1 : Int) < nCount := by
  obtain ⟨l, c1, -, c3⟩ := writeBlock_spec dev address nCount w
  rw [newCalls_of_append _ _ l c1] at hj ⊢
  have hok : ∀ n, ∀ x ∈ (List.range n).map (fun i => (address + i, w.buffer.getD i 0, WRITEOK)),
      x.2.2 = WRITEOK := by
    intro n x hx
    rw [List.mem_map] at hx
    obtain ⟨i, -, rfl⟩ := hx
    rfl
  rcases c3 with ⟨-, d2⟩ | ⟨d1, d2, res, d3, d4⟩
  · rw [d2] at hj
    exact absurd (hok _ _ (List.getElem?_mem hj)) hrj
  · generalize (writeBlock dev address nCount w).1 = n at d1 d2 d4 ⊢
    rw [d4] at hj ⊢
    have hlen : ((List.range n).map (fun i => (address + i, w.buffer.getD i 0, WRITEOK))).length = n := by
      simp
    rcases Nat.lt_or_ge j n with hlt | hge
    · rw [List.getElem?_append_left (by rw [hlen]; exact hlt)] at hj
      exact absurd (hok _ _ (List.getElem?_mem hj)) hrj
    · rw [List.getElem?_append_right (by rw [hlen]; exact hge), hlen] at hj
      have hjn : j - n = 0 := by
        by_contra hne
        obtain ⟨m, hm⟩ : ∃ m, j - n = m + 1 := ⟨j - n - 1, by omega⟩
        rw [hm] at hj
        simp at hj
      have hjn2 : j = n := by omega
      subst hjn2
      rw [hjn] at hj
      simp only [List.getElem?_cons_zero, Option.some.injEq, Prod.mk.injEq] at hj
      obtain ⟨e1, e2, e3⟩ := hj
      subst e3
      refine ⟨rfl, e1.symm, e2.symm, by omega, by rw [Nat.add_comm]; exact d2, rfl, by omega⟩

theorem writeBlock_stops_at_first_failure_witness :
    (writeBlock (fun n => if n < 2 then 0 else 1) 0 10 initWorld).1 = 2 ∧
    writeCalls (newCalls initWorld
        (writeBlock (fun n => if n < 2 then 0 else 1) 0 10 initWorld).2) =
      [(0, 0, WRITEOK), (1, 0, WRITEOK), (2, 0, WRITEVER)] := by
  obtain ⟨h1, -, -, -, -, h6, -⟩ :=
    writeBlock_stops_at_first_failure (fun n => if n < 2 then 0 else 1) 0 10 initWorld
      2 2 0 WRITEVER (by decide) (by decide)
  exact ⟨h1, h6⟩

/-! ## S-record fields -/

theorem hexDigit_ne_nul (c : Char) (d : Nat) (h : hexDigit c = some d) : c ≠ '\x00' := by
  rintro rfl
  have h0 : hexDigit '\x00' = none := by decide
  rw [h0] at h
  cases h

theorem hexDigit_lt (c : Char) (d : Nat) (h : hexDigit c = some d) : d < 16 := by
  unfold hexDigit at h
  split at h
  · rename_i h1
    have h2 : c.toNat ≤ 57 := h1.2
    simp only [Option.some.injEq] at h
    have : '0'.toNat = 48 := rfl
    omega
  · split at h
    · rename_i h1
      have h2 : c.toNat ≤ 102 := h1.2
      have h3 : 97 ≤ c.toNat := h1.1
      simp only [Option.some.injEq] at h
      have : 'a'.toNat = 97 := rfl
      omega
    · split at h
      · rename_i h1
        have h2 : c.toNat ≤ 70 := h1.2
        have h3 : 65 ≤ c.toNat := h1.1
        simp only [Option.some.injEq] at h
        have : 'A'.toNat = 65 := rfl
        omega
      · cases h

theorem specHexByte_lt (textLine : List Char) (off x : Nat)
    (h : specHexByte textLine off = some x) : x < 256 := by
  unfold specHexByte at h
  split at h
  · rename_i d1 d0 h1 h0
    have := hexDigit_lt _ _ h1
    have := hexDigit_lt _ _ h0
    simp only [Option.some.injEq] at h
    omega
  · cases h

/-- `sscanf` on a field of two hexadecimal digits gives their value. -/
theorem sscanfHex_byte (textLine : List Char) (off x : Nat)
    (h : specHexByte textLine off = some x) :
    sscanfHex (strncpy textLine off 2) = some x := by
  unfold specHexByte at h
  split at h
  · rename_i d1 d0 h1 h0
    have n1 := hexDigit_ne_nul _ _ h1
    have n0 := hexDigit_ne_nul _ _ h0
    have hr : List.range 2 = [0, 1] := rfl
    simp only [Option.some.injEq] at h
    subst h
    simp [sscanfHex, strncpy, hr, List.takeWhile, n1, n0, hexPrefix, h1, h0]
    omega
  · simp at h

/-- `sscanf` on a field of four hexadecimal digits gives their big-endian
value, which is below 65536. -/
theorem sscanfHex_word (textLine : List Char) (off x : Nat)
    (h : specHexWord textLine off = some x) :
    sscanfHex (strncpy textLine off 4) = some x ∧ x < 65536 := by
  unfold specHexWord at h
  split at h
  · rename_i hi lo hhi hlo
    have b1 := specHexByte_lt _ _ _ hhi
    have b0 := specHexByte_lt _ _ _ hlo
    unfold specHexByte at hhi hlo
    split at hhi
    · rename_i d3 d2 h3 h2
      split at hlo
      · rename_i d1 d0 h1 h0
        have n3 := hexDigit_ne_nul _ _ h3
        have n2 := hexDigit_ne_nul _ _ h2
        have n1 := hexDigit_ne_nul _ _ h1
        have n0 := hexDigit_ne_nul _ _ h0
        have hr : List.range 4 = [0, 1, 2, 3] := rfl
        simp only [Option.some.injEq] at h hhi hlo
        subst h hhi hlo
        rw [Nat.add_assoc] at h0 n0
        refine ⟨?_, by omega⟩
        simp [sscanfHex, strncpy, hr, List.takeWhile, n3, n2, n1, n0, hexPrefix, h3, h2, h1, h0]
        omega
      · simp at hlo
    · simp at hhi
  · simp at h

/-! ## S-record consumer -/

/-- Shape of a run of the data-byte loop of one record entered at index `i`,
when the data field holds hexadecimal digit pairs with values `d k`: the byte
writes of the indices `i, i+1, ...` are issued in order at the 16-bit address
`(k + startAddress) % 65536`; either all returned `WRITEOK` up to the byte
count, or the last one issued failed and the loop stopped there. -/
theorem srecByteLoop_spec (dev : Nat → Nat) (textLine : List Char) (nByteCount : Int)
    (d : Nat → Nat)
    (hd : ∀ i : Nat, (i : Int) < nByteCount → specHexByte textLine (8 + 2 * i) = some (d i)) :
    ∀ (fuel i : Nat) (nDataByte nWriteResult : Int) (w : World), fuel + i = nByteCount.toNat →
      ∃ l,
        (srecByteLoop dev textLine nByteCount fuel i nDataByte nWriteResult w).2.2.2.calls =
          w.calls ++ l ∧
        (srecByteLoop dev textLine nByteCount fuel i nDataByte nWriteResult w).2.2.2.startAddress =
          w.startAddress ∧
        i ≤ (srecByteLoop dev textLine nByteCount fuel i nDataByte nWriteResult w).1 ∧
        (((srecByteLoop dev textLine nByteCount fuel i nDataByte nWriteResult w).1 =
              nByteCount.toNat ∧
            ((srecByteLoop dev textLine nByteCount fuel i nDataByte nWriteResult w).2.2.1 = 0 ∨
              (srecByteLoop dev textLine nByteCount fuel i nDataByte nWriteResult w).2.2.1 =
                nWriteResult) ∧
            writeCalls l =
              (List.range' i
                ((srecByteLoop dev textLine nByteCount fuel i nDataByte nWriteResult w).1 - i)).map
                (fun k => ((k + w.startAddress) % 65536, d k, WRITEOK))) ∨
          ((srecByteLoop dev textLine nByteCount fuel i nDataByte nWriteResult w).1 <
              nByteCount.toNat ∧
            ∃ res, res ≠ WRITEOK ∧
              (srecByteLoop dev textLine nByteCount fuel i nDataByte nWriteResult w).2.2.1 =
                (res : Int) ∧
              writeCalls l =
                (List.range' i
                  ((srecByteLoop dev textLine nByteCount fuel i nDataByte nWriteResult w).1 - i)).map
                  (fun k => ((k + w.startAddress) % 65536, d k, WRITEOK)) ++
                [(((srecByteLoop dev textLine nByteCount fuel i nDataByte nWriteResult w).1 +
                      w.startAddress) % 65536,
                  d (srecByteLoop dev textLine nByteCount fuel i nDataByte nWriteResult w).1,
                  res)])) := by
  intro fuel
  induction fuel with
  | zero =>
    intro i nDataByte nWriteResult w h
    refine ⟨[], by simp [srecByteLoop], rfl, Nat.le_refl _, ?_⟩
    left
    simp only [srecByteLoop, Nat.sub_self, List.range'_zero, List.map_nil]
    exact ⟨by omega, Or.inr trivial, rfl⟩
  | succ f ih =>
    intro i nDataByte nWriteResult w h
    have hlt : (i : Int) < nByteCount := by omega
    have hx := hd i hlt
    have hb := specHexByte_lt _ _ _ hx
    have hs : sscanfHex (strncpy textLine (8 + i * 2) 2) = some (d i) := by
      rw [Nat.mul_comm i 2]; exact sscanfHex_byte _ _ _ hx
    have hbyte : (((d i : Nat) : Int) % 256).toNat = d i := by omega
    obtain ⟨b1, b2, b3, lw, b4, b5, b6⟩ :=
      writeByte_frame dev ((i + w.startAddress) % 65536) (d i) w
    by_cases hres : (writeByte dev ((i + w.startAddress) % 65536) (d i) w).1 = 0
    · have hstep : srecByteLoop dev textLine nByteCount (f + 1) i nDataByte nWriteResult w =
          srecByteLoop dev textLine nByteCount f (i + 1) (d i) 0
            (writeByte dev ((i + w.startAddress) % 65536) (d i) w).2 := by
        rw [srecByteLoop, if_pos hlt]
        simp only [hs, hbyte, hres]
        simp
      rw [hstep]
      obtain ⟨l2, c1, c2, c3, c4⟩ := ih (i + 1) (d i) 0
        (writeByte dev ((i + w.startAddress) % 65536) (d i) w).2 (by omega)
      rw [b2] at c2 c4
      generalize srecByteLoop dev textLine nByteCount f (i + 1) (d i) 0
        (writeByte dev ((i + w.startAddress) % 65536) (d i) w).2 = r at c1 c2 c3 c4 ⊢
      have hhead : ∀ n, i + 1 ≤ n →
          ((i + w.startAddress) % 65536, d i, WRITEOK) ::
            (List.range' (i + 1) (n - (i + 1))).map
              (fun k => ((k + w.startAddress) % 65536, d k, WRITEOK)) =
          (List.range' i (n - i)).map (fun k => ((k + w.startAddress) % 65536, d k, WRITEOK)) := by
        intro n hn
        obtain ⟨m, rfl⟩ : ∃ m, n = i + 1 + m := ⟨n - (i + 1), by omega⟩
        rw [show i + 1 + m - (i + 1) = m by omega, show i + 1 + m - i = m + 1 by omega,
          List.range'_succ]
        rfl
      have hw : writeCalls lw = [((i + w.startAddress) % 65536, d i, WRITEOK)] := by
        rw [b5, hres]
      refine ⟨lw ++ l2, by rw [c1, b4, List.append_assoc], c2, Nat.le_of_succ_le c3, ?_⟩
      rcases c4 with ⟨d1, d2, d3⟩ | ⟨d1, res, d2, d3, d4⟩
      · left
        refine ⟨d1, ?_, ?_⟩
        · rcases d2 with d2 | d2
          · exact Or.inl d2
          · exact Or.inl d2
        · rw [writeCalls_append, hw, d3, List.singleton_append, hhead _ c3]
      · right
        refine ⟨d1, res, d2, d3, ?_⟩
        rw [writeCalls_append, hw, d4, List.singleton_append, ← List.cons_append, hhead _ c3]
    · have hstep : srecByteLoop dev textLine nByteCount (f + 1) i nDataByte nWriteResult w =
          (i, (d i : Int), ((writeByte dev ((i + w.startAddress) % 65536) (d i) w).1 : Int),
            (writeByte dev ((i + w.startAddress) % 65536) (d i) w).2) := by
        rw [srecByteLoop, if_pos hlt]
        simp only [hs, hbyte]
        have : ((writeByte dev ((i + w.startAddress) % 65536) (d i) w).1 : Int) ≠ 0 := by
          exact_mod_cast hres
        simp [this]
      rw [hstep]
      refine ⟨lw, b4, b2, Nat.le_refl _, ?_⟩
      right
      refine ⟨by omega, _, hres, rfl, ?_⟩
      simp only [Nat.sub_self, List.range'_zero, List.map_nil, List.nil_append]
      rw [b5]

/-- One data record whose fields are hexadecimal digits: the address is set and
the byte writes are issued as `srecByteLoop_spec` says, from index 0. -/
theorem srecRecord_spec (dev : Nat → Nat) (textLine : List Char) (v : SrecVars) (w : World)
    (c A : Nat) (d : Nat → Nat)
    (hc : specHexByte textLine 2 = some c) (hA : specHexWord textLine 4 = some A)
    (hd : ∀ i, i < c - 3 → specHexByte textLine (8 + 2 * i) = some (d i)) :
    ∃ l, (srecRecord dev textLine v w).2.calls = w.calls ++ l ∧
      (srecRecord dev textLine v w).2.startAddress = A ∧
      (writeCalls l = (List.range (c - 3)).map (fun i => ((A + i) % 65536, d i, WRITEOK)) ∨
        ∃ n res, n < c - 3 ∧ res ≠ WRITEOK ∧
          (srecRecord dev textLine v w).1.nWriteResult = (res : Int) ∧
          writeCalls l = (List.range n).map (fun i => ((A + i) % 65536, d i, WRITEOK)) ++
            [((A + n) % 65536, d n, res)]) := by
  have hc2 := sscanfHex_byte _ _ _ hc
  obtain ⟨hA2, hA3⟩ := sscanfHex_word _ _ _ hA
  have hAm : A % 65536 = A := Nat.mod_eq_of_lt hA3
  have hd2 : ∀ i : Nat, (i : Int) < (c : Int) - 3 →
      specHexByte textLine (8 + 2 * i) = some (d i) := by
    intro i hi; exact hd i (by omega)
  have hfun : (fun k => ((k + A) % 65536, d k, WRITEOK)) =
      (fun k => ((A + k) % 65536, d k, WRITEOK)) := by
    funext k; rw [Nat.add_comm]
  obtain ⟨l, c1, c2, -, c4⟩ := srecByteLoop_spec dev textLine ((c : Int) - 3) d hd2
    ((c : Int) - 3).toNat 0 v.nDataByte v.nWriteResult { w with startAddress := A } (by simp)
  have hn : ((c : Int) - 3).toNat = c - 3 := by omega
  simp only [Nat.sub_zero, ← List.range_eq_range', hn, hfun] at c1 c2 c4
  unfold srecRecord
  simp only [hc2, hA2, hAm, hn]
  refine ⟨l, c1, c2, ?_⟩
  rcases c4 with ⟨d1, -, d3⟩ | ⟨d1, res, d2, d3, d4⟩
  · left; rw [d3, d1]
  · right
    rw [Nat.add_comm _ A] at d4
    exact ⟨_, res, d1, d2, d3, d4⟩

/-- A hexadecimal digit read from the buffer lies within the line. -/
theorem hexDigit_charAt_lt (line : List Char) (k d : Nat)
    (h : hexDigit (charAt line k) = some d) : k < line.length := by
  by_contra hk
  have hc : charAt line k = '\x00' := by
    unfold charAt
    rw [List.getD_eq_getElem?_getD, List.getElem?_eq_none (by omega)]
    rfl
  exact hexDigit_ne_nul _ _ h hc

/-- Within the line just read, the buffer holds the line. -/
theorem charAt_getline (buf line : List Char) (k : Nat) (h : k < line.length) :
    charAt (getline buf line) k = charAt line k := by
  unfold charAt getline
  rw [List.getD_eq_getElem?_getD, List.getD_eq_getElem?_getD, List.getElem?_append_left h]

theorem specHexByte_getline (buf line : List Char) (off x : Nat)
    (h : specHexByte line off = some x) : specHexByte (getline buf line) off = some x := by
  unfold specHexByte at h ⊢
  split at h
  · rename_i d1 d0 h1 h0
    rw [charAt_getline buf line off (hexDigit_charAt_lt _ _ _ h1),
      charAt_getline buf line (off + 1) (hexDigit_charAt_lt _ _ _ h0), h1, h0]
    exact h
  · cases h

theorem specHexWord_getline (buf line : List Char) (off x : Nat)
    (h : specHexWord line off = some x) : specHexWord (getline buf line) off = some x := by
  unfold specHexWord at h ⊢
  split at h
  · rename_i hi lo hhi hlo
    rw [specHexByte_getline buf line off hi hhi, specHexByte_getline buf line (off + 2) lo hlo]
    exact h
  · cases h

/-- The data-byte loop only adds to the call log. -/
theorem srecByteLoop_calls (dev : Nat → Nat) (textLine : List Char) (nByteCount : Int) :
    ∀ (fuel i : Nat) (nDataByte nWriteResult : Int) (w : World),
      ∃ l, (srecByteLoop dev textLine nByteCount fuel i nDataByte nWriteResult w).2.2.2.calls =
        w.calls ++ l := by
  intro fuel
  induction fuel with
  | zero => intro i nd nr w; exact ⟨[], by simp [srecByteLoop]⟩
  | succ f ih =>
    intro i nd nr w
    rw [srecByteLoop]
    split
    · simp only []
      generalize (match sscanfHex (strncpy textLine (8 + i * 2) 2) with
        | some x => (x : Int)
        | none => nd) = nd2
      obtain ⟨-, -, -, l1, e1, -⟩ :=
        writeByte_frame dev ((i + w.startAddress) % 65536) (nd2 % 256).toNat w
      split
      · exact ⟨l1, e1⟩
      · obtain ⟨l2, e2⟩ := ih (i + 1) nd2
          ((writeByte dev ((i + w.startAddress) % 65536) (nd2 % 256).toNat w).1 : Int)
          (writeByte dev ((i + w.startAddress) % 65536) (nd2 % 256).toNat w).2
        exact ⟨l1 ++ l2, by rw [e2, e1, List.append_assoc]⟩
    · exact ⟨[], by simp⟩

/-- The line loop only adds to the call log. -/
theorem srecFileLoop_calls (dev : Nat → Nat) :
    ∀ (lines : List (List Char)) (v : SrecVars) (w : World),
      ∃ l, (srecFileLoop dev lines v w).2.calls = w.calls ++ l := by
  intro lines
  induction lines with
  | nil => intro v w; exact ⟨[], by simp [srecFileLoop]⟩
  | cons line rest ih =>
    intro v w
    rw [srecFileLoop]
    simp only []
    have hr : ∃ l, (if charAt (getline v.textLine line) 1 = '1' then
          srecRecord dev (getline v.textLine line)
            { v with textLine := getline v.textLine line } w
        else ({ v with textLine := getline v.textLine line }, w)).2.calls = w.calls ++ l := by
      split
      · unfold srecRecord
        exact srecByteLoop_calls dev _ _ _ _ _ _ _
      · exact ⟨[], by simp⟩
    obtain ⟨l1, e1⟩ := hr
    generalize (if charAt (getline v.textLine line) 1 = '1' then
          srecRecord dev (getline v.textLine line)
            { v with textLine := getline v.textLine line } w
        else ({ v with textLine := getline v.textLine line }, w)) = r at e1 ⊢
    split
    · exact ⟨l1, e1⟩
    · obtain ⟨l2, e2⟩ := ih r.1 r.2
      exact ⟨l1 ++ l2, by rw [e2, e1, List.append_assoc]⟩

/-- The line loop on a file in two parts: when the loop is not left in the
first part (there `nWriteResult` is 0 after its last line, or the part is
empty), the second part is processed from the state the first part leaves. -/
theorem srecFileLoop_append (dev : Nat → Nat) (post : List (List Char)) :
    ∀ (pre : List (List Char)) (v : SrecVars) (w : World),
      (pre = [] ∨ (srecFileLoop dev pre v w).1.nWriteResult = 0) →
      srecFileLoop dev (pre ++ post) v w =
        srecFileLoop dev post (srecFileLoop dev pre v w).1 (srecFileLoop dev pre v w).2 := by
  intro pre
  induction pre with
  | nil => intro v w _; rfl
  | cons line rest ih =>
    intro v w h
    have h0 : (srecFileLoop dev (line :: rest) v w).1.nWriteResult = 0 := by
      rcases h with h | h
      · cases h
      · exact h
    rw [List.cons_append, srecFileLoop, srecFileLoop]
    rw [srecFileLoop] at h0
    simp only [] at h0 ⊢
    generalize (if charAt (getline v.textLine line) 1 = '1' then
          srecRecord dev (getline v.textLine line)
            { v with textLine := getline v.textLine line } w
        else ({ v with textLine := getline v.textLine line }, w)) = r at h0 ⊢
    by_cases hr : r.1.nWriteResult ≠ 0
    · rw [if_pos hr] at h0
      exact absurd h0 hr
    · rw [if_neg hr] at h0
      rw [if_neg hr, if_neg hr]
      exact ih r.1 r.2 (Or.inr h0)

/-- The line loop on one line that is a data record: the buffer is filled by
`getline` and the record is processed. -/
theorem srecFileLoop_record (dev : Nat → Nat) (line : List Char) (rest : List (List Char))
    (v : SrecVars) (w : World) (htag : charAt line 1 = '1') :
    srecFileLoop dev [line] v w =
      srecRecord dev (getline v.textLine line) { v with textLine := getline v.textLine line } w ∧
    ∃ l, (srecFileLoop dev (line :: rest) v w).2.calls =
      (srecFileLoop dev [line] v w).2.calls ++ l := by
  have h1 : hexDigit (charAt line 1) = some 1 := by rw [htag]; decide
  have htag2 : charAt (getline v.textLine line) 1 = '1' := by
    rw [charAt_getline _ _ _ (hexDigit_charAt_lt _ _ _ h1)]; exact htag
  have hsingle : srecFileLoop dev [line] v w =
      srecRecord dev (getline v.textLine line)
        { v with textLine := getline v.textLine line } w := by
    rw [srecFileLoop]
    simp only [htag2, if_true]
    split
    · rfl
    · rw [srecFileLoop]
  refine ⟨hsingle, ?_⟩
  rw [hsingle, srecFileLoop]
  simp only [htag2, if_true]
  split
  · exact ⟨[], by simp⟩
  · exact srecFileLoop_calls dev rest _ _

/-- `writeEEPROMsrec` on a file that opens is its line loop `srecFileLoop`,
entered with the initial values of the locals. -/
theorem writeEEPROMsrec_loop (dev : Nat → Nat) (nByteCount0 nDataByte0 nWriteResult0 : Int)
    (lines : List (List Char)) (w : World) :
    (writeEEPROMsrec dev nByteCount0 nDataByte0 nWriteResult0 (some lines) w).2 =
      (srecFileLoop dev lines
        { nByteCount := nByteCount0, nDataByte := nDataByte0, nWriteResult := nWriteResult0,
          nTotalWritten := 0, textLine := [] } w).2 := rfl

/-- C7 (as the code has it): let `textLine` be a line of the input file that
the line loop of `writeEEPROMsrec` (`srecFileLoop`, entered with any values
`v0` of the locals) reaches (it is the first line, or
`nWriteResult` is 0 after the lines `pre` before it), with record type `'1'`, a
2-hex-digit count field with value `c`, a 4-hex-digit address field with value
`A`, hexadecimal digit pairs with values `d i` at the offsets `8 + 2i` for
`i < c - 3` (a payload of `c - 3` bytes), and all target addresses within the
device (`A + (c - 3) ≤ EEPROM_SIZE`).  Then, whatever lines follow and whatever
the state before: the write address is set to `A`, and the byte writes issued
for this line are those of the payload bytes `d 0, d 1, ...` in order, byte `i`
at address `A + i`; all `c - 3` of them are issued when each returns `WRITEOK`,
and none after the first that does not. -/
theorem srec_data_record (dev : Nat → Nat) (pre rest : List (List Char)) (textLine : List Char)
    (v0 : SrecVars) (w0 : World) (c A : Nat) (d : Nat → Nat)
    (hreach : pre = [] ∨ (srecFileLoop dev pre v0 w0).1.nWriteResult = 0)
    (htag : charAt textLine 1 = '1')
    (hc : specHexByte textLine 2 = some c) (hA : specHexWord textLine 4 = some A)
    (hd : ∀ i, i < c - 3 → specHexByte textLine (8 + 2 * i) = some (d i))
    (hrange : A + (c - 3) ≤ EEPROM_SIZE) :
    (srecFileLoop dev (pre ++ [textLine]) v0 w0).2.startAddress = A ∧
    (writeCalls (newCalls (srecFileLoop dev pre v0 w0).2
        (srecFileLoop dev (pre ++ [textLine]) v0 w0).2) =
        (List.range (c - 3)).map (fun i => (A + i, d i, WRITEOK)) ∨
      ∃ n res, n < c - 3 ∧ res ≠ WRITEOK ∧
        writeCalls (newCalls (srecFileLoop dev pre v0 w0).2
          (srecFileLoop dev (pre ++ [textLine]) v0 w0).2) =
          (List.range n).map (fun i => (A + i, d i, WRITEOK)) ++ [(A + n, d n, res)]) ∧
    ((∀ x ∈ writeCalls (newCalls (srecFileLoop dev pre v0 w0).2
        (srecFileLoop dev (pre ++ [textLine]) v0 w0).2), x.2.2 = WRITEOK) →
      writeCalls (newCalls (srecFileLoop dev pre v0 w0).2
        (srecFileLoop dev (pre ++ [textLine]) v0 w0).2) =
        (List.range (c - 3)).map (fun i => (A + i, d i, WRITEOK))) ∧
    (∃ l, (srecFileLoop dev (pre ++ textLine :: rest) v0 w0).2.calls =
      (srecFileLoop dev (pre ++ [textLine]) v0 w0).2.calls ++ l) := by
  have hE : EEPROM_SIZE = 32768 := rfl
  have hT := srecFileLoop_append dev [textLine] pre v0 w0 hreach
  have hF := srecFileLoop_append dev (textLine :: rest) pre v0 w0 hreach
  generalize srecFileLoop dev pre v0 w0 = S at hT hF
  obtain ⟨hrec, l2, hl2⟩ := srecFileLoop_record dev textLine rest S.1 S.2 htag
  obtain ⟨l, c1, c2, c3⟩ := srecRecord_spec dev (getline S.1.textLine textLine)
    { S.1 with textLine := getline S.1.textLine textLine } S.2 c A d
    (specHexByte_getline _ _ _ _ hc) (specHexWord_getline _ _ _ _ hA)
    (fun i hi => specHexByte_getline _ _ _ _ (hd i hi))
  rw [← hrec, ← hT] at c1 c2 c3
  rw [← hT, ← hF] at hl2
  generalize srecFileLoop dev (pre ++ [textLine]) v0 w0 = T at c1 c2 c3 hl2 ⊢
  have hfull : (List.range (c - 3)).map (fun i => ((A + i) % 65536, d i, WRITEOK)) =
      (List.range (c - 3)).map (fun i => (A + i, d i, WRITEOK)) := by
    apply List.map_congr_left
    intro i hi
    rw [List.mem_range] at hi
    rw [Nat.mod_eq_of_lt (by omega)]
  have hpart : ∀ n, n < c - 3 →
      (List.range n).map (fun i => ((A + i) % 65536, d i, WRITEOK)) =
        (List.range n).map (fun i => (A + i, d i, WRITEOK)) ∧ (A + n) % 65536 = A + n := by
    intro n hn
    refine ⟨?_, Nat.mod_eq_of_lt (by omega)⟩
    apply List.map_congr_left
    intro i hi
    rw [List.mem_range] at hi
    rw [Nat.mod_eq_of_lt (by omega)]
  rw [newCalls_of_append _ _ l c1]
  rw [hfull] at c3
  refine ⟨c2, ?_, ?_, l2, hl2⟩
  · rcases c3 with d1 | ⟨n, res, d1, d2, -, d4⟩
    · exact Or.inl d1
    · obtain ⟨p1, p2⟩ := hpart n d1
      rw [p1, p2] at d4
      exact Or.inr ⟨n, res, d1, d2, d4⟩
  · intro hok
    rcases c3 with d1 | ⟨n, res, d1, d2, -, d4⟩
    · exact d1
    · exact absurd (hok _ (by rw [d4]; exact List.mem_append_right _ (List.mem_singleton.mpr rfl))) d2

theorem srec_data_record_witness :
    (srecFileLoop (fun n => if n = 0 then 0xaa else 0x0a) ["S1040000AA51\n".toList]
      { nByteCount := 5, nDataByte := 6, nWriteResult := 7, nTotalWritten := 0, textLine := [] }
      initWorld).1.nWriteResult = 0 ∧
    charAt "S1137AF00A0A0A0A0A0A0A0A0A0A0A0A0A0A0A0AE2\n".toList 1 = '1' ∧
    specHexByte "S1137AF00A0A0A0A0A0A0A0A0A0A0A0A0A0A0A0AE2\n".toList 2 = some 0x13 ∧
    specHexWord "S1137AF00A0A0A0A0A0A0A0A0A0A0A0A0A0A0A0AE2\n".toList 4 = some 0x7af0 ∧
    0x7af0 + (0x13 - 3) ≤ EEPROM_SIZE ∧
    (srecFileLoop (fun n => if n = 0 then 0xaa else 0x0a)
      (["S1040000AA51\n".toList] ++ ["S1137AF00A0A0A0A0A0A0A0A0A0A0A0A0A0A0A0AE2\n".toList])
      { nByteCount := 5, nDataByte := 6, nWriteResult := 7, nTotalWritten := 0, textLine := [] }
      initWorld).2.startAddress = 0x7af0 ∧
    writeCalls (newCalls
      (srecFileLoop (fun n => if n = 0 then 0xaa else 0x0a) ["S1040000AA51\n".toList]
        { nByteCount := 5, nDataByte := 6, nWriteResult := 7, nTotalWritten := 0,
          textLine := [] } initWorld).2
      (srecFileLoop (fun n => if n = 0 then 0xaa else 0x0a)
        (["S1040000AA51\n".toList] ++ ["S1137AF00A0A0A0A0A0A0A0A0A0A0A0A0A0A0A0AE2\n".toList])
        { nByteCount := 5, nDataByte := 6, nWriteResult := 7, nTotalWritten := 0,
          textLine := [] } initWorld).2) =
      (List.range 16).map (fun i => (0x7af0 + i, 0x0a, WRITEOK)) := by
  obtain ⟨h1, -, h3, -⟩ := srec_data_record (fun n => if n = 0 then 0xaa else 0x0a)
    ["S1040000AA51\n".toList] ["S9030000FC\n".toList]
    "S1137AF00A0A0A0A0A0A0A0A0A0A0A0A0A0A0A0AE2\n".toList
    { nByteCount := 5, nDataByte := 6, nWriteResult := 7, nTotalWritten := 0, textLine := [] }
    initWorld 0x13 0x7af0 (fun _ => 0x0a)
    (Or.inr (by decide)) (by decide) (by decide) (by decide) (by decide) (by decide)
  exact ⟨by decide, by decide, by decide, by decide, by decide, h1, h3 (by decide)⟩

/-- C7 as stated fails on its own example.  The example line of the spec
carries only 13 data bytes `0A` before its checksum `61`, while its count field
`13` (hex) asks for 16: with a device that always reads back `0x0A`, payload
bytes 0..12 are written as `0x0A` and payload byte 13 is written as `0x61`
(mismatch, the loop stops); the payload is not sixteen bytes `0x0A`. -/
theorem srec_example_line_payload :
    writeCalls (newCalls initWorld
      (writeEEPROMsrec (fun _ => 0x0a) 0 0 0
        (some ["S1137AF00A0A0A0A0A0A0A0A0A0A0A0A0A61\n".toList]) initWorld).2) =
      (List.range 13).map (fun i => (0x7af0 + i, 0x0a, WRITEOK)) ++ [(0x7afd, 0x61, WRITEVER)] ∧
    specHexByte "S1137AF00A0A0A0A0A0A0A0A0A0A0A0A0A61\n".toList 2 = some 0x13 ∧
    specHexByte "S1137AF00A0A0A0A0A0A0A0A0A0A0A0A0A61\n".toList (8 + 2 * 13) = some 0x61 ∧
    specHexByte "S1137AF00A0A0A0A0A0A0A0A0A0A0A0A0A61\n".toList (8 + 2 * 14) = none := by
  refine ⟨?_, ?_, ?_, ?_⟩ <;> decide

/-- C8, the code at the failing input: a file whose first line is a header
record `S0` followed by a data record.  When the uninitialised `nWriteResult`
holds a non-zero value the loop over the lines is left after the header line:
no byte write is issued, the port is not touched, and 0 is returned; only when
it holds 0 is the data record programmed. -/
theorem srec_header_first_line :
    writeEEPROMsrec (fun _ => 0xaa) 0 0 1
      (some ["S00600004844521B\n".toList, "S1040000AA51\n".toList]) initWorld = (0, initWorld) ∧
    writeCalls (newCalls initWorld
      (writeEEPROMsrec (fun _ => 0xaa) 0 0 0
        (some ["S00600004844521B\n".toList, "S1040000AA51\n".toList]) initWorld).2) =
      [(0, 0xaa, WRITEOK)] := by
  constructor <;> decide

/-- C9, the code at the failing input: the device reads back `0xFF` after the
write of `0xAA`, so the byte write returns `WRITEVER`.  No further byte write is
issued (neither the second byte of the record nor the next record), but
`writeEEPROMsrec` and `writeEEPROM` return 0; the binary-mode write of the same
two bytes returns 1. -/
theorem srec_write_error_returns_zero :
    writeCalls (newCalls initWorld
      (writeEEPROMsrec (fun _ => 0xff) 0 0 0
        (some ["S1050000AA55FB\n".toList, "S1040010BB30\n".toList]) initWorld).2) =
      [(0, 0xaa, WRITEVER)] ∧
    (writeEEPROMsrec (fun _ => 0xff) 0 0 0
      (some ["S1050000AA55FB\n".toList, "S1040010BB30\n".toList]) initWorld).1 = 0 ∧
    (writeEEPROM (fun _ => 0xff) S_RECORD 0 0 0 0 none
      (some ["S1050000AA55FB\n".toList, "S1040010BB30\n".toList]) initWorld).1 = some 0 ∧
    (writeEEPROM (fun _ => 0xff) BINARY 1 0 0 0 (some [0xaa, 0x55]) none initWorld).1 = some 1 := by
  refine ⟨?_, ?_, ?_, ?_⟩ <;> decide

/-! ## Device-address invariant -/

/-- Every `writeByte` and `setAddress` call of `writeBlock` has an address
below `EEPROM_SIZE`. -/
theorem writeBlock_addresses (dev : Nat → Nat) (address : Nat) (nCount : Int) (w : World) :
    ∃ l, (writeBlock dev address nCount w).2.calls = w.calls ++ l ∧
      (writeBlock dev address nCount w).2.startAddress = w.startAddress ∧
      (writeBlock dev address nCount w).2.endAddress = w.endAddress ∧
      (∀ x ∈ writeCalls l, x.1 < EEPROM_SIZE) ∧ (∀ x ∈ latchCalls l, x.1 < EEPROM_SIZE) := by
  have hlt : ∀ i n, i < n → n ≤ min nCount.toNat (EEPROM_SIZE - address) →
      address + i < EEPROM_SIZE := by
    intro i n h h2
    have := Nat.min_le_right nCount.toNat (EEPROM_SIZE - address)
    unfold EEPROM_SIZE at *; omega
  have hlt2 : ∀ i n, i < n → n + address < EEPROM_SIZE → address + i < EEPROM_SIZE := by
    intro i n h h2; unfold EEPROM_SIZE at *; omega
  obtain ⟨-, -, -, c3, c4, -, -, -⟩ :=
    writeBlockLoop_spec dev address nCount nCount.toNat 0 w (by simp)
  obtain ⟨l', c1', c6, w3⟩ := writeBlock_spec dev address nCount w
  refine ⟨l', c1', c3, c4, ?_, c6⟩
  intro x hx
  rcases w3 with ⟨d1, d2⟩ | ⟨d1, d2, res, d3, d4⟩
  · rw [d2, List.mem_map] at hx
    obtain ⟨i, hi, rfl⟩ := hx
    rw [List.mem_range] at hi
    exact hlt i _ hi (Nat.le_of_eq d1)
  · rw [d4, List.mem_append, List.mem_map] at hx
    rcases hx with ⟨i, hi, rfl⟩ | hx
    · rw [List.mem_range] at hi
      exact hlt2 i _ hi d2
    · rw [List.mem_singleton] at hx
      subst hx
      rw [Nat.add_comm] at d2
      exact d2

/-- Every `writeByte` and `setAddress` call of the block loop of
`writeEEPROMbin` has an address below `EEPROM_SIZE`, however many iterations are
run. -/
theorem writeEEPROMbinLoop_addresses (dev : Nat → Nat) (file : List Nat) :
    ∀ (fuel i pos : Nat) (w : World),
      ∃ l, (writeEEPROMbinLoop dev file fuel i pos w).2.calls = w.calls ++ l ∧
        (∀ x ∈ writeCalls l, x.1 < EEPROM_SIZE) ∧ (∀ x ∈ latchCalls l, x.1 < EEPROM_SIZE) := by
  intro fuel
  induction fuel with
  | zero =>
    intro i pos w
    exact ⟨[], by simp [writeEEPROMbinLoop], by simp [writeCalls], by simp [latchCalls]⟩
  | succ f ih =>
    intro i pos w
    by_cases hle : i ≤ w.endAddress
    · rw [writeEEPROMbinLoop, if_pos hle]
      simp only []
      generalize hrd : fileRead file pos
        (if ((w.endAddress : Int) - i + 1) ≥ DATA_BUFFER then DATA_BUFFER
          else (w.endAddress : Int) - i + 1) w.buffer = rd
      obtain ⟨l1, b1, -, -, b4, b5⟩ :=
        writeBlock_addresses dev i rd.1 { w with buffer := rd.2.1 }
      split
      · exact ⟨l1, b1, b4, b5⟩
      · obtain ⟨l2, c1, c2, c3⟩ := ih
          ((i + (writeBlock dev i rd.1 { w with buffer := rd.2.1 }).1 % 65536) % 65536) rd.2.2
          (writeBlock dev i rd.1 { w with buffer := rd.2.1 }).2
        refine ⟨l1 ++ l2, by rw [c1, b1, List.append_assoc], ?_, ?_⟩
        · intro x hx
          rw [writeCalls_append, List.mem_append] at hx
          rcases hx with hx | hx
          · exact b4 x hx
          · exact c2 x hx
        · intro x hx
          rw [latchCalls_append, List.mem_append] at hx
          rcases hx with hx | hx
          · exact b5 x hx
          · exact c3 x hx
    · rw [writeEEPROMbinLoop, if_neg hle]
      exact ⟨[], by simp, by simp [writeCalls], by simp [latchCalls]⟩

theorem setAddress_reject (a : Nat) (cs : Int) (w : World) (h : a ≥ EEPROM_SIZE) :
    setAddress a cs w = (1, { w with calls := w.calls ++ [Call.setAddress a cs 1] }) := by
  simp [setAddress, h]

/-- Binary mode keeps the device-address invariant: in any run of `writeEEPROMbin`
(every file, every start address, finished or cut off after any number of block
iterations) every byte write is issued for an address below `EEPROM_SIZE`; the
only `setAddress` call that can carry an address `≥ EEPROM_SIZE` is the
validation of an out-of-range start address, which is rejected: then the result
is 1, no port register is accessed or changed and no byte write is issued. -/
theorem binary_write_device_addresses (dev : Nat → Nat) (fuel : Nat) (file : Option (List Nat))
    (w : World) :
    (∀ x ∈ writeCalls (newCalls w (writeEEPROMbin dev fuel file w).2), x.1 < EEPROM_SIZE) ∧
    (∀ x ∈ latchCalls (newCalls w (writeEEPROMbin dev fuel file w).2),
      x.1 < EEPROM_SIZE ∨ x = (w.startAddress, CS_SET, 1)) ∧
    (w.startAddress ≥ EEPROM_SIZE →
      (writeEEPROMbin dev fuel file w).1 = some 1 ∧
      (writeEEPROMbin dev fuel file w).2.port = w.port ∧
      (writeEEPROMbin dev fuel file w).2.ops = w.ops ∧
      writeCalls (newCalls w (writeEEPROMbin dev fuel file w).2) = [] ∧
      latchCalls (newCalls w (writeEEPROMbin dev fuel file w).2) =
        [(w.startAddress, CS_SET, 1)]) := by
  by_cases hs : w.startAddress ≥ EEPROM_SIZE
  · have hr := setAddress_reject w.startAddress CS_SET w hs
    have hw : writeEEPROMbin dev fuel file w =
        (some 1, { w with calls := w.calls ++ [Call.setAddress w.startAddress CS_SET 1] }) := by
      simp [writeEEPROMbin, hr]
    rw [hw]
    have hn : newCalls w { w with calls := w.calls ++ [Call.setAddress w.startAddress CS_SET 1] }
        = [Call.setAddress w.startAddress CS_SET 1] := newCalls_of_append _ _ _ rfl
    rw [hn]
    refine ⟨by simp [writeCalls], ?_, fun _ => ⟨rfl, rfl, rfl, by simp [writeCalls],
      by simp [latchCalls]⟩⟩
    intro x hx
    simp [latchCalls] at hx
    exact Or.inr hx
  · obtain ⟨-, -, f3, f4, f5, f6⟩ := setAddress_frame w.startAddress CS_SET w
    rw [if_neg hs] at f6
    rw [f6] at f5
    have hsa : writeCalls [Call.setAddress w.startAddress CS_SET 0] = [] := by simp [writeCalls]
    have hla : ∀ x ∈ latchCalls [Call.setAddress w.startAddress CS_SET 0], x.1 < EEPROM_SIZE := by
      intro x hx
      simp [latchCalls] at hx
      subst hx
      exact Nat.lt_of_not_ge hs
    have key : ∃ l, (writeEEPROMbin dev fuel file w).2.calls = w.calls ++ l ∧
        (∀ x ∈ writeCalls l, x.1 < EEPROM_SIZE) ∧ (∀ x ∈ latchCalls l, x.1 < EEPROM_SIZE) := by
      unfold writeEEPROMbin
      simp only [f6, ne_eq, not_true_eq_false, if_false]
      cases file with
      | none => exact ⟨_, f5, by rw [hsa]; simp, hla⟩
      | some bytes =>
        simp only []
        split
        · exact ⟨_, f5, by rw [hsa]; simp, hla⟩
        · obtain ⟨l, c1, c2, c3⟩ := writeEEPROMbinLoop_addresses dev bytes fuel
            (setAddress w.startAddress CS_SET w).2.startAddress 0
            { (setAddress w.startAddress CS_SET w).2 with
              endAddress := ((setAddress w.startAddress CS_SET w).2.startAddress +
                (toInt bytes.length % 65536).toNat + 65535) % 65536 }
          refine ⟨[Call.setAddress w.startAddress CS_SET 0] ++ l, ?_, ?_, ?_⟩
          · rw [c1]; simp only [f5, List.append_assoc]
          · intro x hx
            rw [writeCalls_append, hsa, List.nil_append] at hx
            exact c2 x hx
          · intro x hx
            rw [latchCalls_append, List.mem_append] at hx
            rcases hx with hx | hx
            · exact hla x hx
            · exact c3 x hx
    obtain ⟨l, k1, k2, k3⟩ := key
    rw [newCalls_of_append _ _ l k1]
    exact ⟨k2, fun x hx => Or.inl (k3 x hx), fun h => absurd h hs⟩

/-- C10, the code at the failing input: the S-record file with the one record
`S105FFFF0A0BE7` (two bytes at address `0xFFFF`).  `writeEEPROMsrec` hands
`(t_word)(i + startAddress)` to `writeByte` without a range test, and
`writeByte` drops the result of `setAddress`: `setAddress` is presented with
`0xFFFF` (and rejects it); the write-enable function is selected, `0x0A` is put
on the data lines and the strobe is pulsed all the same (the first nine port
accesses of the run); and the second byte, whose target is `0x10000`, is
written at address 0. -/
theorem srec_out_of_range_record :
    ((0xffff : Nat), CS_CLR, (1 : Nat)) ∈ latchCalls (newCalls initWorld
      (writeEEPROMsrec (fun n => if n = 0 then 0x0a else 0x0b) 0 0 0
        (some ["S105FFFF0A0BE7\n".toList]) initWorld).2) ∧
    (newOps initWorld
      (writeEEPROMsrec (fun n => if n = 0 then 0x0a else 0x0b) 0 0 0
        (some ["S105FFFF0A0BE7\n".toList]) initWorld).2).take 9 =
      [PortOp.readControl 0x0f, PortOp.writeControl 0x05, PortOp.writeData 0x0a,
       PortOp.readControl 0x05, PortOp.writeControl 0x05,
       PortOp.readControl 0x05, PortOp.writeControl 0x04,
       PortOp.readControl 0x04, PortOp.writeControl 0x05] ∧
    writeCalls (newCalls initWorld
      (writeEEPROMsrec (fun n => if n = 0 then 0x0a else 0x0b) 0 0 0
        (some ["S105FFFF0A0BE7\n".toList]) initWorld).2) =
      [(0xffff, 0x0a, WRITEOK), (0, 0x0b, WRITEOK)] := by
  refine ⟨?_, ?_, ?_⟩ <;> decide

theorem binary_write_device_addresses_witness :
    (writeEEPROMbin (fun _ => 0xff) 5 (some [0xaa, 0x55])
      { initWorld with startAddress := 0x9000 }).1 = some 1 ∧
    (writeEEPROMbin (fun _ => 0xff) 5 (some [0xaa, 0x55])
      { initWorld with startAddress := 0x9000 }).2.ops = [] ∧
    writeCalls (newCalls { initWorld with startAddress := 0x9000 }
      (writeEEPROMbin (fun _ => 0xff) 5 (some [0xaa, 0x55])
        { initWorld with startAddress := 0x9000 }).2) = [] := by
  obtain ⟨h1, -, h3, h4, -⟩ :=
    (binary_write_device_addresses (fun _ => 0xff) 5 (some [0xaa, 0x55])
      { initWorld with startAddress := 0x9000 }).2.2 (by decide)
  exact ⟨h1, h3, h4⟩

/-! ## Erase -/

theorem fastByteWrite_frame (a b : Nat) (w : World) :
    (fastByteWrite a b w).port.reads = w.port.reads ∧
    (fastByteWrite a b w).calls = w.calls ++
      [Call.setAddress a CS_CLR (if a ≥ EEPROM_SIZE then 1 else 0), Call.fastByteWrite a b] := by
  simp [fastByteWrite, setAddress_frame, selectFunc, pulseStrobe, setStrobe, clrStrobe,
    ieee1284_write_data, ieee1284_write_control, ieee1284_read_control]

/-- What one pass of the erase loop logs, for the address `k`: the fast write
of `0xFF`, and a suspension when `k + 1` is a multiple of 64. -/
theorem eraseLoop_spec :
    ∀ (fuel address : Nat) (nByteCount : Int) (w : World),
      address + fuel = EEPROM_SIZE → nByteCount = ((address % 64 : Nat) : Int) →
      ∃ l, (eraseLoop fuel address nByteCount w).calls = w.calls ++ l ∧
        (eraseLoop fuel address nByteCount w).port.reads = w.port.reads ∧
        eraseEvents l = (List.range' address fuel).flatMap
          (fun k => Call.fastByteWrite k 0xff ::
            (if (k + 1) % 64 = 0 then [Call.usleep 20000] else [])) ∧
        fastCalls l = (List.range' address fuel).map (fun k => (k, 0xff)) ∧
        (sleepCalls l).length + address / 64 = EEPROM_SIZE / 64 ∧
        (∀ x ∈ sleepCalls l, x = 20000) ∧
        readCalls l = [] ∧ writeCalls l = [] := by
  have hE : EEPROM_SIZE = 32768 := rfl
  intro fuel
  induction fuel with
  | zero =>
    intro address nByteCount w h _
    refine ⟨[], by simp [eraseLoop], rfl, rfl, rfl, ?_, by simp [sleepCalls], rfl, rfl⟩
    simp only [sleepCalls, List.filterMap_nil, List.length_nil]
    omega
  | succ f ih =>
    intro address nByteCount w h hn
    have hlt : address < EEPROM_SIZE := by omega
    have hmod : (address + 1) % 65536 = address + 1 := by omega
    obtain ⟨f1, f2⟩ := fastByteWrite_frame address 0xff w
    have hge : ¬ address ≥ EEPROM_SIZE := by omega
    rw [if_neg hge] at f2
    by_cases h64 : (address + 1) % 64 = 0
    · have hnb : nByteCount + 1 = 64 := by omega
      have hstep : eraseLoop (f + 1) address nByteCount w =
          eraseLoop f (address + 1) 0 (usleep 20000 (fastByteWrite address 0xff w)) := by
        rw [eraseLoop, if_pos hlt]
        simp only [hnb, if_true, hmod]
      obtain ⟨l2, c1, c2, c3, c4, c5, c6, c7, c8⟩ :=
        ih (address + 1) 0 (usleep 20000 (fastByteWrite address 0xff w)) (by omega) (by omega)
      rw [hstep]
      have hc : (usleep 20000 (fastByteWrite address 0xff w)).calls = w.calls ++
          [Call.setAddress address CS_CLR 0, Call.fastByteWrite address 0xff,
           Call.usleep 20000] := by
        simp [usleep, f2]
      have hr : (usleep 20000 (fastByteWrite address 0xff w)).port.reads = w.port.reads := by
        simp [usleep, f1]
      refine ⟨[Call.setAddress address CS_CLR 0, Call.fastByteWrite address 0xff,
        Call.usleep 20000] ++ l2, by rw [c1, hc, List.append_assoc], by rw [c2, hr],
        ?_, ?_, ?_, ?_, ?_, ?_⟩
      · rw [List.range'_succ, List.flatMap_cons, if_pos h64, ← c3]
        simp [eraseEvents]
      · rw [List.range'_succ, List.map_cons, ← c4]
        simp [fastCalls]
      · have : (sleepCalls ([Call.setAddress address CS_CLR 0,
            Call.fastByteWrite address 0xff, Call.usleep 20000] ++ l2)).length =
            (sleepCalls l2).length + 1 := by
          simp [sleepCalls]
        rw [this]
        omega
      · intro x hx
        simp only [sleepCalls, List.filterMap_append, List.mem_append] at hx
        rcases hx with hx | hx
        · simp at hx; exact hx
        · exact c6 x hx
      · rw [readCalls_append, c7]; simp [readCalls]
      · rw [writeCalls_append, c8]; simp [writeCalls]
    · have hnb : ¬ nByteCount + 1 = 64 := by omega
      have hstep : eraseLoop (f + 1) address nByteCount w =
          eraseLoop f (address + 1) (nByteCount + 1) (fastByteWrite address 0xff w) := by
        rw [eraseLoop, if_pos hlt]
        simp only [hnb, if_false, hmod]
      obtain ⟨l2, c1, c2, c3, c4, c5, c6, c7, c8⟩ :=
        ih (address + 1) (nByteCount + 1) (fastByteWrite address 0xff w) (by omega) (by omega)
      rw [hstep]
      refine ⟨[Call.setAddress address CS_CLR 0, Call.fastByteWrite address 0xff] ++ l2,
        by rw [c1, f2, List.append_assoc], by rw [c2, f1], ?_, ?_, ?_, ?_, ?_, ?_⟩
      · rw [List.range'_succ, List.flatMap_cons, if_neg h64, ← c3]
        simp [eraseEvents]
      · rw [List.range'_succ, List.map_cons, ← c4]
        simp [fastCalls]
      · have : (sleepCalls ([Call.setAddress address CS_CLR 0,
            Call.fastByteWrite address 0xff] ++ l2)).length = (sleepCalls l2).length := by
          simp [sleepCalls]
        rw [this]
        omega
      · intro x hx
        simp only [sleepCalls, List.filterMap_append, List.mem_append] at hx
        rcases hx with hx | hx
        · simp at hx
        · exact c6 x hx
      · rw [readCalls_append, c7]; simp [readCalls]
      · rw [writeCalls_append, c8]; simp [writeCalls]

theorem setAddress_data (a : Nat) (cs : Int) (w : World) (h : a < EEPROM_SIZE) :
    (setAddress a cs w).2.port.data = hiByte a cs := by
  have hge : ¬ a ≥ EEPROM_SIZE := by omega
  simp [setAddress, hge, selectFunc, pulseStrobe, setStrobe, clrStrobe,
    ieee1284_write_data, ieee1284_write_control, ieee1284_read_control]

/-- C11: `eraseEEPROM` returns (0), having issued exactly `EEPROM_SIZE` = 32768
`fastByteWrite` calls, the `k`-th to address `k` with value `0xFF`; among the
fast writes and suspensions, in the order made, a `usleep(20000)` follows the
write to address `k` exactly when `k + 1` is a multiple of 64 (512 suspensions
in all); no `readByte` or `writeByte` call is made and the data register is
never read; the last call is `setAddress(0, CS_SET)`, accepted, after which the
data lines hold the high latch byte `0x80` (bit 7, chip-select, set). -/
theorem erase_sweep (w : World) :
    (eraseEEPROM w).1 = 0 ∧
    fastCalls (newCalls w (eraseEEPROM w).2) =
      (List.range EEPROM_SIZE).map (fun k => (k, 0xff)) ∧
    (fastCalls (newCalls w (eraseEEPROM w).2)).length = 32768 ∧
    eraseEvents (newCalls w (eraseEEPROM w).2) =
      (List.range EEPROM_SIZE).flatMap
        (fun k => Call.fastByteWrite k 0xff ::
          (if (k + 1) % 64 = 0 then [Call.usleep 20000] else [])) ∧
    (sleepCalls (newCalls w (eraseEEPROM w).2)).length = 512 ∧
    (∀ x ∈ sleepCalls (newCalls w (eraseEEPROM w).2), x = 20000) ∧
    readCalls (newCalls w (eraseEEPROM w).2) = [] ∧
    writeCalls (newCalls w (eraseEEPROM w).2) = [] ∧
    (eraseEEPROM w).2.port.reads = w.port.reads ∧
    (newCalls w (eraseEEPROM w).2).getLast? = some (Call.setAddress 0 CS_SET 0) ∧
    (eraseEEPROM w).2.port.data = 0x80 ∧
    (eraseEEPROM w).2.port.data &&& 0x80 = 0x80 := by
  obtain ⟨l, c1, c2, c3, c4, c5, c6, c7, c8⟩ :=
    eraseLoop_spec EEPROM_SIZE 0 0 w (by simp) (by simp)
  obtain ⟨f1, -, -, -, f5, f6⟩ := setAddress_frame 0 CS_SET (eraseLoop EEPROM_SIZE 0 0 w)
  have hd := setAddress_data 0 CS_SET (eraseLoop EEPROM_SIZE 0 0 w) (by decide)
  have hhi : hiByte 0 CS_SET = 0x80 := by decide
  have hret : (setAddress 0 CS_SET (eraseLoop EEPROM_SIZE 0 0 w)).1 = 0 := by
    rw [f6]; rfl
  rw [hret, c1, List.append_assoc] at f5
  have hw : (eraseEEPROM w).2 = (setAddress 0 CS_SET (eraseLoop EEPROM_SIZE 0 0 w)).2 := rfl
  rw [hw, newCalls_of_append _ _ _ f5, hd, hhi, f1, c2]
  simp only [← List.range_eq_range'] at c3 c4
  refine ⟨rfl, ?_, ?_, ?_, ?_, ?_, ?_, ?_, rfl, ?_, rfl, by decide⟩
  · simp only [fastCalls, List.filterMap_append] at c4 ⊢
    rw [c4]; simp
  · simp only [fastCalls, List.filterMap_append] at c4 ⊢
    rw [c4]; simp
  · simp only [eraseEvents, List.filter_append] at c3 ⊢
    rw [c3]; simp
  · have : sleepCalls (l ++ [Call.setAddress 0 CS_SET 0]) = sleepCalls l := by
      simp [sleepCalls]
    rw [this]
    have h512 : EEPROM_SIZE / 64 = 512 := by decide
    omega
  · intro x hx
    have : sleepCalls (l ++ [Call.setAddress 0 CS_SET 0]) = sleepCalls l := by
      simp [sleepCalls]
    rw [this] at hx
    exact c6 x hx
  · rw [readCalls_append, c7]; simp [readCalls]
  · rw [writeCalls_append, c8]; simp [writeCalls]
  · rw [List.getLast?_concat]

/-! ## Binary file write -/

/-- A file size below `2^31` is not changed by the conversion to `int`. -/
theorem toInt_small (n : Nat) (h : n < 2147483648) : toInt n = (n : Int) := by
  unfold toInt
  omega

theorem newOps_of_append (w w' : World) (l : List PortOp) (h : w'.ops = w.ops ++ l) :
    newOps w w' = l := by
  simp [newOps, h]

/-- No control-register write of `setAddress` selects the write-enable
function. -/
theorem setAddress_no_write_enable (a : Nat) (cs : Int) (w : World) :
    ∀ c, PortOp.writeControl c ∈ newOps w (setAddress a cs w).2 → c &&& 0x0e ≠ FUNC_WE := by
  by_cases h : a ≥ EEPROM_SIZE
  · rw [setAddress_reject a cs w h]; simp [newOps]
  · have c0 : w.port.control % 256 < 256 := Nat.mod_lt _ (by decide)
    simp only [newOps, setAddress, h, if_false, selectFunc, pulseStrobe, setStrobe, clrStrobe,
      ieee1284_write_data, ieee1284_write_control, ieee1284_read_control,
      List.append_assoc, List.cons_append, List.nil_append, List.drop_left]
    generalize w.port.control % 256 = k at c0 ⊢
    intro c hc
    simp only [List.mem_cons, PortOp.writeControl.injEq, List.mem_nil_iff, or_false,
      reduceCtorEq, false_or] at hc
    rcases hc with rfl | rfl | rfl | rfl | rfl | rfl | rfl | rfl <;> (revert k; decide)

/-- `writeEEPROMbin` on a file larger than the device: the state it returns is
the one `setAddress(startAddress, CS_SET)` leaves, and the result is 1. -/
theorem writeEEPROMbin_oversize (dev : Nat → Nat) (fuel : Nat) (bytes : List Nat) (w : World)
    (hn : bytes.length > EEPROM_SIZE) (hlt : bytes.length < 2147483648) :
    writeEEPROMbin dev fuel (some bytes) w = (some 1, (setAddress w.startAddress CS_SET w).2) := by
  have hsz : toInt bytes.length > (EEPROM_SIZE : Nat) := by
    rw [toInt_small _ hlt]; exact_mod_cast hn
  unfold writeEEPROMbin
  by_cases h : (setAddress w.startAddress CS_SET w).1 ≠ 0
  · rw [if_pos h]
  · rw [if_neg h]
    simp only [hsz, if_true]

/-- The file-size guard where the size fits an `int`: for every start address
(valid or not) and every binary file whose size is greater than `EEPROM_SIZE`
and below `2^31`, `writeEEPROMbin` returns 1 whatever the number of block
iterations allowed; no `writeByte`, `writeBlock` or `fastByteWrite` call is
made, the data register is not read, and no control write selects the
write-enable function (so no write-enable strobe occurs): the only call is the
`setAddress` that validates the start address. -/
theorem oversize_file_rejected (dev : Nat → Nat) (fuel : Nat) (bytes : List Nat) (w : World)
    (hn : bytes.length > EEPROM_SIZE) (hlt : bytes.length < 2147483648) :
    (writeEEPROMbin dev fuel (some bytes) w).1 = some 1 ∧
    writeCalls (newCalls w (writeEEPROMbin dev fuel (some bytes) w).2) = [] ∧
    blockCalls (newCalls w (writeEEPROMbin dev fuel (some bytes) w).2) = [] ∧
    fastCalls (newCalls w (writeEEPROMbin dev fuel (some bytes) w).2) = [] ∧
    (∃ r, newCalls w (writeEEPROMbin dev fuel (some bytes) w).2 =
      [Call.setAddress w.startAddress CS_SET r]) ∧
    (writeEEPROMbin dev fuel (some bytes) w).2.port.reads = w.port.reads ∧
    (∀ c, PortOp.writeControl c ∈ newOps w (writeEEPROMbin dev fuel (some bytes) w).2 →
      c &&& 0x0e ≠ FUNC_WE) := by
  rw [writeEEPROMbin_oversize dev fuel bytes w hn hlt]
  obtain ⟨f1, -, -, -, f5, -⟩ := setAddress_frame w.startAddress CS_SET w
  rw [newCalls_of_append _ _ _ f5]
  exact ⟨rfl, by simp [writeCalls], by simp [blockCalls], by simp [fastCalls], ⟨_, rfl⟩, f1,
    setAddress_no_write_enable w.startAddress CS_SET w⟩

theorem oversize_file_rejected_witness :
    (List.replicate 32769 0xaa).length > EEPROM_SIZE ∧
    (writeEEPROMbin (fun _ => 0xaa) 40 (some (List.replicate 32769 0xaa)) initWorld).1 = some 1 ∧
    writeCalls (newCalls initWorld
      (writeEEPROMbin (fun _ => 0xaa) 40 (some (List.replicate 32769 0xaa)) initWorld).2) = [] := by
  have hn : (List.replicate 32769 0xaa).length > EEPROM_SIZE := by
    rw [List.length_replicate]; decide
  have hlt : (List.replicate 32769 0xaa).length < 2147483648 := by
    rw [List.length_replicate]; decide
  obtain ⟨h1, h2, -⟩ :=
    oversize_file_rejected (fun _ => 0xaa) 40 (List.replicate 32769 0xaa) initWorld hn hlt
  exact ⟨hn, h1, h2⟩

@[simp] theorem blockCalls_append (xs ys : List Call) :
    blockCalls (xs ++ ys) = blockCalls xs ++ blockCalls ys := by
  simp [blockCalls]

/-- The byte-level functions log no `writeBlock` record. -/
theorem writeByteLoop_no_block (dev : Nat → Nat) (a v : Nat) :
    ∀ (fuel i rt rb : Nat) (w : World),
      ∃ l, (writeByteLoop dev a v fuel i rt rb w).2.2.calls = w.calls ++ l ∧
        blockCalls l = [] := by
  intro fuel
  induction fuel with
  | zero => intro i rt rb w; exact ⟨[], by simp [writeByteLoop], rfl⟩
  | succ f ih =>
    intro i rt rb w
    obtain ⟨-, -, -, -, -, r6'⟩ := readByte_frame dev a w
    obtain ⟨rl, r6, hb⟩ : ∃ rl, (readByte dev a w).2.calls = w.calls ++ rl ∧
        blockCalls rl = [] := ⟨_, r6', by simp [blockCalls]⟩
    by_cases hrt : rt = 0
    · subst hrt; exact ⟨[], by simp [writeByteLoop], rfl⟩
    · by_cases hi : i + 1 > 100
      · simp only [writeByteLoop, ne_eq, hrt, not_false_eq_true, if_true, hi]
        exact ⟨rl, r6, hb⟩
      · simp only [writeByteLoop, ne_eq, hrt, not_false_eq_true, if_true, hi, if_false]
        obtain ⟨l, k1, k2⟩ := ih (i + 1)
          (((readByte dev a w).1 ^^^ v) &&& 0x80) (readByte dev a w).1 (readByte dev a w).2
        refine ⟨rl ++ l, by rw [k1, r6, List.append_assoc], ?_⟩
        rw [blockCalls_append, k2, hb]; rfl

theorem writeByte_no_block (dev : Nat → Nat) (a v : Nat) (w : World) :
    ∃ l, (writeByte dev a v w).2.calls = w.calls ++ l ∧ blockCalls l = [] := by
  obtain ⟨w6, -, -, -, -, e5, e6⟩ := writeByte_unfold dev a v w
  obtain ⟨l, k1, k2⟩ := writeByteLoop_no_block dev a v 101 0 1 0 w6
  generalize writeByteLoop dev a v 101 0 1 0 w6 = r at e6 k1
  rw [e6]
  refine ⟨[Call.setAddress a CS_CLR (if a ≥ EEPROM_SIZE then 1 else 0), Call.usleep 1000,
      Call.setAddress a CS_SET (if a ≥ EEPROM_SIZE then 1 else 0)] ++ l ++
      [Call.writeByte a v (if r.1 = WRITEOK ∧ r.2.1 ≠ v then WRITEVER else r.1)], ?_, ?_⟩
  · simp only [k1, e5, List.append_assoc]
  · simp only [blockCalls_append, k2]; simp [blockCalls]

theorem writeBlockLoop_no_block (dev : Nat → Nat) (address : Nat) (nCount : Int) :
    ∀ (fuel i : Nat) (w : World),
      ∃ l, (writeBlockLoop dev address nCount fuel i w).2.calls = w.calls ++ l ∧
        blockCalls l = [] := by
  intro fuel
  induction fuel with
  | zero => intro i w; exact ⟨[], by simp [writeBlockLoop], rfl⟩
  | succ f ih =>
    intro i w
    rw [writeBlockLoop]
    split
    · split
      · exact ⟨[], by simp, rfl⟩
      · obtain ⟨l1, b1, b2⟩ :=
          writeByte_no_block dev ((i + address) % 65536) (w.buffer.getD i 0) w
        simp only []
        split
        · exact ⟨l1, b1, b2⟩
        · obtain ⟨l2, c1, c2⟩ := ih (i + 1)
            (writeByte dev ((i + address) % 65536) (w.buffer.getD i 0) w).2
          exact ⟨l1 ++ l2, by rw [c1, b1, List.append_assoc], by rw [blockCalls_append, b2, c2]; rfl⟩
    · exact ⟨[], by simp, rfl⟩

/-- `writeBlock` logs exactly one `writeBlock` record: its own. -/
theorem writeBlock_blockCalls (dev : Nat → Nat) (address : Nat) (nCount : Int) (w : World) :
    blockCalls (newCalls w (writeBlock dev address nCount w).2) =
      [(address, nCount, (writeBlock dev address nCount w).1)] := by
  obtain ⟨l, c1, c2⟩ := writeBlockLoop_no_block dev address nCount nCount.toNat 0 w
  have h : (writeBlock dev address nCount w).2.calls = w.calls ++ (l ++
      [Call.writeBlock address nCount (writeBlock dev address nCount w).1]) := by
    simp only [writeBlock, c1, List.append_assoc]
  rw [newCalls_of_append _ _ _ h, blockCalls_append, c2]
  simp [blockCalls]

theorem specBlocks_zero (i : Nat) : specBlocks i 0 = [] := by
  simp [specBlocks]

theorem specBlocks_step (i rem : Nat) (h : 1 ≤ rem) :
    specBlocks i rem =
      (i, ((min 1024 rem : Nat) : Int), min 1024 rem) ::
        specBlocks (i + min 1024 rem) (rem - min 1024 rem) := by
  by_cases hr : rem ≤ 1024
  · have h1 : (rem + 1023) / 1024 = 1 := by omega
    have h2 : min 1024 rem = rem := by omega
    rw [h2, Nat.sub_self, specBlocks_zero]
    simp only [specBlocks, h1]
    have hr1 : List.range 1 = [0] := rfl
    rw [hr1]
    simp only [List.map_cons, List.map_nil, Nat.mul_zero, Nat.add_zero, Nat.sub_zero, h2]
  · have h1 : (rem + 1023) / 1024 = (rem - 1024 + 1023) / 1024 + 1 := by omega
    have h2 : min 1024 rem = 1024 := by omega
    rw [h2]
    simp only [specBlocks, h1, List.range_succ_eq_map, List.map_cons, List.map_map,
      Nat.mul_zero, Nat.add_zero, Nat.sub_zero, h2]
    congr 1
    apply List.map_congr_left
    intro j _
    simp only [Function.comp, Nat.succ_eq_add_one]
    have e1 : i + 1024 * (j + 1) = i + 1024 + 1024 * j := by omega
    have e2 : rem - 1024 * (j + 1) = rem - 1024 - 1024 * j := by omega
    rw [e1, e2]

/-- `read` of `m` bytes when at least `m` are left in the file. -/
theorem fileRead_spec (file : List Nat) (pos m : Nat) (buffer : List Nat)
    (h : pos + m ≤ file.length) :
    (fileRead file pos (m : Int) buffer).1 = m ∧
    (fileRead file pos (m : Int) buffer).2.2 = pos + m ∧
    ∀ k < m, (fileRead file pos (m : Int) buffer).2.1.getD k 0 = file.getD (pos + k) 0 := by
  have hlen : ((file.drop pos).take m).length = m := by
    rw [List.length_take, List.length_drop]; omega
  refine ⟨?_, ?_, ?_⟩
  · simp only [fileRead, Int.toNat_ofNat, hlen]
  · simp only [fileRead, Int.toNat_ofNat, hlen]
  · intro k hk
    simp only [fileRead, Int.toNat_ofNat, List.getD_eq_getElem?_getD]
    rw [List.getElem?_append_left (by rw [hlen]; exact hk), List.getElem?_take_of_lt hk,
      List.getElem?_drop]

/-- One pass of the block loop of `writeEEPROMbin` when `m`, the smaller of 1024
and the number of addresses up to `endAddress`, is also available in the file:
`m` bytes are read and handed to `writeBlock`; the loop is left with result 1
when fewer were written, else it goes on `m` addresses further. -/
theorem writeEEPROMbinLoop_step (dev : Nat → Nat) (file : List Nat) (f i pos m : Nat)
    (w : World) (hle : i ≤ w.endAddress) (hm : m = min 1024 (w.endAddress + 1 - i))
    (hm2 : pos + m ≤ file.length) (hwrap : i + m ≤ 65535) :
    writeEEPROMbinLoop dev file (f + 1) i pos w =
      if m ≠ (writeBlock dev i (m : Int)
          { w with buffer := (fileRead file pos (m : Int) w.buffer).2.1 }).1 then
        (some 1, (writeBlock dev i (m : Int)
          { w with buffer := (fileRead file pos (m : Int) w.buffer).2.1 }).2)
      else writeEEPROMbinLoop dev file f (i + m) (pos + m)
        (writeBlock dev i (m : Int)
          { w with buffer := (fileRead file pos (m : Int) w.buffer).2.1 }).2 := by
  have hnc : (if ((w.endAddress : Int) - i + 1) ≥ (DATA_BUFFER : Nat) then
      ((DATA_BUFFER : Nat) : Int) else (w.endAddress : Int) - i + 1) = (m : Int) := by
    have hD : DATA_BUFFER = 1024 := rfl
    split <;> omega
  have hw : (i + m % 65536) % 65536 = i + m := by omega
  obtain ⟨fr1, fr2, -⟩ := fileRead_spec file pos m w.buffer hm2
  rw [writeEEPROMbinLoop, if_pos hle]
  simp only [hnc, fr1, fr2]
  split
  · rfl
  · rename_i hne
    have heq : (writeBlock dev i (m : Int)
        { w with buffer := (fileRead file pos (m : Int) w.buffer).2.1 }).1 = m := by
      simp only [ne_eq, Decidable.not_not] at hne
      exact hne.symm
    rw [heq, hw]

/-- Shape of a run of the block loop of `writeEEPROMbin` entered at address
`i = s + pos` with file position `pos`, for a file that ends below address
65536: the loop finishes; either it returns 0 having written the rest of the
file byte by byte in the blocks of `specBlocks`, or it returns 1 because a byte
write failed or the file runs over the end of the device. -/
theorem writeEEPROMbinLoop_spec (dev : Nat → Nat) (file : List Nat) (s : Nat) :
    ∀ (fuel i pos : Nat) (w : World),
      w.endAddress + 1 = s + file.length → s + file.length ≤ 65535 → i = s + pos →
      pos ≤ file.length → (file.length - pos + 1023) / 1024 < fuel →
      ∃ l, (writeEEPROMbinLoop dev file fuel i pos w).2.calls = w.calls ++ l ∧
        (((writeEEPROMbinLoop dev file fuel i pos w).1 = some 0 ∧
            writeCalls l = (List.range' pos (file.length - pos)).map
              (fun k => (s + k, file.getD k 0, WRITEOK)) ∧
            blockCalls l = specBlocks i (file.length - pos)) ∨
          ((writeEEPROMbinLoop dev file fuel i pos w).1 = some 1 ∧
            ((∃ x ∈ writeCalls l, x.2.2 ≠ WRITEOK) ∨ s + file.length > EEPROM_SIZE))) := by
  intro fuel
  induction fuel with
  | zero => intro i pos w _ _ _ _ hf; omega
  | succ f ih =>
    intro i pos w hE hs hi hp hf
    by_cases hrem : pos = file.length
    · have hgt : ¬ i ≤ w.endAddress := by omega
      rw [writeEEPROMbinLoop, if_neg hgt]
      refine ⟨[], by simp, Or.inl ⟨rfl, ?_, ?_⟩⟩
      · rw [hrem, Nat.sub_self]; rfl
      · rw [hrem, Nat.sub_self, specBlocks_zero]; rfl
    · have hle : i ≤ w.endAddress := by omega
      obtain ⟨m, hm⟩ : ∃ m, m = min 1024 (file.length - pos) := ⟨_, rfl⟩
      have hm1 : 1 ≤ m := by omega
      have hm2 : pos + m ≤ file.length := by omega
      have hm3 : m ≤ 1024 := by omega
      have hwrap : i + m ≤ 65535 := by omega
      obtain ⟨-, -, fr3⟩ := fileRead_spec file pos m w.buffer hm2
      have hunf := writeEEPROMbinLoop_step dev file f i pos m w hle (by omega) hm2 hwrap
      obtain ⟨w1, hw1, hb1, he1, hc1⟩ : ∃ w1 : World,
          w1 = { w with buffer := (fileRead file pos (m : Int) w.buffer).2.1 } ∧
          (∀ k < m, w1.buffer.getD k 0 = file.getD (pos + k) 0) ∧
          w1.endAddress = w.endAddress ∧ w1.calls = w.calls := ⟨_, rfl, fr3, rfl, rfl⟩
      rw [← hw1] at hunf
      obtain ⟨l1, c1, -, c3⟩ := writeBlock_spec dev i (m : Int) w1
      obtain ⟨-, -, -, c4, -, -⟩ := writeBlock_addresses dev i (m : Int) w1
      have hbc := writeBlock_blockCalls dev i (m : Int) w1
      rw [newCalls_of_append _ _ _ c1] at hbc
      rw [hc1] at c1
      rw [he1] at c4
      simp only [Int.toNat_ofNat] at c3
      rw [hunf]
      clear hunf
      have hEE : EEPROM_SIZE = 32768 := rfl
      generalize writeBlock dev i (m : Int) w1 = wb at c1 c3 c4 hbc ⊢
      rcases c3 with ⟨d1, d2⟩ | ⟨d1, -, res, d3, d4⟩
      · by_cases hret : wb.1 = m
        · rw [if_neg (by rw [hret]; exact fun h => h rfl)]
          obtain ⟨l2, k1, k2⟩ := ih (i + m) (pos + m) wb.2
            (by rw [c4]; exact hE) hs (by omega) hm2 (by omega)
          generalize writeEEPROMbinLoop dev file f (i + m) (pos + m) wb.2 = run at k1 k2 ⊢
          rw [hret] at d2 hbc
          have hw1c : writeCalls l1 = (List.range' pos m).map
              (fun k => (s + k, file.getD k 0, WRITEOK)) := by
            rw [d2, List.range'_eq_map_range, List.map_map]
            apply List.map_congr_left
            intro k hk
            rw [List.mem_range] at hk
            simp only [Function.comp, hb1 k hk, hi, Nat.add_assoc]
          have hsplit : List.range' pos (file.length - pos) =
              List.range' pos m ++ List.range' (pos + m) (file.length - (pos + m)) := by
            rw [List.range'_append_1]
            congr 1
            omega
          refine ⟨l1 ++ l2, by rw [k1, c1, List.append_assoc], ?_⟩
          rcases k2 with ⟨e1, e2, e3⟩ | ⟨e1, e2⟩
          · left
            refine ⟨e1, ?_, ?_⟩
            · rw [writeCalls_append, hw1c, e2, hsplit, List.map_append]
            · rw [blockCalls_append, hbc, e3, specBlocks_step i (file.length - pos) (by omega),
                ← hm]
              have : file.length - pos - m = file.length - (pos + m) := by omega
              rw [this]
              rfl
          · right
            refine ⟨e1, ?_⟩
            rcases e2 with ⟨x, hx, hx2⟩ | e2
            · exact Or.inl ⟨x, by rw [writeCalls_append]; exact List.mem_append_right _ hx, hx2⟩
            · exact Or.inr e2
        · have hov : s + file.length > EEPROM_SIZE := by
            have : min m (EEPROM_SIZE - i) ≠ m := by rw [← d1]; exact hret
            omega
          rw [if_pos (fun h => hret h.symm)]
          exact ⟨l1, c1, Or.inr ⟨rfl, Or.inr hov⟩⟩
      · have hne : m ≠ wb.1 := by omega
        have hmem : (i + wb.1, w1.buffer.getD wb.1 0, res) ∈ writeCalls l1 := by
          rw [d4]
          exact List.mem_append_right _ (List.mem_singleton.mpr rfl)
        rw [if_pos hne]
        exact ⟨l1, c1, Or.inr ⟨rfl, Or.inl ⟨_, hmem, d3⟩⟩⟩

/-- `writeEEPROMbin` with a valid start address and a file that fits the device
size check: the start address is latched, `endAddress` is set to the 16-bit
value `startAddress + size - 1`, and the block loop is entered. -/
theorem writeEEPROMbin_enter (dev : Nat → Nat) (fuel : Nat) (bytes : List Nat) (w : World)
    (hs : w.startAddress < EEPROM_SIZE) (hn : bytes.length ≤ EEPROM_SIZE) :
    ∃ w2 : World,
      w2.startAddress = w.startAddress ∧
      w2.endAddress = (w.startAddress + bytes.length % 65536 + 65535) % 65536 ∧
      w2.calls = w.calls ++ [Call.setAddress w.startAddress CS_SET 0] ∧
      w2.port.reads = w.port.reads ∧
      writeEEPROMbin dev fuel (some bytes) w =
        writeEEPROMbinLoop dev bytes fuel w.startAddress 0 w2 := by
  obtain ⟨f1, -, f3, -, f5, f6⟩ := setAddress_frame w.startAddress CS_SET w
  have hge : ¬ w.startAddress ≥ EEPROM_SIZE := by omega
  rw [if_neg hge] at f6
  rw [f6] at f5
  have hE : EEPROM_SIZE = 32768 := rfl
  have hsz : toInt bytes.length = (bytes.length : Int) := toInt_small _ (by omega)
  have hgt : ¬ toInt bytes.length > (EEPROM_SIZE : Nat) := by
    rw [hsz]; exact_mod_cast Nat.not_lt.mpr hn
  have hmod : (toInt bytes.length % 65536).toNat = bytes.length % 65536 := by
    rw [hsz]; omega
  refine ⟨{ (setAddress w.startAddress CS_SET w).2 with
    endAddress := ((setAddress w.startAddress CS_SET w).2.startAddress +
      bytes.length % 65536 + 65535) % 65536 }, f3, by simp only [f3], f5, f1, ?_⟩
  unfold writeEEPROMbin
  rw [if_neg (by rw [f6]; exact fun h => h rfl)]
  simp only [hgt, if_false, hmod]
  rw [f3]

/-- C14: for a start address `s < EEPROM_SIZE` and a binary file of `n ≥ 1`
bytes with `s + n ≤ EEPROM_SIZE`, when every byte write issued returns
`WRITEOK` and more than `⌈n / 1024⌉` block iterations are allowed,
`writeEEPROMbin` returns 0 having issued exactly `n` byte writes, the `k`-th
writing file byte `k` to address `s + k`, in ascending order, through the
`writeBlock` calls of `specBlocks s n`: each asks for at most 1024 bytes, writes
all it asks for, and starts where the one before ended. -/
theorem binary_write_all_bytes (dev : Nat → Nat) (fuel : Nat) (bytes : List Nat) (w : World)
    (hs : w.startAddress < EEPROM_SIZE) (h1 : 1 ≤ bytes.length)
    (h2 : w.startAddress + bytes.length ≤ EEPROM_SIZE)
    (hf : (bytes.length + 1023) / 1024 < fuel)
    (hok : ∀ x ∈ writeCalls (newCalls w (writeEEPROMbin dev fuel (some bytes) w).2),
      x.2.2 = WRITEOK) :
    (writeEEPROMbin dev fuel (some bytes) w).1 = some 0 ∧
    writeCalls (newCalls w (writeEEPROMbin dev fuel (some bytes) w).2) =
      (List.range bytes.length).map (fun k => (w.startAddress + k, bytes.getD k 0, WRITEOK)) ∧
    blockCalls (newCalls w (writeEEPROMbin dev fuel (some bytes) w).2) =
      specBlocks w.startAddress bytes.length ∧
    (∀ b ∈ blockCalls (newCalls w (writeEEPROMbin dev fuel (some bytes) w).2),
      b.2.1 ≤ 1024 ∧ (b.2.2 : Int) = b.2.1) := by
  have hE : EEPROM_SIZE = 32768 := rfl
  obtain ⟨w2, e1, e2, e3, -, e5⟩ := writeEEPROMbin_enter dev fuel bytes w hs (by omega)
  have hend : w2.endAddress + 1 = w.startAddress + bytes.length := by rw [e2]; omega
  obtain ⟨l, c1, c2⟩ := writeEEPROMbinLoop_spec dev bytes w.startAddress fuel w.startAddress 0 w2
    hend (by omega) rfl (Nat.zero_le _) (by simpa using hf)
  rw [← e5, e3, List.append_assoc] at c1
  rw [← e5] at c2
  rw [newCalls_of_append _ _ _ c1] at hok ⊢
  have hwc : writeCalls ([Call.setAddress w.startAddress CS_SET 0] ++ l) = writeCalls l := by
    simp [writeCalls]
  have hbc : blockCalls ([Call.setAddress w.startAddress CS_SET 0] ++ l) = blockCalls l := by
    simp [blockCalls]
  rw [hwc] at hok ⊢
  rw [hbc]
  simp only [Nat.sub_zero, ← List.range_eq_range'] at c2
  rcases c2 with ⟨d1, d2, d3⟩ | ⟨-, ⟨x, hx, hx2⟩ | d2⟩
  · refine ⟨d1, d2, d3, ?_⟩
    intro b hb
    rw [d3] at hb
    simp only [specBlocks, List.mem_map, List.mem_range] at hb
    obtain ⟨j, -, rfl⟩ := hb
    exact ⟨by simp only []; omega, rfl⟩
  · exact absurd (hok x hx) hx2
  · omega

theorem binary_write_all_bytes_witness :
    initWorld.startAddress < EEPROM_SIZE ∧
    (writeEEPROMbin (fun n => n + 1) 2 (some [1, 2, 3]) initWorld).1 = some 0 ∧
    writeCalls (newCalls initWorld
      (writeEEPROMbin (fun n => n + 1) 2 (some [1, 2, 3]) initWorld).2) =
      [(0, 1, WRITEOK), (1, 2, WRITEOK), (2, 3, WRITEOK)] ∧
    blockCalls (newCalls initWorld
      (writeEEPROMbin (fun n => n + 1) 2 (some [1, 2, 3]) initWorld).2) = [(0, 3, 3)] := by
  obtain ⟨h1, h2, h3, -⟩ :=
    binary_write_all_bytes (fun n => n + 1) 2 [1, 2, 3] initWorld (by decide) (by decide)
      (by decide) (by decide) (by decide)
  exact ⟨by decide, h1, h2, h3⟩

theorem fileRead_empty (nCount : Int) (buffer : List Nat) :
    fileRead [] 0 nCount buffer = (0, buffer, 0) := by
  simp [fileRead]

theorem writeBlock_zero (dev : Nat → Nat) (address : Nat) (w : World) :
    writeBlock dev address ((0 : Nat) : Int) w =
      (0, { w with calls := w.calls ++ [Call.writeBlock address 0 0] }) := by
  rfl

/-- The block loop of `writeEEPROMbin` on an empty file with `i = 0` and
`endAddress = 0xFFFF`: every pass reads 0 bytes, calls `writeBlock(0, 0)`, which
writes 0 bytes, and goes on with `i = 0`; no number of passes ends it. -/
theorem writeEEPROMbinLoop_stuck (dev : Nat → Nat) :
    ∀ (fuel : Nat) (w : World), w.endAddress = 65535 →
      (writeEEPROMbinLoop dev [] fuel 0 0 w).1 = none ∧
      ∃ l, (writeEEPROMbinLoop dev [] fuel 0 0 w).2.calls = w.calls ++ l ∧
        blockCalls l = List.replicate fuel (0, 0, 0) ∧ writeCalls l = [] := by
  intro fuel
  induction fuel with
  | zero => intro w _; exact ⟨rfl, [], by simp [writeEEPROMbinLoop], rfl, rfl⟩
  | succ f ih =>
    intro w he
    have hstep : writeEEPROMbinLoop dev [] (f + 1) 0 0 w =
        writeEEPROMbinLoop dev [] f 0 0
          { w with calls := w.calls ++ [Call.writeBlock 0 0 0] } := by
      rw [writeEEPROMbinLoop, if_pos (Nat.zero_le _)]
      simp only [fileRead_empty, writeBlock_zero, ne_eq, not_true_eq_false, if_false,
        Nat.zero_mod, Nat.add_zero]
    obtain ⟨k1, l, k2, k3, k4⟩ := ih { w with calls := w.calls ++ [Call.writeBlock 0 0 0] } he
    rw [hstep]
    refine ⟨k1, Call.writeBlock 0 0 0 :: l, by rw [k2]; simp, ?_, ?_⟩
    · rw [List.replicate_succ, ← k3]; simp [blockCalls]
    · rw [← k4]; simp [writeCalls]

/-- C15, the code at the failing input: the empty binary file written at start
address 0.  `endAddress` becomes the 16-bit value `0 + 0 - 1 = 0xFFFF`, and the
block loop never ends: whatever number of passes is allowed, `writeEEPROMbin`
has not returned, each pass being a `writeBlock(0, 0)` that writes nothing. -/
theorem empty_file_at_zero_never_returns (dev : Nat → Nat) (fuel : Nat) (w : World) :
    (writeEEPROMbin dev fuel (some []) { w with startAddress := 0 }).1 = none ∧
    blockCalls (newCalls { w with startAddress := 0 }
      (writeEEPROMbin dev fuel (some []) { w with startAddress := 0 }).2) =
      List.replicate fuel (0, 0, 0) ∧
    writeCalls (newCalls { w with startAddress := 0 }
      (writeEEPROMbin dev fuel (some []) { w with startAddress := 0 }).2) = [] := by
  have h0 : (0 : Nat) < EEPROM_SIZE := by decide
  obtain ⟨w2, -, e2, e3, -, e5⟩ :=
    writeEEPROMbin_enter dev fuel [] { w with startAddress := 0 } h0 (Nat.zero_le _)
  have he : w2.endAddress = 65535 := by rw [e2]; simp
  obtain ⟨k1, l, k2, k3, k4⟩ := writeEEPROMbinLoop_stuck dev fuel w2 he
  have hs : ({ w with startAddress := 0 } : World).startAddress = 0 := rfl
  rw [hs] at e5 e3
  rw [e5]
  rw [e3, List.append_assoc] at k2
  rw [newCalls_of_append _ _ _ k2]
  refine ⟨k1, ?_, ?_⟩
  · rw [blockCalls_append, k3]; simp [blockCalls]
  · rw [writeCalls_append, k4]; simp [writeCalls]

/-- In every other case the block loop ends: for a start address `s <
EEPROM_SIZE` and a file of `n ≤ EEPROM_SIZE` bytes, not both 0,
`writeEEPROMbin` returns within `⌈n / 1024⌉ + 1` passes. -/
theorem writeEEPROMbin_terminates (dev : Nat → Nat) (fuel : Nat) (bytes : List Nat) (w : World)
    (hs : w.startAddress < EEPROM_SIZE) (hn : bytes.length ≤ EEPROM_SIZE)
    (hne : w.startAddress ≠ 0 ∨ bytes.length ≠ 0)
    (hf : (bytes.length + 1023) / 1024 < fuel) :
    (writeEEPROMbin dev fuel (some bytes) w).1 = some 0 ∨
    (writeEEPROMbin dev fuel (some bytes) w).1 = some 1 := by
  have hE : EEPROM_SIZE = 32768 := rfl
  obtain ⟨w2, e1, e2, e3, -, e5⟩ := writeEEPROMbin_enter dev fuel bytes w hs hn
  have hend : w2.endAddress + 1 = w.startAddress + bytes.length := by rw [e2]; omega
  obtain ⟨l, -, c2⟩ := writeEEPROMbinLoop_spec dev bytes w.startAddress fuel w.startAddress 0 w2
    hend (by omega) rfl (Nat.zero_le _) (by simpa using hf)
  rw [← e5] at c2
  rcases c2 with ⟨d1, -⟩ | ⟨d1, -⟩
  · exact Or.inl d1
  · exact Or.inr d1

/-! ## File-size guard and the width of `nFileSize` -/

/-- `writeEEPROMbin` on a file whose size the conversion to `int` turns into 1,
at a valid start address `s`: the size check passes, `endAddress` is set to `s`,
one byte is read from the file and handed to `writeBlock(s, 1)`, and the result
is 0 when that byte was written. -/
theorem writeEEPROMbin_size_one (dev : Nat → Nat) (f : Nat) (bytes : List Nat) (w : World)
    (hs : w.startAddress < EEPROM_SIZE) (hsz : toInt bytes.length = 1)
    (hlen : 1 ≤ bytes.length) :
    ∃ w2 : World, w2.calls = w.calls ++ [Call.setAddress w.startAddress CS_SET 0] ∧
      w2.buffer.getD 0 0 = bytes.getD 0 0 ∧
      writeEEPROMbin dev (f + 2) (some bytes) w =
        (if 1 ≠ (writeBlock dev w.startAddress ((1 : Nat) : Int) w2).1 then some 1 else some 0,
          (writeBlock dev w.startAddress ((1 : Nat) : Int) w2).2) := by
  have hE : EEPROM_SIZE = 32768 := rfl
  obtain ⟨-, -, f3, -, f5, f6⟩ := setAddress_frame w.startAddress CS_SET w
  rw [if_neg (by omega)] at f6
  rw [f6] at f5
  have hgt : ¬ toInt bytes.length > (EEPROM_SIZE : Nat) := by rw [hsz]; decide
  have hmod : (toInt bytes.length % 65536).toNat = 1 := by rw [hsz]; rfl
  have hend : (w.startAddress + 1 + 65535) % 65536 = w.startAddress := by omega
  obtain ⟨w1, hw1, hw1e, hw1c⟩ : ∃ w1 : World,
      w1 = { (setAddress w.startAddress CS_SET w).2 with endAddress := w.startAddress } ∧
      w1.endAddress = w.startAddress ∧
      w1.calls = w.calls ++ [Call.setAddress w.startAddress CS_SET 0] := ⟨_, rfl, rfl, f5⟩
  have hrun : writeEEPROMbin dev (f + 2) (some bytes) w =
      writeEEPROMbinLoop dev bytes (f + 2) w.startAddress 0 w1 := by
    unfold writeEEPROMbin
    rw [if_neg (by rw [f6]; exact fun h => h rfl)]
    simp only [hgt, if_false, hmod, f3, hend, hw1]
  have hstep := writeEEPROMbinLoop_step dev bytes (f + 1) w.startAddress 0 1 w1
    (by rw [hw1e]) (by rw [hw1e]; omega) (by omega) (by omega)
  obtain ⟨-, -, fr3⟩ := fileRead_spec bytes 0 1 w1.buffer (by omega)
  obtain ⟨l1, -, -, b3, -⟩ := writeBlock_addresses dev w.startAddress ((1 : Nat) : Int)
    { w1 with buffer := (fileRead bytes 0 ((1 : Nat) : Int) w1.buffer).2.1 }
  refine ⟨{ w1 with buffer := (fileRead bytes 0 ((1 : Nat) : Int) w1.buffer).2.1 }, hw1c,
    fr3 0 (by decide), ?_⟩
  rw [hrun, hstep]
  generalize writeBlock dev w.startAddress ((1 : Nat) : Int)
    { w1 with buffer := (fileRead bytes 0 ((1 : Nat) : Int) w1.buffer).2.1 } = wb at b3 ⊢
  by_cases h : 1 ≠ wb.1
  · rw [if_pos h, if_pos h]
  · rw [if_neg h, if_neg h, writeEEPROMbinLoop, if_neg (by rw [b3, hw1e]; omega)]

/-- `writeBlock(a, 1)` at an address of the device is one `writeByte` of
`buffer[0]`; it returns 1 when that byte write returned `WRITEOK`, else 0. -/
theorem writeBlock_one (dev : Nat → Nat) (a : Nat) (w : World) (ha : a < EEPROM_SIZE) :
    (writeBlock dev a ((1 : Nat) : Int) w).1 =
      (if (writeByte dev a (w.buffer.getD 0 0) w).1 ≠ 0 then 0 else 1) ∧
    writeCalls (newCalls w (writeBlock dev a ((1 : Nat) : Int) w).2) =
      [(a, w.buffer.getD 0 0, (writeByte dev a (w.buffer.getD 0 0) w).1)] := by
  have hE : EEPROM_SIZE = 32768 := rfl
  have hin : ¬ 0 + a > EEPROM_SIZE - 1 := by omega
  have hmod : (0 + a) % 65536 = a := by omega
  obtain ⟨-, -, -, l, k1, k2, -⟩ := writeByte_frame dev a (w.buffer.getD 0 0) w
  have hun : writeBlock dev a ((1 : Nat) : Int) w =
      (if (writeByte dev a (w.buffer.getD 0 0) w).1 ≠ 0 then 0 else 1,
        { (writeByte dev a (w.buffer.getD 0 0) w).2 with
          calls := (writeByte dev a (w.buffer.getD 0 0) w).2.calls ++
            [Call.writeBlock a ((1 : Nat) : Int)
              (if (writeByte dev a (w.buffer.getD 0 0) w).1 ≠ 0 then 0 else 1)] }) := by
    unfold writeBlock
    simp only [Int.toNat_ofNat]
    rw [writeBlockLoop, if_pos (by decide), if_neg hin, hmod]
    simp only []
    by_cases h : (writeByte dev a (w.buffer.getD 0 0) w).1 ≠ 0
    · rw [if_pos h, if_pos h]
    · rw [if_neg h, if_neg h, writeBlockLoop]
  rw [hun]
  refine ⟨rfl, ?_⟩
  rw [newCalls_of_append w _ (l ++ [Call.writeBlock a ((1 : Nat) : Int)
    (if (writeByte dev a (w.buffer.getD 0 0) w).1 ≠ 0 then 0 else 1)])
    (by simp only [k1, List.append_assoc])]
  rw [writeCalls_append, k2]
  simp [writeCalls]

/-- C12, the code at the failing input: a binary file of `2^32 + 1` bytes
(every byte `0x55`) written at start address 0 to a device that reads back
`0x55`.  The file is larger than `EEPROM_SIZE`, but `nFileSize`, an `int`,
receives the size modulo `2^32`, which is 1: the size check passes, the first
byte of the file is written to address 0 by `writeByte`, and the result is 0. -/
theorem oversize_file_size_wraps :
    (List.replicate 4294967297 0x55).length > EEPROM_SIZE ∧
    toInt (List.replicate 4294967297 0x55).length = 1 ∧
    (writeEEPROMbin (fun _ => 0x55) 2 (some (List.replicate 4294967297 0x55)) initWorld).1 =
      some 0 ∧
    writeCalls (newCalls initWorld
      (writeEEPROMbin (fun _ => 0x55) 2 (some (List.replicate 4294967297 0x55)) initWorld).2) =
      [(0, 0x55, WRITEOK)] := by
  have hlen : (List.replicate 4294967297 0x55).length = 4294967297 := List.length_replicate _ _
  have hsz : toInt (List.replicate 4294967297 0x55).length = 1 := by
    rw [hlen]; unfold toInt; omega
  have hb : (List.replicate 4294967297 0x55).getD 0 0 = 0x55 := by
    rw [List.getD_eq_getElem?_getD, List.getElem?_replicate]; simp
  have h0 : initWorld.startAddress = 0 := rfl
  obtain ⟨w2, e1, e2, e3⟩ := writeEEPROMbin_size_one (fun _ => 0x55) 0
    (List.replicate 4294967297 0x55) initWorld (by decide) hsz (by rw [hlen]; omega)
  rw [hb] at e2
  rw [h0] at e1 e3
  obtain ⟨b1, b2⟩ := writeBlock_one (fun _ => 0x55) 0 w2 (by decide)
  obtain ⟨v1, -⟩ := writeByte_converge (fun _ => 0x55) 0 0x55 0 w2 (by decide)
    (fun j hj => absurd hj (Nat.not_lt_zero j))
    (by show (0x55 % 256 ^^^ 0x55) &&& 0x80 = 0; decide)
  rw [e2] at b1 b2
  rw [if_pos (by show 0x55 % 256 = 0x55; decide)] at v1
  rw [v1] at b1 b2
  have hret : (writeBlock (fun _ => 0x55) 0 ((1 : Nat) : Int) w2).1 = 1 := b1
  have hcalls : (writeBlock (fun _ => 0x55) 0 ((1 : Nat) : Int) w2).2.calls =
      initWorld.calls ++ ([Call.setAddress 0 CS_SET 0] ++
        newCalls w2 (writeBlock (fun _ => 0x55) 0 ((1 : Nat) : Int) w2).2) := by
    obtain ⟨l, c1, -⟩ := writeBlock_spec (fun _ => 0x55) 0 ((1 : Nat) : Int) w2
    rw [newCalls_of_append _ _ l c1, c1, e1, List.append_assoc]
  refine ⟨by rw [hlen]; decide, hsz, ?_, ?_⟩
  · rw [e3, hret]; rfl
  · rw [e3, newCalls_of_append _ _ _ hcalls, writeCalls_append, b2]
    rfl

/-! ## Read to file -/

theorem readBlockLoop_frame (dev : Nat → Nat) (address : Nat) (nCount : Int) :
    ∀ (fuel i : Nat) (w : World),
      (readBlockLoop dev address nCount fuel i w).2.startAddress = w.startAddress ∧
      (readBlockLoop dev address nCount fuel i w).2.endAddress = w.endAddress := by
  intro fuel
  induction fuel with
  | zero => intro i w; exact ⟨rfl, rfl⟩
  | succ f ih =>
    intro i w
    rw [readBlockLoop]
    split
    · split
      · exact ⟨rfl, rfl⟩
      · obtain ⟨-, -, -, r4, r5, -⟩ := readByte_frame dev ((i % 65536 + address) % 65536) w
        obtain ⟨k1, k2⟩ := ih (i + 1)
          { (readByte dev ((i % 65536 + address) % 65536) w).2 with
            buffer := (readByte dev ((i % 65536 + address) % 65536) w).2.buffer.set i
              (readByte dev ((i % 65536 + address) % 65536) w).1 }
        exact ⟨k1.trans r4, k2.trans r5⟩
    · exact ⟨rfl, rfl⟩

/-- `readBlock` for a count given as a natural number: result, reads made, log,
and the globals it leaves alone. -/
theorem readBlock_run (dev : Nat → Nat) (address count : Nat) (w : World) :
    (readBlock dev address count w).1 = min count (EEPROM_SIZE - address) ∧
    (readBlock dev address count w).2.endAddress = w.endAddress ∧
    (readBlock dev address count w).2.port.reads =
      w.port.reads + min count (EEPROM_SIZE - address) ∧
    ∃ l, (readBlock dev address count w).2.calls = w.calls ++ l ∧
      readCalls l = (List.range (min count (EEPROM_SIZE - address))).map
        (fun k => (address + k, dev (w.port.reads + k) % 256)) := by
  obtain ⟨l, c1, c2, c3, c4, -⟩ :=
    readBlockLoop_spec dev address count (count : Int).toNat 0 w (by simp)
  obtain ⟨-, k2⟩ := readBlockLoop_frame dev address count (count : Int).toNat 0 w
  simp only [Int.toNat_ofNat, Nat.sub_zero, Nat.zero_max] at c2 c3 c4
  unfold readBlock
  simp only [Int.toNat_ofNat] at k2 c1 ⊢
  refine ⟨c2, k2, by rw [c3, c2], l, c1, ?_⟩
  rw [c4, c2, List.range_eq_range']

theorem fileWrite_binary (nCount : Nat) (out : List Nat) (w : World) :
    (fileWrite BINARY nCount out w).1 = nCount := by
  simp [fileWrite]

/-- One pass of the block loop of `readEEPROM` in binary mode, `m` being the
smaller of 1024 and the number of addresses up to `endAddress`: the loop is left
with result 1 when `readBlock` returns fewer than `m` bytes, else the block is
written to the file and the loop goes on. -/
theorem readEEPROMLoop_step (dev : Nat → Nat) (f i m : Nat) (out : List Nat) (w : World)
    (hle : i ≤ w.endAddress) (hm : m = min 1024 (w.endAddress + 1 - i)) :
    readEEPROMLoop dev BINARY (f + 1) i out w =
      if (readBlock dev i (m : Int) w).1 ≠ m then (some 1, out, (readBlock dev i (m : Int) w).2)
      else readEEPROMLoop dev BINARY f
        ((i + (readBlock dev i (m : Int) w).1 % 65536) % 65536)
        (fileWrite BINARY (readBlock dev i (m : Int) w).1 out (readBlock dev i (m : Int) w).2).2
        (readBlock dev i (m : Int) w).2 := by
  have hnc : (if ((w.endAddress : Int) - i + 1) > (DATA_BUFFER : Nat) then
      ((DATA_BUFFER : Nat) : Int) else (w.endAddress : Int) - i + 1) = (m : Int) := by
    have hD : DATA_BUFFER = 1024 := rfl
    split <;> omega
  rw [readEEPROMLoop, if_pos hle]
  simp only [hnc, fileWrite_binary]
  by_cases h : (readBlock dev i (m : Int) w).1 = m
  · have h2 : ¬ (((readBlock dev i (m : Int) w).1 : Nat) : Int) ≠ (m : Int) := by
      rw [h]; exact fun h => h rfl
    rw [if_neg h2, if_neg (fun h3 => h3 rfl), if_neg (fun h3 => h3 h)]
  · have h2 : (((readBlock dev i (m : Int) w).1 : Nat) : Int) ≠ (m : Int) := by
      exact_mod_cast h
    rw [if_pos h2, if_pos h]

/-- The block loop of `readEEPROM` in binary mode when `endAddress` is beyond the
device: entered at `i ≤ EEPROM_SIZE`, it reads every device byte from `i` to the
end of the device, in order, and then ends with result 1. -/
theorem readEEPROMLoop_overrun (dev : Nat → Nat) :
    ∀ (fuel i : Nat) (out : List Nat) (w : World),
      EEPROM_SIZE ≤ w.endAddress → i ≤ EEPROM_SIZE → (EEPROM_SIZE - i) / 1024 < fuel →
      ∃ l, (readEEPROMLoop dev BINARY fuel i out w).2.2.calls = w.calls ++ l ∧
        (readEEPROMLoop dev BINARY fuel i out w).1 = some 1 ∧
        readCalls l = (List.range (EEPROM_SIZE - i)).map
          (fun k => (i + k, dev (w.port.reads + k) % 256)) ∧
        (readEEPROMLoop dev BINARY fuel i out w).2.2.port.reads =
          w.port.reads + (EEPROM_SIZE - i) := by
  have hE : EEPROM_SIZE = 32768 := rfl
  intro fuel
  induction fuel with
  | zero => intro i out w _ _ hf; omega
  | succ f ih =>
    intro i out w he hi hf
    obtain ⟨m, hm⟩ : ∃ m, m = min 1024 (w.endAddress + 1 - i) := ⟨_, rfl⟩
    have hunf := readEEPROMLoop_step dev f i m out w (by omega) hm
    obtain ⟨b1, b2, b3, l1, b4, b5⟩ := readBlock_run dev i m w
    rw [hunf]
    clear hunf
    generalize readBlock dev i (m : Int) w = rb at b1 b2 b3 b4 ⊢
    by_cases hret : rb.1 = m
    · have hm1024 : m = 1024 := by omega
      have hin : i + m ≤ EEPROM_SIZE := by omega
      rw [if_neg (fun h => h hret), hret]
      have hw : (i + m % 65536) % 65536 = i + m := by omega
      rw [hw]
      obtain ⟨l2, k1, k2, k3, k4⟩ := ih (i + m) (fileWrite BINARY m out rb.2).2 rb.2
        (by rw [b2]; exact he) hin (by omega)
      generalize readEEPROMLoop dev BINARY f (i + m) (fileWrite BINARY m out rb.2).2 rb.2
        = run at k1 k2 k4 ⊢
      have hmin : min m (EEPROM_SIZE - i) = m := by omega
      have hsum : EEPROM_SIZE - i = m + (EEPROM_SIZE - (i + m)) := by omega
      refine ⟨l1 ++ l2, by rw [k1, b4, List.append_assoc], k2, ?_, ?_⟩
      · rw [readCalls_append, b5, k3, b3, hmin, hsum, List.range_add, List.map_append,
          List.map_map]
        simp only [Nat.add_assoc]
        rfl
      · rw [k4, b3, hmin, Nat.add_assoc, ← hsum]
    · rw [if_pos hret]
      have hmin : min m (EEPROM_SIZE - i) = EEPROM_SIZE - i := by omega
      refine ⟨l1, b4, rfl, ?_, ?_⟩
      · rw [b5, hmin]
      · show rb.2.port.reads = _
        rw [b3, hmin]

theorem setAddress_ops (a : Nat) (cs : Int) (w : World) :
    ∃ l, (setAddress a cs w).2.ops = w.ops ++ l := by
  by_cases h : a ≥ EEPROM_SIZE
  · rw [setAddress_reject a cs w h]; exact ⟨[], by simp⟩
  · obtain ⟨l1, l2, l3, l4, h1, h2, h3, h4, -, e, -⟩ :=
      setAddress_latch_sequence a cs w (by omega)
    exact ⟨_, e⟩

theorem readByte_ops (dev : Nat → Nat) (a : Nat) (w : World) :
    ∃ l, (readByte dev a w).2.ops = w.ops ++ l := by
  unfold readByte
  obtain ⟨l1, e1⟩ := setAddress_ops a CS_CLR w
  generalize setAddress a CS_CLR w = s1 at e1 ⊢
  simp only []
  obtain ⟨l2, e2⟩ := setAddress_ops a CS_SET
    (ieee1284_data_dir DIR_WRITE (setStrobe (ieee1284_read_data dev (usleep 10 (clrStrobe
      (selectFunc FUNC_OE (ieee1284_data_dir DIR_READ s1.2))))).2))
  have e3 : ∃ l3, (ieee1284_data_dir DIR_WRITE (setStrobe (ieee1284_read_data dev (usleep 10
      (clrStrobe (selectFunc FUNC_OE (ieee1284_data_dir DIR_READ s1.2))))).2)).ops
      = w.ops ++ l3 := by
    simp only [selectFunc, setStrobe, clrStrobe, usleep, ieee1284_write_control,
      ieee1284_read_control, ieee1284_read_data, ieee1284_data_dir, e1, List.append_assoc]
    exact ⟨_, rfl⟩
  obtain ⟨l3, e3⟩ := e3
  exact ⟨l3 ++ l2, by rw [e2, e3, List.append_assoc]⟩

theorem readBlockLoop_ops (dev : Nat → Nat) (address : Nat) (nCount : Int) :
    ∀ (fuel i : Nat) (w : World),
      ∃ l, (readBlockLoop dev address nCount fuel i w).2.ops = w.ops ++ l := by
  intro fuel
  induction fuel with
  | zero => intro i w; exact ⟨[], by simp [readBlockLoop]⟩
  | succ f ih =>
    intro i w
    rw [readBlockLoop]
    split
    · split
      · exact ⟨[], by simp⟩
      · obtain ⟨l1, e1⟩ := readByte_ops dev ((i % 65536 + address) % 65536) w
        obtain ⟨l2, e2⟩ := ih (i + 1)
          { (readByte dev ((i % 65536 + address) % 65536) w).2 with
            buffer := (readByte dev ((i % 65536 + address) % 65536) w).2.buffer.set i
              (readByte dev ((i % 65536 + address) % 65536) w).1 }
        exact ⟨l1 ++ l2, by rw [e2]; simp only [e1, List.append_assoc]⟩
    · exact ⟨[], by simp⟩

/-- The block loop of `readEEPROM` only adds to the log of port accesses. -/
theorem readEEPROMLoop_ops (dev : Nat → Nat) (nFileFlag : Int) :
    ∀ (fuel i : Nat) (out : List Nat) (w : World),
      ∃ l, (readEEPROMLoop dev nFileFlag fuel i out w).2.2.ops = w.ops ++ l := by
  intro fuel
  induction fuel with
  | zero => intro i out w; exact ⟨[], by simp [readEEPROMLoop]⟩
  | succ f ih =>
    intro i out w
    rw [readEEPROMLoop]
    split
    · simp only []
      generalize (if ((w.endAddress : Int) - i + 1) > (DATA_BUFFER : Nat) then
        ((DATA_BUFFER : Nat) : Int) else (w.endAddress : Int) - i + 1) = nCount
      obtain ⟨l1, e1⟩ : ∃ l, (readBlock dev i nCount w).2.ops = w.ops ++ l :=
        readBlockLoop_ops dev i nCount nCount.toNat 0 w
      generalize readBlock dev i nCount w = rb at e1 ⊢
      split
      · exact ⟨l1, e1⟩
      · split
        · exact ⟨l1, e1⟩
        · obtain ⟨l2, e2⟩ := ih ((i + rb.1 % 65536) % 65536) (fileWrite nFileFlag rb.1 out rb.2).2
            rb.2
          exact ⟨l1 ++ l2, by rw [e2, e1, List.append_assoc]⟩
    · exact ⟨[], by simp⟩

/-- `selectFunc` touches the control register only. -/
theorem selectFunc_frame (nFunc : Nat) (w : World) :
    (selectFunc nFunc w).port.reads = w.port.reads ∧
    (selectFunc nFunc w).calls = w.calls ∧
    ∃ l, (selectFunc nFunc w).ops = w.ops ++ l := by
  refine ⟨rfl, rfl, ?_⟩
  simp only [selectFunc, ieee1284_write_control, ieee1284_read_control, List.append_assoc]
  exact ⟨_, rfl⟩

/-- What the initialisation of the programmer in `main` does to the state: it
starts with the writes of `DATA_INIT` and `CNTRL_INIT` to the data and control
registers, logs the call `setAddress(0, CS_SET)`, reads no device byte and keeps
the configured address range. -/
theorem progInit_frame (st1 st2 : Int) (w : World) :
    (progInit st1 st2 w).2.port.reads = w.port.reads ∧
    (progInit st1 st2 w).2.startAddress = w.startAddress ∧
    (progInit st1 st2 w).2.endAddress = w.endAddress ∧
    (progInit st1 st2 w).2.calls = w.calls ++ [Call.setAddress 0 CS_SET 0] ∧
    ∃ l, (progInit st1 st2 w).2.ops =
      w.ops ++ (PortOp.writeData DATA_INIT :: PortOp.writeControl CNTRL_INIT :: l) := by
  obtain ⟨f1, -, f3, f4, f5, f6⟩ := setAddress_frame 0 CS_SET
    (ieee1284_write_control CNTRL_INIT (ieee1284_write_data DATA_INIT w))
  obtain ⟨lo, e⟩ := setAddress_ops 0 CS_SET
    (ieee1284_write_control CNTRL_INIT (ieee1284_write_data DATA_INIT w))
  rw [if_neg (by decide)] at f6
  rw [f6] at f5
  unfold progInit
  simp only []
  generalize setAddress 0 CS_SET
    (ieee1284_write_control CNTRL_INIT (ieee1284_write_data DATA_INIT w)) = sa at f1 f3 f4 f5 e
  unfold isProgReady
  simp only [ieee1284_read_control, ieee1284_write_control, ieee1284_read_status]
  refine ⟨?_, ?_, ?_, ?_, ?_⟩
  · split <;> exact f1
  · split <;> exact f3
  · split <;> exact f4
  · split <;> exact f5
  · split
    · simp only [e, ieee1284_write_control, ieee1284_write_data, List.append_assoc,
        List.cons_append, List.nil_append]
      exact ⟨_, rfl⟩
    · simp only [e, ieee1284_write_control, ieee1284_write_data, List.append_assoc,
        List.cons_append, List.nil_append]
      exact ⟨_, rfl⟩

/-- `readEEPROM` entered with a valid start address, in binary mode with the
output file opened: it is the block loop run on the state that
`setAddress(startAddress, CS_SET)` leaves. -/
theorem readEEPROM_enter (dev : Nat → Nat) (fuel : Nat) (w : World)
    (hs : w.startAddress < EEPROM_SIZE) :
    readEEPROM dev fuel BINARY true w =
      readEEPROMLoop dev BINARY fuel w.startAddress [] (setAddress w.startAddress CS_SET w).2 := by
  obtain ⟨-, -, f3, -, -, f6⟩ := setAddress_frame w.startAddress CS_SET w
  have h0 : (setAddress w.startAddress CS_SET w).1 = 0 := by
    rw [f6, if_neg (by omega)]
  rw [readEEPROM]
  simp only [h0, ne_eq, not_true_eq_false, if_false, if_true, f3]

/-- `readEEPROM` entered with a start address beyond the device: it returns 1,
writes nothing to the file, and only the rejected `setAddress` call is logged. -/
theorem readEEPROM_reject (dev : Nat → Nat) (fuel : Nat) (nFileFlag : Int) (fileOk : Bool)
    (w : World) (hs : w.startAddress ≥ EEPROM_SIZE) :
    readEEPROM dev fuel nFileFlag fileOk w =
      (some 1, [], { w with calls := w.calls ++ [Call.setAddress w.startAddress CS_SET 1] }) := by
  rw [readEEPROM, setAddress_reject _ _ _ hs]
  simp

/-- C13 (as the code has it): the read operation, `readAction` (`main` from its
range check on, with `readEEPROM`), on a configured range.
(1) If `start > end`, `main` ends with exit code 1 before any hardware access:
`readEEPROM` is not called and the state, port registers and port-access log
included, is unchanged.
(2) If `start ≤ end` and `start ≥ DEVICE_SIZE`, and the programmer passes the
loop-back test, `readEEPROM` is called and returns 1 having written nothing to
the file, accessed no port register and read no device byte (it only logs the
rejected `setAddress` call); but `main` has initialised the programmer before:
the port accesses of the run start with the writes of `DATA_INIT` and
`CNTRL_INIT`.
(3) If only `end ≥ DEVICE_SIZE` (`start ≤ end`, `start < DEVICE_SIZE`, binary
mode, output file opened, loop-back test passed), `readEEPROM` also returns 1,
but after the start address has been latched through the port and the device
bytes `start` .. `DEVICE_SIZE - 1` have been read, in order: the overrun is
detected when a block comes back short. -/
theorem read_range_rejection (dev : Nat → Nat) (st1 st2 : Int) (fuel : Nat) (nFileFlag : Int)
    (fileOk : Bool) (w : World) :
    (w.startAddress > w.endAddress →
      readAction dev st1 st2 fuel nFileFlag fileOk w = (1, none, w)) ∧
    (w.startAddress ≤ w.endAddress → w.startAddress ≥ EEPROM_SIZE →
      (progInit st1 st2 w).1 ≠ 0 →
      (readAction dev st1 st2 fuel nFileFlag fileOk w).2.1 = some (some 1, []) ∧
      (readAction dev st1 st2 fuel nFileFlag fileOk w).2.2 =
        selectFunc FUNC_LOOP { (progInit st1 st2 w).2 with
          calls := (progInit st1 st2 w).2.calls ++ [Call.setAddress w.startAddress CS_SET 1] } ∧
      (newOps w (readAction dev st1 st2 fuel nFileFlag fileOk w).2.2).take 2 =
        [PortOp.writeData DATA_INIT, PortOp.writeControl CNTRL_INIT] ∧
      readCalls (newCalls w (readAction dev st1 st2 fuel nFileFlag fileOk w).2.2) = [] ∧
      (readAction dev st1 st2 fuel nFileFlag fileOk w).2.2.port.reads = w.port.reads) ∧
    (w.startAddress ≤ w.endAddress → w.startAddress < EEPROM_SIZE →
      EEPROM_SIZE ≤ w.endAddress → nFileFlag = BINARY → fileOk = true →
      (progInit st1 st2 w).1 ≠ 0 → (EEPROM_SIZE - w.startAddress) / 1024 < fuel →
      (∃ out, (readAction dev st1 st2 fuel nFileFlag fileOk w).2.1 = some (some 1, out)) ∧
      PortOp.writeData (w.startAddress % 256) ∈
        (newOps w (readAction dev st1 st2 fuel nFileFlag fileOk w).2.2).drop 2 ∧
      readCalls (newCalls w (readAction dev st1 st2 fuel nFileFlag fileOk w).2.2) =
        (List.range (EEPROM_SIZE - w.startAddress)).map
          (fun k => (w.startAddress + k, dev (w.port.reads + k) % 256)) ∧
      (readAction dev st1 st2 fuel nFileFlag fileOk w).2.2.port.reads =
        w.port.reads + (EEPROM_SIZE - w.startAddress)) := by
  obtain ⟨p1, p2, p3, p4, lp, p5⟩ := progInit_frame st1 st2 w
  refine ⟨?_, ?_, ?_⟩
  · intro hgt
    rw [readAction, if_pos hgt]
  · intro hle hge hr
    have hun : readAction dev st1 st2 fuel nFileFlag fileOk w =
        (0, some (some 1, []), selectFunc FUNC_LOOP { (progInit st1 st2 w).2 with
          calls := (progInit st1 st2 w).2.calls ++
            [Call.setAddress w.startAddress CS_SET 1] }) := by
      rw [readAction, if_neg (by omega)]
      simp only [hr, ne_eq, not_false_eq_true, if_true]
      rw [readEEPROM_reject dev fuel _ fileOk _ (by rw [p2]; exact hge), p2]
    rw [hun]
    obtain ⟨s1, s2, ls, s3⟩ := selectFunc_frame FUNC_LOOP { (progInit st1 st2 w).2 with
      calls := (progInit st1 st2 w).2.calls ++ [Call.setAddress w.startAddress CS_SET 1] }
    generalize selectFunc FUNC_LOOP { (progInit st1 st2 w).2 with
      calls := (progInit st1 st2 w).2.calls ++ [Call.setAddress w.startAddress CS_SET 1] }
      = fin at s1 s2 s3
    refine ⟨rfl, rfl, ?_, ?_, ?_⟩
    · rw [newOps_of_append w fin
        (PortOp.writeData DATA_INIT :: PortOp.writeControl CNTRL_INIT :: (lp ++ ls))
        (by rw [s3]; simp only [p5, List.append_assoc, List.cons_append])]
      rfl
    · rw [newCalls_of_append w fin
        ([Call.setAddress 0 CS_SET 0] ++ [Call.setAddress w.startAddress CS_SET 1])
        (by rw [s2]; simp only [p4, List.append_assoc])]
      simp [readCalls]
    · rw [s1]; exact p1
  · intro hle hs he hb hok hr hf
    subst hb
    subst hok
    obtain ⟨f1, -, -, f4, f5, f6⟩ := setAddress_frame w.startAddress CS_SET (progInit st1 st2 w).2
    rw [if_neg (by omega)] at f6
    rw [f6] at f5
    obtain ⟨le, e⟩ : ∃ le, (setAddress w.startAddress CS_SET (progInit st1 st2 w).2).2.ops =
        (progInit st1 st2 w).2.ops ++ (PortOp.writeData (w.startAddress % 256) :: le) := by
      obtain ⟨l1, l2, l3, l4, h1, h2, h3, h4, -, e, -⟩ :=
        setAddress_latch_sequence w.startAddress CS_SET (progInit st1 st2 w).2 hs
      exact ⟨_, e⟩
    obtain ⟨l, k1, k2, k3, k4⟩ := readEEPROMLoop_overrun dev fuel w.startAddress []
      (setAddress w.startAddress CS_SET (progInit st1 st2 w).2).2
      (by rw [f4, p3]; exact he) (Nat.le_of_lt hs) hf
    obtain ⟨lo, o1⟩ := readEEPROMLoop_ops dev BINARY fuel w.startAddress []
      (setAddress w.startAddress CS_SET (progInit st1 st2 w).2).2
    have hun : readAction dev st1 st2 fuel BINARY true w =
        (0, some ((readEEPROMLoop dev BINARY fuel w.startAddress []
            (setAddress w.startAddress CS_SET (progInit st1 st2 w).2).2).1,
          (readEEPROMLoop dev BINARY fuel w.startAddress []
            (setAddress w.startAddress CS_SET (progInit st1 st2 w).2).2).2.1),
          selectFunc FUNC_LOOP (readEEPROMLoop dev BINARY fuel w.startAddress []
            (setAddress w.startAddress CS_SET (progInit st1 st2 w).2).2).2.2) := by
      rw [readAction, if_neg (by omega)]
      simp only [hr, ne_eq, not_false_eq_true, if_true]
      rw [if_neg (by decide), readEEPROM_enter dev fuel _ (by rw [p2]; exact hs), p2]
    rw [hun]
    generalize readEEPROMLoop dev BINARY fuel w.startAddress []
      (setAddress w.startAddress CS_SET (progInit st1 st2 w).2).2 = run at k1 k2 k4 o1
    generalize setAddress w.startAddress CS_SET (progInit st1 st2 w).2 = sa
      at f1 f5 e k1 k3 k4 o1
    obtain ⟨s1, s2, ls, s3⟩ := selectFunc_frame FUNC_LOOP run.2.2
    generalize selectFunc FUNC_LOOP run.2.2 = fin at s1 s2 s3
    generalize progInit st1 st2 w = pi at p1 p4 p5 f1 f5 e
    refine ⟨⟨run.2.1, by rw [k2]⟩, ?_, ?_, ?_⟩
    · rw [newOps_of_append w fin
        (PortOp.writeData DATA_INIT :: PortOp.writeControl CNTRL_INIT ::
          (lp ++ (PortOp.writeData (w.startAddress % 256) :: (le ++ (lo ++ ls)))))
        (by rw [s3, o1, e, p5]; simp only [List.append_assoc, List.cons_append])]
      simp
    · rw [newCalls_of_append w fin
        ([Call.setAddress 0 CS_SET 0] ++ ([Call.setAddress w.startAddress CS_SET 0] ++ l))
        (by rw [s2, k1, f5, p4]; simp only [List.append_assoc])]
      simp only [readCalls_append, k3, f1, p1]
      simp [readCalls]
    · rw [s1, k4, f1, p1]

theorem read_range_rejection_witness :
    ({ initWorld with startAddress := 0x7000, endAddress := 0x6000 } : World).startAddress >
      ({ initWorld with startAddress := 0x7000, endAddress := 0x6000 } : World).endAddress ∧
    readAction (fun n => n) 0x80 0 1 BINARY true
        { initWorld with startAddress := 0x7000, endAddress := 0x6000 } =
      (1, none, { initWorld with startAddress := 0x7000, endAddress := 0x6000 }) ∧
    (progInit 0x80 0 { initWorld with startAddress := 0x9000, endAddress := 0x9000 }).1 ≠ 0 ∧
    (readAction (fun n => n) 0x80 0 1 BINARY true
      { initWorld with startAddress := 0x9000, endAddress := 0x9000 }).2.1 = some (some 1, []) ∧
    (readAction (fun n => n) 0x80 0 1 BINARY true
      { initWorld with startAddress := 0x9000, endAddress := 0x9000 }).2.2.port.reads = 0 ∧
    (progInit 0x80 0 { initWorld with startAddress := 0x7000, endAddress := 0x9000 }).1 ≠ 0 ∧
    (readAction (fun n => n) 0x80 0 40 BINARY true
      { initWorld with startAddress := 0x7000, endAddress := 0x9000 }).2.2.port.reads =
        0x1000 := by
  have a1 := (read_range_rejection (fun n => n) 0x80 0 1 BINARY true
    { initWorld with startAddress := 0x7000, endAddress := 0x6000 }).1 (by decide)
  obtain ⟨b1, -, -, -, b5⟩ := (read_range_rejection (fun n => n) 0x80 0 1 BINARY true
    { initWorld with startAddress := 0x9000, endAddress := 0x9000 }).2.1
    (by decide) (by decide) (by decide)
  obtain ⟨-, -, -, c4⟩ := (read_range_rejection (fun n => n) 0x80 0 40 BINARY true
    { initWorld with startAddress := 0x7000, endAddress := 0x9000 }).2.2
    (by decide) (by decide) (by decide) rfl rfl (by decide) (by decide)
  exact ⟨by decide, a1, by decide, b1, b5, by decide, c4⟩

/-- C13 as stated fails.  With the programmer answering the loop-back test:
for the range `0x8000` .. `0x8000` (`start ≥ DEVICE_SIZE`) `readEEPROM` returns
1, but the port has been written before (the port accesses of the run start
with the writes of `DATA_INIT` and `CNTRL_INIT` by `main`); for the range
`0x7fff` .. `0x8000` (only `end ≥ DEVICE_SIZE`) `readEEPROM` returns 1 after the
device byte at `0x7fff` has been read. -/
theorem read_rejected_after_hardware_access :
    (readAction (fun _ => 0x5a) 0x80 0 2 BINARY true
      { initWorld with startAddress := 0x8000, endAddress := 0x8000 }).2.1 =
        some (some 1, []) ∧
    (newOps { initWorld with startAddress := 0x8000, endAddress := 0x8000 }
      (readAction (fun _ => 0x5a) 0x80 0 2 BINARY true
        { initWorld with startAddress := 0x8000, endAddress := 0x8000 }).2.2).take 2 =
      [PortOp.writeData 0xff, PortOp.writeControl 0x0f] ∧
    (readAction (fun _ => 0x5a) 0x80 0 2 BINARY true
      { initWorld with startAddress := 0x7fff, endAddress := 0x8000 }).2.1 =
        some (some 1, []) ∧
    readCalls (newCalls { initWorld with startAddress := 0x7fff, endAddress := 0x8000 }
      (readAction (fun _ => 0x5a) 0x80 0 2 BINARY true
        { initWorld with startAddress := 0x7fff, endAddress := 0x8000 }).2.2) =
      [(0x7fff, 0x5a)] ∧
    (readAction (fun _ => 0x5a) 0x80 0 2 BINARY true
      { initWorld with startAddress := 0x7fff, endAddress := 0x8000 }).2.2.port.reads = 1 := by
  refine ⟨?_, ?_, ?_, ?_, ?_⟩ <;> decide

end Prog
